import Mathlib

/-! Gambit: the `logit` command-line driver

A shallow embedding of `src/sources/tools/logit/logit.cc`.

The driver's own code (`PrintBanner`, `PrintHelp`, `ReadProfile`, `main`) is
translated function by function.  Everything the driver calls but does not
define is environment: the C library (`getopt`, `atoi`, `atof`, `isprint`,
the stream extractors) and the Gambit library (`ReadGame`, the `Game`
methods, the two tracers).  The C library is modelled after its documented
behaviour; the Gambit library is collected in a record `World` of oracles,
so that every theorem holds for whatever those collaborators do.

A run of `main` is observed through the ordered list of its effects
(`Event`) and through the way the process ends (`Exit`).
-/

namespace Logit

/-! ## Values and effects -/

/-- A C++ `double`.  The driver never computes with doubles: it only stores
source literals and results of `atof` and passes them on, so a value is
carried as the rational number it denotes. -/
abbrev Double := ℚ

/-- The standard output streams of the process. -/
inductive Stream
  | cout
  | cerr
  deriving DecidableEq, Repr

/-- The operand of one `<<` insertion: a C string, a `char`, or an `int`. -/
inductive Chunk
  | str (s : String)
  | chr (c : Char)
  | int (n : Int)
  deriving DecidableEq, Repr

/-- An exception crossing the `try` block of `main`: the one it names, or
any other (caught by `catch (...)`). -/
inductive Thrown
  | InvalidFileException
  | other
  deriving DecidableEq, Repr

/-- What `main` uses of a `Gambit::Game`: an identity and the two queries
`IsTree()` and `MixedProfileLength()`. -/
structure Game where
  handle : Nat
  IsTree : Bool
  MixedProfileLength : Nat
  deriving DecidableEq, Repr

/-- The value built by `Gambit::MixedStrategyProfile<double> start(game)`. -/
structure MixedStrategyProfile where
  game : Game
  deriving DecidableEq, Repr

/-- The value built by `Gambit::MixedBehavProfile<double> start(game)`. -/
structure MixedBehavProfile where
  game : Game
  deriving DecidableEq, Repr

/-- The file-scope variables of logit.cc (lines 31-36) with their
initialisers.  `g_obsProbs` is a 1-based `Gambit::Array<double>`, kept as
the list of its elements. -/
structure Globals where
  g_maxDecel : Double := 1.1
  g_hStart : Double := 0.03
  g_fullGraph : Bool := true
  g_numDecimals : Int := 6
  g_maxLike : Bool := false
  g_obsProbs : List Double := []
  deriving DecidableEq

/-- The variables `main` works on: the globals and its own locals
(lines 97-99) with their initialisers. -/
structure Vars where
  g : Globals := {}
  quiet : Bool := false
  useStrategic : Bool := false
  maxLambda : Double := 1000000.0
  mleFile : String := ""
  deriving DecidableEq

/-- One observable effect of a run, in program order.  A tracer call records
the globals as they stand at the call (the tracers are `extern` and read
them) together with the four arguments. -/
inductive Event
  | write (s : Stream) (c : Chunk)
  | ReadGame
  | BuildComputedValues (game : Game)
  | TraceStrategicPath (g : Globals) (p_start : MixedStrategyProfile)
      (p_startLambda p_maxLambda p_omega : Double)
  | TraceAgentPath (g : Globals) (p_start : MixedBehavProfile)
      (p_startLambda p_maxLambda p_omega : Double)
  deriving DecidableEq

/-- How the process ends: `return n` from `main`, `exit(n)`, `abort()`,
undefined behaviour (a null `optarg` handed to a conversion), or the option
loop of the model running out of fuel (shown below never to happen). -/
inductive Exit
  | returned (code : Int)
  | exited (code : Int)
  | aborted
  | undefined
  | unfinished
  deriving DecidableEq, Repr

/-- The collaborators of the driver that are not defined in logit.cc.

* `VERSION`: the build macro spliced into the banner.
* `permute`: whether the C library's `getopt` skips non-option arguments
  (GNU default) or stops at the first one (POSIX).
* `atoi`, `atof`: the C conversions.
* `num_get`: the stream's numeric parser, applied after leading white
  space has been skipped: the value parsed, if any, and the unread rest.
* `ReadGame`: the result of `Gambit::ReadGame(std::cin)`.
* `BuildComputedValues`, `TraceStrategicPath`, `TraceAgentPath`: `none` when
  the call returns, `some e` when it throws `e`.  These three and `ReadGame`
  are the calls of the `try` block taken to be able to throw.
* `files`: the contents of a file, `none` when it cannot be opened.
* `uninitialised`: the contents of a freshly allocated array of doubles. -/
structure World where
  VERSION : String
  permute : Bool
  atoi : String → Int
  atof : String → Double
  num_get : List Char → Option Double × List Char
  ReadGame : Except Thrown Game
  BuildComputedValues : Game → Option Thrown
  TraceStrategicPath : Globals → MixedStrategyProfile → Double → Double → Double → Option Thrown
  TraceAgentPath : Globals → MixedBehavProfile → Double → Double → Double → Option Thrown
  files : String → Option (List Char)
  uninitialised : Nat → Double

/-! ## The C library: `getopt`, `isprint`, `isspace` -/

/-- The state `getopt` keeps between calls.  `rest` holds the elements of
`argv` not looked at yet, `nextchar` the unread characters of the option
element being scanned; `optarg` and `optopt` are the two globals `main`
reads. -/
structure GetoptData where
  rest : List String
  nextchar : List Char := []
  optarg : Option String := none
  optopt : Char := '?'
  deriving DecidableEq, Repr

/-- C `strchr` on the option string: the suffix that starts at the first
occurrence of `c`. -/
def strchr : List Char → Char → Option (List Char)
  | [], _ => none
  | x :: xs, c => if x = c then some (x :: xs) else strchr xs c

/-- Advance to the next option element of `argv`: its characters after the
dash and the elements that follow it.  `--` ends the scan; an element that
does not start with a dash, or is a lone dash, is a non-option: it ends the
scan, or is skipped when `getopt` permutes. -/
def nextElement (permute : Bool) : List String → Option (Char × List Char × List String)
  | [] => none
  | a :: rest =>
    if a = "--" then none
    else
      match a.data with
      | '-' :: c :: cs => some (c, cs, rest)
      | _ => if permute then nextElement permute rest else none

/-- Handle the short option character `c`; `cs` are the characters after it
in its element and `rest` the following elements. -/
def shortOption (optstring : List Char) (c : Char) (cs : List Char) (rest : List String)
    (optopt : Char) : Option Char × GetoptData :=
  match strchr optstring c with
  | none => (some '?', { rest := rest, nextchar := cs, optarg := none, optopt := c })
  | some temp =>
    if c = ':' ∨ c = ';' then
      (some '?', { rest := rest, nextchar := cs, optarg := none, optopt := c })
    else if temp.tail.head? = some ':' then
      if temp.tail.tail.head? = some ':' then
        -- an option with an optional argument
        match cs with
        | [] => (some c, { rest := rest, nextchar := [], optarg := none, optopt := optopt })
        | _ :: _ =>
          (some c, { rest := rest, nextchar := [], optarg := some (String.mk cs), optopt := optopt })
      else
        -- an option that requires an argument
        match cs with
        | _ :: _ =>
          (some c, { rest := rest, nextchar := [], optarg := some (String.mk cs), optopt := optopt })
        | [] =>
          match rest with
          | [] =>
            (some (if optstring.head? = some ':' then ':' else '?'),
              { rest := [], nextchar := [], optarg := none, optopt := c })
          | a :: rest1 =>
            (some c, { rest := rest1, nextchar := [], optarg := some a, optopt := optopt })
    else
      (some c, { rest := rest, nextchar := cs, optarg := none, optopt := optopt })

/-- The option character `getopt` looks at next, with the characters after
it in its element and the elements after that: the next character of the
element being scanned or, when that is used up, the first character of the
next option element. -/
def nextOption (permute : Bool) (d : GetoptData) : Option (Char × List Char × List String) :=
  match d.nextchar with
  | c :: cs => some (c, cs, d.rest)
  | [] => nextElement permute d.rest

/-- One call of `getopt(argc, argv, optstring)` with `opterr = 0` (nothing
is printed): the value returned (`none` for -1) and the new state. -/
def getopt (permute : Bool) (optstring : List Char) (d : GetoptData) :
    Option Char × GetoptData :=
  match nextOption permute d with
  | none => (none, { rest := [], nextchar := [], optarg := none, optopt := d.optopt })
  | some (c, cs, rest) => shortOption optstring c cs rest d.optopt

/-- C `isprint` in the "C" locale (the driver never calls `setlocale`). -/
def isprint (c : Char) : Bool := decide (32 ≤ c.toNat) && decide (c.toNat ≤ 126)

/-- C `isspace` in the "C" locale. -/
def isspace (c : Char) : Bool :=
  c = ' ' || c = '\t' || c = '\n' || c.toNat = 11 || c.toNat = 12 || c = '\r'

/-! ## The C++ library: input streams -/

/-- An input stream: the unread characters and the three state bits. -/
structure IStream where
  buf : List Char
  eofbit : Bool := false
  failbit : Bool := false
  badbit : Bool := false
  deriving DecidableEq, Repr

/-- The member `good()`: no state bit is set. -/
def IStream.good (s : IStream) : Bool := !s.eofbit && !s.failbit && !s.badbit

/-- Opening `std::ifstream mleData(name)`: a file that cannot be opened
gives a stream with `failbit` set. -/
def ifstream (w : World) (name : String) : IStream :=
  match w.files name with
  | some content => { buf := content }
  | none => { buf := [], failbit := true }

/-- The extraction `p_stream >> x` for a `double` whose current value is `old`: the
stream afterwards and the value of `x` afterwards.  A stream that is not
good only gets `failbit`; otherwise white space is skipped and the number is
parsed.  Reaching the end of the input sets `eofbit`.  When the stream is not
good, or holds nothing but white space, nothing is extracted: `failbit` is set
and `x` is left as it was.  When the text is not a number, `failbit` is set
and 0 is stored in `x`. -/
def IStream.extractDouble (w : World) (s : IStream) (old : Double) : IStream × Double :=
  if s.good then
    match s.buf.dropWhile isspace with
    | [] => ({ s with buf := [], eofbit := true, failbit := true }, old)
    | b :: bs =>
      match w.num_get (b :: bs) with
      | (some v, rest) => ({ s with buf := rest, eofbit := rest.isEmpty }, v)
      | (none, rest) => ({ s with buf := rest, eofbit := rest.isEmpty, failbit := true }, 0)
  else ({ s with failbit := true }, old)

/-- The extraction `p_stream >> comma` for a `char`: white space is skipped and
one character is read (`none` when nothing is read). -/
def IStream.extractChar (s : IStream) : IStream × Option Char :=
  if s.good then
    match s.buf.dropWhile isspace with
    | [] => ({ s with buf := [], eofbit := true, failbit := true }, none)
    | b :: bs => ({ s with buf := bs }, some b)
  else ({ s with failbit := true }, none)

/-- The call `std::getline(p_stream, foo)` on an empty `foo`: characters up to
the next newline are stored, the newline itself is consumed and dropped. -/
def IStream.getline (s : IStream) : IStream × String :=
  if s.good then
    match s.buf.dropWhile (fun c => c != '\n') with
    | [] =>
      ({ s with buf := [], eofbit := true, failbit := s.buf.isEmpty },
        String.mk s.buf)
    | _ :: rest => ({ s with buf := rest }, String.mk (s.buf.takeWhile (fun c => c != '\n')))
  else ({ s with failbit := true }, "")

/-! ## logit.cc -/

/-- The body of `PrintBanner(p_stream)` (lines 38-43): three insertions. -/
def PrintBanner (w : World) (p_stream : Stream) : List Event :=
  [ .write p_stream (.str "Compute a branch of the logit equilibrium correspondence\n"),
    .write p_stream
      (.str ("Gambit version " ++ w.VERSION ++ ", Copyright (C) 2005, The Gambit Project\n")),
    .write p_stream (.str "This is free software, distributed under the GNU GPL\n\n") ]

/-- The insertions `PrintHelp` makes after the banner (lines 48-59). -/
def usageText (progname : String) : List Event :=
  [ .write .cerr (.str "Usage: "),
    .write .cerr (.str progname),
    .write .cerr (.str " [OPTIONS]\n"),
    .write .cerr (.str "Accepts game on standard input.\n"),
    .write .cerr (.str "Options:\n"),
    .write .cerr
      (.str "  -d DECIMALS      show equilibria as floating point with DECIMALS digits\n"),
    .write .cerr (.str "  -s STEP          initial stepsize (default is .03)\n"),
    .write .cerr (.str "  -a ACCEL         maximum acceleration (default is 1.1)\n"),
    .write .cerr
      (.str "  -m MAXLAMBDA     stop when reaching MAXLAMBDA (default is 1000000)\n"),
    .write .cerr (.str "  -h               print this help message\n"),
    .write .cerr (.str "  -q               quiet mode (suppresses banner)\n"),
    .write .cerr (.str "  -e               print only the terminal equilibrium\n"),
    .write .cerr (.str "                   (default is to print the entire branch)\n") ]

/-- The effects of `PrintHelp(progname)` (lines 45-61) up to its `exit(1)`. -/
def PrintHelp (w : World) (progname : String) : List Event :=
  PrintBanner w .cerr ++ usageText progname

/-- The loop of `ReadProfile` (lines 68-78) with `n` iterations left to
run, at index `i` (1-based, as `Gambit::Array`).  The flag is `false` when
the loop leaves through `return false`. -/
def ReadProfile.loop (w : World) : Nat → Nat → IStream → List Double →
    Bool × IStream × List Double
  | 0, _, p_stream, p_profile => (true, p_stream, p_profile)
  | n + 1, i, p_stream, p_profile =>
    if p_stream.eofbit || p_stream.badbit then (false, p_stream, p_profile)
    else
      let r := p_stream.extractDouble w (p_profile.getD (i - 1) 0)
      let s2 := if i < p_profile.length then (r.1.extractChar).1 else r.1
      ReadProfile.loop w n (i + 1) s2 (p_profile.set (i - 1) r.2)

/-- The function `ReadProfile(p_stream, p_profile)` (lines 66-83): the value
returned, the stream afterwards and the array afterwards. -/
def ReadProfile (w : World) (p_stream : IStream) (p_profile : List Double) :
    Bool × IStream × List Double :=
  match ReadProfile.loop w p_profile.length 1 p_stream p_profile with
  | (false, s, p) => (false, s, p)
  | (true, s, p) => (true, (s.getline).1, p)

/-- The value `getopt` leaves in the `int optopt` for the option character
`c`.  `getopt` reads one `char` of `argv` and stores it in `optopt`: for an
ASCII character that is its code; for any other character it is the first
byte of its UTF-8 encoding taken as a signed `char`, a negative number. -/
def optoptValue (c : Char) : Int :=
  if c.toNat < 128 then (c.toNat : Int)
  else if c.toNat < 2048 then (192 + c.toNat / 64 : Nat) - 256
  else if c.toNat < 65536 then (224 + c.toNat / 4096 : Nat) - 256
  else (240 + c.toNat / 262144 : Nat) - 256

/-- The diagnostic `main` writes for the option character `optopt`
(lines 132-137): the character itself when it is printable, else the `int`
held by `optopt`, inserted in decimal. -/
def diagnostic (progname : String) (optopt : Char) : List Event :=
  if isprint optopt then
    [ .write .cerr (.str progname),
      .write .cerr (.str ": Unknown option `-"),
      .write .cerr (.chr optopt),
      .write .cerr (.str "'.\n") ]
  else
    [ .write .cerr (.str progname),
      .write .cerr (.str ": Unknown option character `\\x"),
      .write .cerr (.int (optoptValue optopt)),
      .write .cerr (.str "`.\n") ]

/-- The third argument of the `getopt` call in `main` (line 102). -/
def optstring : List Char := "d:s:a:m:qehSL:".data

/-- What one pass through the `switch` of `main` does: go on with the loop,
or leave `main` with the effects made and the way of leaving. -/
inductive Step
  | next (s : Vars)
  | stop (events : List Event) (status : Exit)

/-- The `switch (c)` of `main` (lines 103-141); `d` is the `getopt` state
after the call that returned `c`, read for `optarg` and `optopt`. -/
def optionCase (w : World) (progname : String) (c : Char) (d : GetoptData) (s : Vars) : Step :=
  if c = 'q' then .next { s with quiet := true }
  else if c = 'd' then
    match d.optarg with
    | some a => .next { s with g := { s.g with g_numDecimals := w.atoi a } }
    | none => .stop [] .undefined
  else if c = 's' then
    match d.optarg with
    | some a => .next { s with g := { s.g with g_hStart := w.atof a } }
    | none => .stop [] .undefined
  else if c = 'a' then
    match d.optarg with
    | some a => .next { s with g := { s.g with g_maxDecel := w.atof a } }
    | none => .stop [] .undefined
  else if c = 'm' then
    match d.optarg with
    | some a => .next { s with maxLambda := w.atof a }
    | none => .stop [] .undefined
  else if c = 'e' then .next { s with g := { s.g with g_fullGraph := false } }
  else if c = 'h' then .stop (PrintHelp w progname) (.exited 1)
  else if c = 'S' then .next { s with useStrategic := true }
  else if c = 'L' then
    match d.optarg with
    | some a => .next { s with mleFile := a }
    | none => .stop [] .undefined
  else if c = '?' then
    .stop (diagnostic progname d.optopt) (.returned 1)
  else .stop [] .aborted

/-- How the option loop of `main` ends: `getopt` returned -1 with the
variables as given, or `main` was left from inside the loop. -/
inductive LoopResult
  | parsed (s : Vars)
  | stopped (events : List Event) (status : Exit)
  | unfinished

/-- The `while` loop of `main` (lines 102-142), run for at most `fuel`
calls of `getopt`. -/
def optionLoop (w : World) (progname : String) : Nat → GetoptData → Vars → LoopResult
  | 0, _, _ => .unfinished
  | fuel + 1, d, s =>
    match getopt w.permute optstring d with
    | (none, _) => .parsed s
    | (some c, d1) =>
      match optionCase w progname c d1 s with
      | .next s1 => optionLoop w progname fuel d1 s1
      | .stop events status => .stopped events status

/-- The characters in a list of `argv` elements, each counted with its
terminator. -/
def restSize (rest : List String) : Nat := (rest.map (fun a => a.length + 1)).sum

/-- The number of characters `getopt` has still to look at; every call that
returns an option lowers it. -/
def GetoptData.size (d : GetoptData) : Nat := d.nextchar.length + restSize d.rest

/-- The state of `getopt` before its first call: all of `argv[1..]` unread. -/
def getoptStart (args : List String) : GetoptData := { rest := args }

/-- The option loop of `main` on the arguments `args` (that is `argv[1..]`),
from the initial values of the variables. -/
def parseOptions (w : World) (progname : String) (args : List String) : LoopResult :=
  optionLoop w progname ((getoptStart args).size + 1) (getoptStart args) {}

/-- The two `catch` clauses of `main` (lines 171-178). -/
def catchClause : Thrown → List Event × Exit
  | .InvalidFileException =>
    ([.write .cerr (.str "Error: Game not in a recognized format.\n")], .returned 1)
  | .other =>
    ([.write .cerr (.str "Error: An internal error occurred.\n")], .returned 1)

/-- The MLE block of `main` (lines 151-156): the variables after it. -/
def mleBlock (w : World) (game : Game) (s : Vars) : Vars :=
  if s.mleFile ≠ "" ∧ (!game.IsTree || s.useStrategic) = true then
    let fresh := (List.range game.MixedProfileLength).map w.uninitialised
    let r := ReadProfile w (ifstream w s.mleFile) fresh
    { s with g := { s.g with g_obsProbs := r.2.2, g_maxLike := true } }
  else s

/-- The tracer call of `main` (lines 161-168) with the variables `s`: the
call made, and whether it returns (`none`) or throws. -/
def traceCall (w : World) (game : Game) (s : Vars) : Event × Option Thrown :=
  if (!game.IsTree || s.useStrategic) = true then
    (.TraceStrategicPath s.g ⟨game⟩ 0.0 s.maxLambda 1.0,
      w.TraceStrategicPath s.g ⟨game⟩ 0.0 s.maxLambda 1.0)
  else
    (.TraceAgentPath s.g ⟨game⟩ 0.0 s.maxLambda 1.0,
      w.TraceAgentPath s.g ⟨game⟩ 0.0 s.maxLambda 1.0)

/-- The `try` block of `main` with its handlers (lines 148-178): the effects
and the value `main` returns. -/
def tryBlock (w : World) (s : Vars) : List Event × Exit :=
  match w.ReadGame with
  | .error e => (.ReadGame :: (catchClause e).1, (catchClause e).2)
  | .ok game =>
    match w.BuildComputedValues game with
    | some e =>
      (.ReadGame :: .BuildComputedValues game :: (catchClause e).1, (catchClause e).2)
    | none =>
      match (traceCall w game (mleBlock w game s)).2 with
      | none =>
        ([.ReadGame, .BuildComputedValues game, (traceCall w game (mleBlock w game s)).1],
          .returned 0)
      | some e =>
        (.ReadGame :: .BuildComputedValues game :: (traceCall w game (mleBlock w game s)).1 ::
          (catchClause e).1, (catchClause e).2)

/-- A run of the program: its effects in order and how it ended. -/
structure Run where
  events : List Event
  status : Exit
  deriving DecidableEq

/-- The function `main(argc, argv)` (lines 93-179), with `progname` for
`argv[0]` and `args` for `argv[1..argc-1]`. -/
def main (w : World) (progname : String) (args : List String) : Run :=
  match parseOptions w progname args with
  | .unfinished => { events := [], status := .unfinished }
  | .stopped events status => { events := events, status := status }
  | .parsed s =>
    { events := (if s.quiet then [] else PrintBanner w .cerr) ++ (tryBlock w s).1,
      status := (tryBlock w s).2 }

/-! ## Vocabulary of the specification -/

/-- One option found by `getopt`: the state before the call, the value
returned, and the state after it (which holds `optarg` and `optopt`). -/
structure Found where
  before : GetoptData
  opt : Char
  after : GetoptData
  deriving DecidableEq, Repr

/-- The options successive calls of `getopt` find from state `d` until it
returns -1, for at most `fuel` calls. -/
def scan (permute : Bool) : Nat → GetoptData → List Found
  | 0, _ => []
  | fuel + 1, d =>
    match getopt permute optstring d with
    | (none, _) => []
    | (some c, d1) => ⟨d, c, d1⟩ :: scan permute fuel d1

/-- The option scan of a command line: everything `getopt` finds on
`argv[1..]`, whatever `main` does with it. -/
def optionScan (w : World) (args : List String) : List Found :=
  scan w.permute ((getoptStart args).size + 1) (getoptStart args)

/-- An option after which the loop of `main` goes on: neither `-h` nor the
error value `?`. -/
def Found.accepted (e : Found) : Prop := e.opt ≠ 'h' ∧ e.opt ≠ '?'

instance (e : Found) : Decidable e.accepted := by
  unfold Found.accepted; exact inferInstance

/-- The option letters of `optstring` that take no argument. -/
def flagLetters : List Char := ['q', 'e', 'h', 'S']

/-- The option letters of `optstring` that require an argument. -/
def argLetters : List Char := ['d', 's', 'a', 'm', 'L']

/-- The argument of the last occurrence of option `c` in a scan. -/
def lastArg (c : Char) (l : List Found) : Option String :=
  ((l.filter (fun e => e.opt = c)).getLast?).bind (fun e => e.after.optarg)

/-- Whether option `c` occurs in a scan. -/
def occurs (c : Char) (l : List Found) : Prop := ∃ e ∈ l, e.opt = c

instance (c : Char) (l : List Found) : Decidable (occurs c l) := by
  unfold occurs; exact inferInstance

/-- A call of one of the two tracers. -/
def Event.isTrace : Event → Bool
  | .TraceStrategicPath .. => true
  | .TraceAgentPath .. => true
  | _ => false

/-- The banner appears in a list of effects: the three insertions of
`PrintBanner`, one after the other, on some stream. -/
def bannerWritten (w : World) (events : List Event) : Prop :=
  ∃ p_stream pre post, events = pre ++ PrintBanner w p_stream ++ post

/-- What `getopt` can return on the option string of `main`. -/
def Found.wellFormed (e : Found) : Prop :=
  e.opt = '?' ∨ e.opt ∈ flagLetters ∨ (e.opt ∈ argLetters ∧ ∃ a, e.after.optarg = some a)

/-- The result of `shortOption` on the option string of `main`, by the kind of letter. -/
def shortOptionSpec (c : Char) (cs : List Char) (rest : List String) (optopt : Char) :
    Option Char × GetoptData :=
  if c ∈ flagLetters then
    (some c, { rest := rest, nextchar := cs, optarg := none, optopt := optopt })
  else if c ∈ argLetters then
    match cs with
    | _ :: _ =>
      (some c, { rest := rest, nextchar := [], optarg := some (String.mk cs), optopt := optopt })
    | [] =>
      match rest with
      | [] => (some '?', { rest := [], nextchar := [], optarg := none, optopt := c })
      | a :: rest1 =>
        (some c, { rest := rest1, nextchar := [], optarg := some a, optopt := optopt })
  else (some '?', { rest := rest, nextchar := cs, optarg := none, optopt := c })

/-- The option loop of `main` over a list of options already found. -/
def runScan (w : World) (progname : String) : List Found → Vars → LoopResult
  | [], s => .parsed s
  | e :: l, s =>
    match optionCase w progname e.opt e.after s with
    | .next s1 => runScan w progname l s1
    | .stop events status => .stopped events status

/-- The variables after the `switch` of `main` has handled the option `e`. -/
def applyFound (w : World) (s : Vars) (e : Found) : Vars :=
  match optionCase w "" e.opt e.after s with
  | .next s1 => s1
  | .stop _ _ => s

/-- The first option of a scan at which the loop of `main` stops. -/
def firstStop (l : List Found) : Option Found := l.find? (fun e => decide (¬ e.accepted))

/-- The globals a tracer call is made with. -/
def Event.globals? : Event → Option Globals
  | .TraceStrategicPath g .. => some g
  | .TraceAgentPath g .. => some g
  | _ => none

/-- The call recorded by an effect returned normally in world `w` (an
insertion always does). -/
def Event.returns (w : World) : Event → Prop
  | .write _ _ => True
  | .ReadGame => ∃ game, w.ReadGame = .ok game
  | .BuildComputedValues game => w.BuildComputedValues game = none
  | .TraceStrategicPath g p_start a b c => w.TraceStrategicPath g p_start a b c = none
  | .TraceAgentPath g p_start a b c => w.TraceAgentPath g p_start a b c = none

/-- Reading the game, building the computed values and tracing all
completed without throwing: every call the run made returned normally. -/
def noThrow (w : World) (events : List Event) : Prop := ∀ ev ∈ events, ev.returns w

/-! ## A sample world

A concrete `World` for evaluating the driver on concrete command lines.  Its
conversions read an optionally signed decimal numeral after leading white
space, as the C functions do on such input, and give 0 when there is none. -/

/-- The value of a list of decimal digits. -/
def digitsValue (l : List Char) : Nat :=
  l.foldl (fun n c => 10 * n + (c.toNat - '0'.toNat)) 0

/-- Read an unsigned decimal numeral with an optional fraction part from the
front of `l`: its value and the unread rest. -/
def readUnsigned (l : List Char) : Option (ℚ × List Char) :=
  let ip := l.takeWhile Char.isDigit
  let r := l.dropWhile Char.isDigit
  match r with
  | '.' :: r1 =>
    let fp := r1.takeWhile Char.isDigit
    if ip.isEmpty && fp.isEmpty then none
    else some ((digitsValue ip : ℚ) + (digitsValue fp : ℚ) / (10 : ℚ) ^ fp.length,
      r1.dropWhile Char.isDigit)
  | _ => if ip.isEmpty then none else some ((digitsValue ip : ℚ), r)

/-- Read an optionally signed decimal numeral from the front of `l`. -/
def readDecimal (l : List Char) : Option (ℚ × List Char) :=
  match l with
  | '-' :: r => (readUnsigned r).map (fun x => (-x.1, x.2))
  | '+' :: r => readUnsigned r
  | _ => readUnsigned l

/-- The sample world: GNU `getopt`, a game in strategic form with four
strategies in all, no exceptions, no files. -/
def sampleWorld : World where
  VERSION := "0.2007.01.30"
  permute := true
  atoi := fun a =>
    match a.data.dropWhile isspace with
    | '-' :: r => -(digitsValue (r.takeWhile Char.isDigit) : Int)
    | '+' :: r => (digitsValue (r.takeWhile Char.isDigit) : Int)
    | r => (digitsValue (r.takeWhile Char.isDigit) : Int)
  atof := fun a => ((readDecimal (a.data.dropWhile isspace)).map Prod.fst).getD 0
  num_get := fun l =>
    match readDecimal l with
    | some (v, rest) => (some v, rest)
    | none => (none, l)
  ReadGame := .ok { handle := 0, IsTree := false, MixedProfileLength := 4 }
  BuildComputedValues := fun _ => none
  TraceStrategicPath := fun _ _ _ _ _ => none
  TraceAgentPath := fun _ _ _ _ _ => none
  files := fun _ => none
  uninitialised := fun _ => 0

/-- The sample world, except that `BuildComputedValues` throws. -/
def buildFailsWorld : World := { sampleWorld with BuildComputedValues := fun _ => some .other }

/-- The sample world, except that the game reader rejects the input. -/
def rejectingWorld : World := { sampleWorld with ReadGame := .error .InvalidFileException }

/-- The sample world, except that the game read is in extensive form. -/
def treeWorld : World :=
  { sampleWorld with ReadGame := .ok { handle := 0, IsTree := true, MixedProfileLength := 4 } }

/-- The sample world, except that every file exists and is empty. -/
def emptyFileWorld : World := { sampleWorld with files := fun _ => some [] }

/-! ## Comma-separated renderings -/

/-- The text of a list of numbers rendered by `render` and separated by
commas. -/
def commaSeparated (render : Double → List Char) : List Double → List Char
  | [] => []
  | [x] => render x
  | x :: y :: l => render x ++ ',' :: commaSeparated render (y :: l)

/-- A character after which a rendered number has ended: the text is used
up, or goes on with a comma or a newline. -/
def endsNumber (rest : List Char) : Prop :=
  rest = [] ∨ rest.head? = some ',' ∨ rest.head? = some '\n'

/-- A rendering for the sample world: the decimal digits of the integer part
of a non-negative number. -/
def sampleRender (x : Double) : List Char := (Nat.repr x.num.toNat).data

/-! ## The tracers -/

/-- The text of a list of numbers rendered by `render` and separated by the
character `sep`. -/
def separatedBy (sep : Char) (render : Double → List Char) : List Double → List Char
  | [] => []
  | [x] => render x
  | x :: y :: l => render x ++ sep :: separatedBy sep render (y :: l)

end Logit

/-! # The standard-solution dialog (src/sources/efgsolvd.cc) -/

namespace EfgSolve

/-- What `OnChanged` asks of the game `m_efg`: `IsPerfectRecall(m_efg)`,
`m_efg.NumPlayers()` and `m_efg.IsConstSum()`. -/
structure Efg where
  IsPerfectRecall : Bool
  NumPlayers : Int
  IsConstSum : Bool
  deriving DecidableEq, Repr

/-- The controls of `dialogEfgSolveStandard` that `OnChanged` reads and
writes: the selections of the radio boxes `m_standardType` and
`m_standardNum`, the text shown in `m_description`, and whether
`m_precision` is enabled. -/
structure Dialog where
  standardType : Int
  standardNum : Int
  description : String
  precisionEnabled : Bool
  deriving DecidableEq, Repr

/-- The function `dialogEfgSolveStandard::OnChanged` (lines 142-196).  A
`switch` without `default` does nothing for a selection it does not list. -/
def OnChanged (m_efg : Efg) (d : Dialog) : Dialog :=
  if d.standardType = 0 ∨ d.standardType = 1 then
    if d.standardNum = 0 then
      if m_efg.IsPerfectRecall then
        if m_efg.NumPlayers = 2 ∧ m_efg.IsConstSum = true then
          { d with description := "LpSolve[EFG]", precisionEnabled := true }
        else if m_efg.NumPlayers = 2 then
          { d with description := "LcpSolve[EFG]", precisionEnabled := true }
        else
          { d with description := "SimpdivSolve[NFG]", precisionEnabled := true }
      else
        { d with description := "QreSolve[EFG]", precisionEnabled := false }
    else if d.standardNum = 1 then
      if m_efg.NumPlayers = 2 then
        { d with description := "EnumMixedSolve[NFG]", precisionEnabled := true }
      else
        { d with description := "LiapSolve[EFG]", precisionEnabled := false }
    else if d.standardNum = 2 then
      { d with description := "LiapSolve[EFG]", precisionEnabled := false }
    else d
  else if d.standardType = 2 then
    if d.standardNum = 0 then
      { d with description := "QreSolve[EFG]", precisionEnabled := false }
    else if d.standardNum = 1 ∨ d.standardNum = 2 then
      { d with description := "LiapSolve[EFG]", precisionEnabled := false }
    else { d with precisionEnabled := false }
  else d

/-- The algorithm the specification names for a selection: the table of
claim C29, by type (0 Nash, 1 Subgame Perfect, 2 Sequential) and number
(0 One, 1 Two, 2 All). -/
def specifiedAlgorithm (type number : Int) (perfectRecall : Bool) (players : Int)
    (constSum : Bool) : String :=
  if type = 2 then
    if number = 0 then "QreSolve[EFG]" else "LiapSolve[EFG]"
  else if number = 0 then
    if perfectRecall then
      if players = 2 then
        if constSum then "LpSolve[EFG]" else "LcpSolve[EFG]"
      else "SimpdivSolve[NFG]"
    else "QreSolve[EFG]"
  else if number = 1 then
    if players = 2 then "EnumMixedSolve[NFG]" else "LiapSolve[EFG]"
  else "LiapSolve[EFG]"

end EfgSolve

/-! # The GSM portions (src/sources/portion.cc) -/

namespace Gsm

/-! ## `TextPortion::OutputString` -/

/-- The read `text[i]` of a `gString` (declared outside src/): the character
at position `i`, and the terminator of the stored C string at the position
just past the end. -/
def charAt (text : List Char) (i : Nat) : Char := text.getD i (Char.ofNat 0)

/-- The state of the scan of `OutputString`: the text, and the positions of
the text read so far, in order. -/
structure Scan where
  text : List Char
  reads : List Nat
  deriving DecidableEq, Repr

/-- The `for` loop of `TextPortion::OutputString` (lines 497-502) from index
`i`, for at most `fuel` iterations.  The second operand of `&&` is read only
when the first holds; `text.remove(i)` drops the character at `i`. -/
def OutputString.loop : Nat → Nat → Scan → Scan
  | 0, _, s => s
  | fuel + 1, i, s =>
    if i < s.text.length then
      if charAt s.text i = '\\' then
        if charAt s.text (i + 1) = 'n' then
          OutputString.loop fuel (i + 1)
            { text := (s.text.eraseIdx i).set i '\n', reads := s.reads ++ [i, i + 1] }
        else OutputString.loop fuel (i + 1) { s with reads := s.reads ++ [i, i + 1] }
      else OutputString.loop fuel (i + 1) { s with reads := s.reads ++ [i] }
    else s

/-- The function `TextPortion::OutputString` (lines 493-507) on the text
`value`, with the static `_WriteQuoted`: the string returned and the
positions of the text the scan read.  The loop runs at most once per
character of `value`. -/
def OutputString (_WriteQuoted : Bool) (value : List Char) : List Char × List Nat :=
  let s := OutputString.loop value.length 0 { text := value, reads := [] }
  (if _WriteQuoted then '"' :: (s.text ++ ['"']) else s.text, s.reads)

/-- The text with each backslash followed by `n` replaced by a newline, read
from the left. -/
def unescape : List Char → List Char
  | [] => []
  | [c] => [c]
  | c :: d :: rest =>
    if c = '\\' ∧ d = 'n' then '\n' :: unescape rest else c :: unescape (d :: rest)

/-! ## `ListPortion`: `Insert`, `Append`, `Remove`, `Flush` -/

/-- The value `PortionSpec` (declared in portion.h): the fields the list
functions read and write. -/
structure PortionSpec where
  type : Nat
  ListDepth : Nat
  Null : Bool
  deriving DecidableEq, Repr

/-- What the list functions use and portion.cc does not define, for portions
represented by the type `P`: the type constants, `PortionSpecMatch`, the
virtual `Spec()` of an item, `NullPortion::DataType()`, the item after the
assignment `((ListPortion*) item)->_DataType = t`, and the `Insert` and
`Remove` of `gList` on the sequence of elements (positions count from 1;
`Remove` gives the element taken out). -/
structure Library (P : Type) where
  porUNDEFINED : Nat
  porERROR : Nat
  porNULL : Nat
  porREFERENCE : Nat
  PortionSpecMatch : Nat → Nat → Bool
  Spec : P → PortionSpec
  DataType : P → Nat
  setDataType : P → Nat → P
  gListInsert : List P → P → Int → Int × List P
  gListRemove : List P → Int → Option P × List P

/-- The properties of the outside parts the theorems rely on: assigning the
data type of a list item leaves its depth alone, `gList::Insert` puts the item
at some position of the sequence and returns that position, and
`gList::Remove` at a valid position takes that element out. -/
structure Library.Lawful {P : Type} (L : Library P) : Prop where
  depth_setDataType : ∀ x t, (L.Spec (L.setDataType x t)).ListDepth = (L.Spec x).ListDepth
  insert_spec : ∀ l x i, ∃ k : Nat, k ≤ l.length ∧
    L.gListInsert l x i = ((k : Int) + 1, l.take k ++ x :: l.drop k)
  remove_spec : ∀ l (i : Int), 1 ≤ i → i ≤ (l.length : Int) →
    L.gListRemove l i = (l[(i - 1).toNat]?, l.eraseIdx (i - 1).toNat)

/-- The fields of a `ListPortion` that is not a reference (`_ref` false, so
`Original()` is the list itself). -/
structure ListPortion (P : Type) where
  _Value : List P
  _ContainsListsOnly : Bool
  _DataType : Nat
  _IsNull : Bool
  _ListDepth : Nat
  deriving DecidableEq, Repr

/-- The constructor `ListPortion::ListPortion(void)` (lines 1596-1599). -/
def ListPortion.new {P : Type} (L : Library P) : ListPortion P :=
  { _Value := [], _ContainsListsOnly := true, _DataType := L.porUNDEFINED, _IsNull := false,
    _ListDepth := 1 }

/-- The function `ListPortion::ContainsListsOnly` (lines 1801-1807). -/
def ListPortion.ContainsListsOnly {P : Type} (l : ListPortion P) : Bool :=
  if l._Value.length = 0 then false else l._ContainsListsOnly

/-- What a call of `Insert` leaves: the value returned, the list, and the item
deleted, if one was. -/
structure Inserted (P : Type) where
  result : Int
  list : ListPortion P
  deleted : Option P
  deriving DecidableEq, Repr

/-- The `Type` of `item_type` after lines 1906-1911 of `Insert`: that of the
item's `Spec()`, or the `DataType()` of a null portion of depth 0. -/
def Insert.item_type {P : Type} (L : Library P) (item : P) : Nat :=
  if (L.Spec item).ListDepth = 0 then
    if (L.Spec item).type = L.porNULL then L.DataType item else (L.Spec item).type
  else (L.Spec item).type

/-- The end of `Insert` (lines 1938-1942): a positive result raises
`_ListDepth` to the depth of the item plus one. -/
def Insert.finish {P : Type} (L : Library P) (l : ListPortion P) (result : Int) (item : P) :
    ListPortion P :=
  if result > 0 then
    if (L.Spec item).ListDepth + 1 > l._ListDepth then
      { l with _ListDepth := (L.Spec item).ListDepth + 1 }
    else l
  else l

/-- The function `ListPortion::Insert` (lines 1889-1945) on a list that is not
a reference.  The result is `none` when one of the two assertions fails. -/
def ListPortion.Insert {P : Type} (L : Library P) (l : ListPortion P) (item : P)
    (index : Int) : Option (Inserted P) :=
  if (L.Spec item).type = L.porREFERENCE then none
  else
    let item_type := Insert.item_type L item
    let l1 := if (L.Spec item).ListDepth = 0 then { l with _ContainsListsOnly := false } else l
    if l1._DataType = L.porUNDEFINED then
      let r := L.gListInsert l1._Value item index
      some { result := r.1, deleted := none,
             list := Insert.finish L { l1 with _DataType := item_type, _Value := r.2 } r.1 item }
    else if L.PortionSpecMatch item_type l1._DataType then
      let r := L.gListInsert l1._Value item index
      some { result := r.1, deleted := none,
             list := Insert.finish L { l1 with _Value := r.2 } r.1 item }
    else if item_type = L.porUNDEFINED then
      if (L.Spec item).ListDepth > 0 then
        let item2 := L.setDataType item l1._DataType
        let r := L.gListInsert l1._Value item2 index
        some { result := r.1, deleted := none,
               list := Insert.finish L { l1 with _Value := r.2 } r.1 item2 }
      else none
    else if item_type = L.porERROR then
      let r := L.gListInsert l1._Value item index
      some { result := r.1, deleted := none,
             list := Insert.finish L { l1 with _Value := r.2 } r.1 item }
    else some { result := 0, deleted := some item, list := l1 }

/-- The function `ListPortion::Append` (lines 1885-1886). -/
def ListPortion.Append {P : Type} (L : Library P) (l : ListPortion P) (item : P) :
    Option (Inserted P) :=
  ListPortion.Insert L l item ((l._Value.length : Int) + 1)

/-- One round of the loop of `Remove` (lines 1990-1996) on the pair
(`_ContainsListsOnly`, `_ListDepth`). -/
def Remove.step {P : Type} (L : Library P) (s : Bool × Nat) (x : P) : Bool × Nat :=
  (if (L.Spec x).ListDepth = 0 then false else s.1,
   if (L.Spec x).ListDepth ≥ s.2 then (L.Spec x).ListDepth + 1 else s.2)

/-- The function `ListPortion::Remove` (lines 1980-2001): the portion returned
(`none` for the null pointer) and the list. -/
def ListPortion.Remove {P : Type} (L : Library P) (l : ListPortion P) (index : Int) :
    Option P × ListPortion P :=
  let r := if index ≥ 1 ∧ index ≤ (l._Value.length : Int) then L.gListRemove l._Value index
    else (none, l._Value)
  let s := r.2.foldl (Remove.step L) (true, 1)
  (r.1, { l with _Value := r.2, _ContainsListsOnly := s.1, _ListDepth := s.2 })

/-- The loop of `ListPortion::Flush` (lines 2010-2013), `n` rounds: the list
and the portions deleted. -/
def Flush.loop {P : Type} (L : Library P) : Nat → ListPortion P → List P →
    ListPortion P × List P
  | 0, l, deleted => (l, deleted)
  | n + 1, l, deleted =>
    let r := ListPortion.Remove L l 1
    Flush.loop L n r.2 (deleted ++ r.1.toList)

/-- The function `ListPortion::Flush` (lines 2007-2015): `none` when the
assertion at its end fails. -/
def ListPortion.Flush {P : Type} (L : Library P) (l : ListPortion P) :
    Option (ListPortion P × List P) :=
  let r := Flush.loop L l._Value.length l []
  if r.1._Value.length = 0 then some r else none

/-- A call of one of the four functions that change a list. -/
inductive ListOp (P : Type) where
  | Insert (item : P) (index : Int)
  | Append (item : P)
  | Remove (index : Int)
  | Flush
  deriving DecidableEq, Repr

/-- The list after one call, `none` when an assertion fails. -/
def ListPortion.apply {P : Type} (L : Library P) (l : ListPortion P) :
    ListOp P → Option (ListPortion P)
  | .Insert item index => (ListPortion.Insert L l item index).map (fun r => r.list)
  | .Append item => (ListPortion.Append L l item).map (fun r => r.list)
  | .Remove index => some (ListPortion.Remove L l index).2
  | .Flush => (ListPortion.Flush L l).map (fun r => r.1)

/-- The list after a sequence of calls, made in order from the list `l`. -/
def ListPortion.runFrom {P : Type} (L : Library P) : ListPortion P → List (ListOp P) →
    Option (ListPortion P)
  | l, [] => some l
  | l, op :: ops =>
    match ListPortion.apply L l op with
    | none => none
    | some l2 => ListPortion.runFrom L l2 ops

/-- The list built from the empty list by a sequence of calls. -/
def ListPortion.run {P : Type} (L : Library P) (ops : List (ListOp P)) :
    Option (ListPortion P) :=
  ListPortion.runFrom L (ListPortion.new L) ops

/-- The greatest `Spec().ListDepth` among the elements, 0 for no element. -/
def maxDepth {P : Type} (L : Library P) (xs : List P) : Nat :=
  (xs.map (fun x => (L.Spec x).ListDepth)).foldr max 0

/-- A sample portion: its `Spec()` and, for a null portion, its `DataType()`. -/
structure Item where
  spec : PortionSpec
  dataType : Nat
  deriving DecidableEq, Repr

/-- A sample of the outside parts: distinct type constants, types that match
when they are equal, and a `gList` that clamps the position of an insertion to
the sequence. -/
def sampleLibrary : Library Item where
  porUNDEFINED := 0
  porERROR := 1
  porNULL := 2
  porREFERENCE := 3
  PortionSpecMatch := fun a b => a == b
  Spec := fun x => x.spec
  DataType := fun x => x.dataType
  setDataType := fun x t => { x with spec := { x.spec with type := t } }
  gListInsert := fun l x i =>
    let k : Nat := if i < 1 then 0 else if i > (l.length : Int) + 1 then l.length else (i - 1).toNat
    ((k : Int) + 1, l.take k ++ x :: l.drop k)
  gListRemove := fun l i => (l[(i - 1).toNat]?, l.eraseIdx (i - 1).toNat)

/-- A sample number, of type 4 and depth 0. -/
def sampleInteger : Item := { spec := { type := 4, ListDepth := 0, Null := false }, dataType := 0 }

/-- A sample text, of type 16 and depth 0. -/
def sampleText : Item := { spec := { type := 16, ListDepth := 0, Null := false }, dataType := 0 }

/-- A sample list of numbers, of type 4 and depth 1. -/
def sampleList : Item := { spec := { type := 4, ListDepth := 1, Null := false }, dataType := 0 }

/-! ## `RefCopy`, `ValCopy` and `Portion::Original` -/

/-- The classes of portions portion.cc defines. -/
inductive PortionClass where
  | Error | Null | Reference | Precision | Int | Number | Text | Bool | EfOutcome
  | NfPlayer | Strategy | NfOutcome | NfSupport | EfSupport | EfPlayer | Infoset | Node
  | Action | Mixed | Behav | Nfg | Efg | Output | Input | List
  deriving DecidableEq, Repr

/-- A portion object, as far as the copy functions and `Original()` go: its
class, the member `_ref` (classes without it, `Error`, `Null` and `Reference`,
carry false) and the pointer `_Original`, the address of a portion or `none`
for the null pointer.  Addresses are positions in the heap. -/
structure Object where
  cls : PortionClass
  _ref : Bool
  _Original : Option Nat
  deriving DecidableEq, Repr

/-- The portions allocated so far, by address. -/
abbrev Heap := List Object

/-- The virtual `IsReference()`: constantly false in `ErrorPortion`,
`NullPortion` and `ReferencePortion` (lines 246, 284, 322), the member `_ref`
in every other class. -/
def IsReference (o : Object) : Bool :=
  match o.cls with
  | .Error | .Null | .Reference => false
  | _ => o._ref

/-- The function `Portion::Original` (lines 125-136) called on the object `o`
at address `this`: `none` when the assertion fails, else the pointer returned. -/
def Original (o : Object) (this : Nat) : Option (Option Nat) :=
  if !IsReference o then
    if o._Original = none then some (some this) else none
  else some o._Original

/-- The object a constructor with one argument makes: `_ref(false)`, and
`_Original(0)` from `Portion::Portion` (line 98). -/
def construct (c : PortionClass) : Object := { cls := c, _ref := false, _Original := none }

/-- The virtual `RefCopy()` on the portion at address `this`: the heap with the
new portion, and its address.  `ErrorPortion`, `NullPortion` and
`ReferencePortion` construct a fresh portion (lines 243, 281, 319); every other
class constructs one with `ref` true and calls `SetOriginal(Original())` on it
(for instance lines 407-412, 1530-1535, 1728-1734).  The result is `none` when
there is no portion at `this` or the assertion of `Original()` fails. -/
def RefCopy (h : Heap) (this : Nat) : Option (Heap × Nat) :=
  match h[this]? with
  | none => none
  | some o =>
    match o.cls with
    | .Error | .Null | .Reference => some (h ++ [construct o.cls], h.length)
    | _ =>
      match Original o this with
      | none => none
      | some p => some (h ++ [{ cls := o.cls, _ref := true, _Original := p }], h.length)

/-- The virtual `ValCopy()` on the portion at address `this`: `RefCopy()` in
`OutputPortion` and `InputPortion` (lines 1527, 1576), a fresh portion that is
not a reference in every other class (for instance lines 404, 1720-1726). -/
def ValCopy (h : Heap) (this : Nat) : Option (Heap × Nat) :=
  match h[this]? with
  | none => none
  | some o =>
    match o.cls with
    | .Output | .Input => RefCopy h this
    | _ => some (h ++ [construct o.cls], h.length)

/-- A call of one of the two copy functions on the portion at an address. -/
inductive CopyOp where
  | RefCopy (this : Nat)
  | ValCopy (this : Nat)
  deriving DecidableEq, Repr

/-- The address a call is made on. -/
def CopyOp.this : CopyOp → Nat
  | .RefCopy this => this
  | .ValCopy this => this

/-- The heap and the address of the new portion after one call. -/
def Heap.copy (h : Heap) : CopyOp → Option (Heap × Nat)
  | .RefCopy this => RefCopy h this
  | .ValCopy this => ValCopy h this

/-- The heap after a sequence of calls, made in order from the heap `h`. -/
def Heap.runFrom : Heap → List CopyOp → Option Heap
  | h, [] => some h
  | h, op :: ops =>
    match Heap.copy h op with
    | none => none
    | some r => Heap.runFrom r.1 ops

/-- The heap after a sequence of calls that starts from one portion of class
`c` that is not a reference, at address 0. -/
def Heap.run (c : PortionClass) (ops : List CopyOp) : Option Heap :=
  Heap.runFrom [construct c] ops

/-- Every call of the sequence is made on a portion that exists when the call
is made, the heap holding `n` portions at the start: each call allocates one. -/
def CopyOp.valid : Nat → List CopyOp → Prop
  | _, [] => True
  | n, op :: ops => op.this < n ∧ CopyOp.valid (n + 1) ops

/-- The invariant of the heap: a portion that is not a reference has a null
`_Original`, and the `_Original` of a reference is the address of a portion
that is not a reference and has a null `_Original`. -/
def Heap.rooted (h : Heap) : Prop :=
  ∀ (a : Nat) (o : Object), h[a]? = some o →
    (IsReference o = false ∧ o._Original = none) ∨
    (IsReference o = true ∧ ∃ (r : Nat) (ro : Object), o._Original = some r ∧
      h[r]? = some ro ∧ IsReference ro = false ∧ ro._Original = none)

/-! ## `Portion::SetGame` and the count of references to a game -/

/-- The members of a `Portion` that `SetGame` and the destructor read and
write: the pointer `_Game` (0 for the null pointer) and `_GameIsEfg`. -/
structure Portion where
  _Game : Nat
  _GameIsEfg : Bool
  deriving DecidableEq, Repr

/-- The state outside the portion: the table behind `_gsm->GameRefCount` (it is
declared outside src/), and the games deleted so far, in order. -/
structure Games where
  GameRefCount : Nat → Int
  deleted : List Nat

/-- The constructor `Portion::Portion` (lines 97-104): `_Game(0)`,
`_GameIsEfg(false)`. -/
def Portion.new : Portion := { _Game := 0, _GameIsEfg := false }

/-- The function `Portion::SetGame(const Nfg *)` (lines 158-179). -/
def Portion.SetGameNfg (p : Portion) (g : Games) (game : Nat) : Portion × Games :=
  if game ≠ p._Game then
    let g1 : Games :=
      if p._Game ≠ 0 then
        let c := g.GameRefCount p._Game - 1
        { GameRefCount := Function.update g.GameRefCount p._Game c,
          deleted := if c = 0 then g.deleted ++ [p._Game] else g.deleted }
      else g
    let g2 : Games :=
      if game ≠ 0 then
        { g1 with GameRefCount := Function.update g1.GameRefCount game (g1.GameRefCount game + 1) }
      else g1
    ({ _Game := game, _GameIsEfg := false }, g2)
  else (p, g)

/-- The function `Portion::SetGame(const Efg *)` (lines 182-206).  The `delete`
statement is still the body of the `if`, below the comment that calls it
removed. -/
def Portion.SetGameEfg (p : Portion) (g : Games) (game : Nat) : Portion × Games :=
  if game ≠ p._Game then
    let g1 : Games :=
      if p._Game ≠ 0 then
        let c := g.GameRefCount p._Game - 1
        { GameRefCount := Function.update g.GameRefCount p._Game c,
          deleted := if c = 0 then g.deleted ++ [p._Game] else g.deleted }
      else g
    let g2 : Games :=
      if game ≠ 0 then
        { g1 with GameRefCount := Function.update g1.GameRefCount game (g1.GameRefCount game + 1) }
      else g1
    ({ _Game := game, _GameIsEfg := true }, g2)
  else (p, g)

/-- The destructor `Portion::~Portion` (lines 106-117): the state it leaves. -/
def Portion.destroy (p : Portion) (g : Games) : Games :=
  if p._Game ≠ 0 ∧ p._GameIsEfg = true then (Portion.SetGameEfg p g 0).2
  else if p._Game ≠ 0 then (Portion.SetGameNfg p g 0).2
  else g

/-- The live portions, by position, and the state of the games. -/
structure Store where
  portions : List Portion
  games : Games

/-- What can happen to the store: a portion is constructed, one of the two
`SetGame` is called on the live portion at position `i`, or that portion is
destroyed. -/
inductive StoreOp where
  | construct
  | SetGameNfg (i : Nat) (game : Nat)
  | SetGameEfg (i : Nat) (game : Nat)
  | destroy (i : Nat)
  deriving DecidableEq, Repr

/-- The store after one step; a step on a position that holds no live portion
changes nothing. -/
def Store.step (st : Store) : StoreOp → Store
  | .construct => { st with portions := st.portions ++ [Portion.new] }
  | .SetGameNfg i game =>
    match st.portions[i]? with
    | none => st
    | some p =>
      { portions := st.portions.set i (Portion.SetGameNfg p st.games game).1,
        games := (Portion.SetGameNfg p st.games game).2 }
  | .SetGameEfg i game =>
    match st.portions[i]? with
    | none => st
    | some p =>
      { portions := st.portions.set i (Portion.SetGameEfg p st.games game).1,
        games := (Portion.SetGameEfg p st.games game).2 }
  | .destroy i =>
    match st.portions[i]? with
    | none => st
    | some p => { portions := st.portions.eraseIdx i, games := Portion.destroy p st.games }

/-- The number of live portions whose `_Game` is `g`. -/
def Store.holders (st : Store) (g : Nat) : Nat :=
  st.portions.countP (fun p => p._Game == g)

/-- The invariant of the reference count: for every game, the count in the
table is the number of live portions whose `_Game` it is. -/
def Store.counted (st : Store) : Prop :=
  ∀ g, g ≠ 0 → st.games.GameRefCount g = (st.holders g : Int)

/-- A sample store: two live portions that hold the game 7, one of them as an
extensive form, and the count 2 for that game. -/
def sampleStore : Store :=
  { portions := [{ _Game := 7, _GameIsEfg := false }, { _Game := 7, _GameIsEfg := true }],
    games := { GameRefCount := fun g => if g = 7 then 2 else 0, deleted := [] } }

end Gsm

namespace Logit

/-! ## Lemmas about `getopt` and the option loop -/

theorem shortOption_optstring (c : Char) (cs : List Char) (rest : List String) (optopt : Char) :
    shortOption optstring c cs rest optopt = shortOptionSpec c cs rest optopt := by
  by_cases hq : c = 'q'
  · subst hq; rfl
  by_cases he : c = 'e'
  · subst he; rfl
  by_cases hh : c = 'h'
  · subst hh; rfl
  by_cases hS : c = 'S'
  · subst hS; rfl
  by_cases hd : c = 'd'
  · subst hd; rfl
  by_cases hs : c = 's'
  · subst hs; rfl
  by_cases ha : c = 'a'
  · subst ha; rfl
  by_cases hm : c = 'm'
  · subst hm; rfl
  by_cases hL : c = 'L'
  · subst hL; rfl
  by_cases hc : c = ':'
  · subst hc; rfl
  have h1 : strchr optstring c = none := by
    simp [optstring, strchr, Ne.symm hq, Ne.symm he, Ne.symm hh, Ne.symm hS, Ne.symm hd,
      Ne.symm hs, Ne.symm ha, Ne.symm hm, Ne.symm hL, Ne.symm hc]
  simp [shortOption, h1, shortOptionSpec, flagLetters, argLetters, hq, he, hh, hS, hd, hs, ha, hm, hL]

theorem size_eq (d : GetoptData) : d.size = d.nextchar.length + restSize d.rest := rfl

theorem shortOptionSpec_size (c : Char) (cs : List Char) (rest : List String) (optopt : Char) :
    (shortOptionSpec c cs rest optopt).2.size ≤ cs.length + restSize rest := by
  unfold shortOptionSpec
  split_ifs
  · simp [size_eq]
  · split
    · simp [size_eq]
    · split
      · simp [size_eq]
      · simp [size_eq, restSize]
  · simp [size_eq]

theorem nextElement_size (permute : Bool) (l : List String) (c : Char) (cs : List Char)
    (rest : List String) (h : nextElement permute l = some (c, cs, rest)) :
    cs.length + restSize rest < restSize l := by
  induction l with
  | nil => simp [nextElement] at h
  | cons a l ih =>
    unfold nextElement at h
    have key : ∀ c1 cs1, a.data = '-' :: c1 :: cs1 → some (c1, cs1, l) = some (c, cs, rest) →
        cs.length + restSize rest < restSize (a :: l) := by
      intro c1 cs1 hdata h
      simp only [Option.some.injEq, Prod.mk.injEq] at h
      obtain ⟨h1, h2, h3⟩ := h
      subst h1 h2 h3
      have hl : a.length = cs1.length + 2 := by
        show a.data.length = _
        rw [hdata]; simp
      simp [restSize, hl]
      omega
    split_ifs at h <;> split at h
    · exact key _ _ (by assumption) h
    · have := ih h
      simp [restSize] at this ⊢
      omega
    · exact key _ _ (by assumption) h
    · simp at h

theorem nextOption_size (permute : Bool) (d : GetoptData) (c : Char) (cs : List Char)
    (rest : List String) (h : nextOption permute d = some (c, cs, rest)) :
    cs.length + restSize rest < d.size := by
  unfold nextOption at h
  split at h
  · rename_i c1 cs1 hn
    simp only [Option.some.injEq, Prod.mk.injEq] at h
    obtain ⟨h1, h2, h3⟩ := h
    subst h1 h2 h3
    simp [size_eq, hn]
  · rename_i hn
    have := nextElement_size permute d.rest c cs rest h
    simp [size_eq, hn]
    exact this

theorem getopt_optstring (permute : Bool) (d : GetoptData) :
    getopt permute optstring d =
      match nextOption permute d with
      | none => (none, { rest := [], nextchar := [], optarg := none, optopt := d.optopt })
      | some (c, cs, rest) => shortOptionSpec c cs rest d.optopt := by
  unfold getopt
  split <;> simp [shortOption_optstring, *]

theorem shortOptionSpec_isSome (c : Char) (cs : List Char) (rest : List String) (optopt : Char) :
    ∃ r, (shortOptionSpec c cs rest optopt).1 = some r := by
  unfold shortOptionSpec
  split_ifs
  · exact ⟨_, rfl⟩
  · split
    · exact ⟨_, rfl⟩
    · split <;> exact ⟨_, rfl⟩
  · exact ⟨_, rfl⟩

theorem getopt_size (permute : Bool) (d d1 : GetoptData) (r : Char)
    (h : getopt permute optstring d = (some r, d1)) : d1.size < d.size := by
  rw [getopt_optstring] at h
  split at h
  · simp at h
  · rename_i c cs rest hn
    have h1 := nextOption_size permute d c cs rest hn
    have h2 := shortOptionSpec_size c cs rest d.optopt
    rw [h] at h2
    simp at h2
    omega

theorem getopt_wellFormed (permute : Bool) (d d1 : GetoptData) (r : Char)
    (h : getopt permute optstring d = (some r, d1)) : (Found.mk d r d1).wellFormed := by
  rw [getopt_optstring] at h
  unfold Found.wellFormed
  split at h
  · simp at h
  · rename_i c cs rest hn
    unfold shortOptionSpec at h
    split_ifs at h with h1 h2
    · simp only [Prod.mk.injEq, Option.some.injEq] at h
      obtain ⟨h3, h4⟩ := h
      subst h3
      exact Or.inr (Or.inl h1)
    · split at h
      · simp only [Prod.mk.injEq, Option.some.injEq] at h
        obtain ⟨h3, h4⟩ := h
        subst h3 h4
        exact Or.inr (Or.inr ⟨h2, _, rfl⟩)
      · split at h
        · simp only [Prod.mk.injEq, Option.some.injEq] at h
          exact Or.inl h.1.symm
        · simp only [Prod.mk.injEq, Option.some.injEq] at h
          obtain ⟨h3, h4⟩ := h
          subst h3 h4
          exact Or.inr (Or.inr ⟨h2, _, rfl⟩)
    · simp only [Prod.mk.injEq, Option.some.injEq] at h
      exact Or.inl h.1.symm

theorem scan_sound (permute : Bool) (fuel : Nat) (d : GetoptData) :
    ∀ e ∈ scan permute fuel d,
      getopt permute optstring e.before = (some e.opt, e.after) ∧ e.wellFormed := by
  induction fuel generalizing d with
  | zero => simp [scan]
  | succ fuel ih =>
    intro e he
    unfold scan at he
    split at he
    · simp at he
    · rename_i c d1 hg
      simp only [List.mem_cons] at he
      rcases he with he | he
      · subst he
        exact ⟨hg, getopt_wellFormed permute d d1 c hg⟩
      · exact ih d1 e he

theorem optionLoop_eq_runScan (w : World) (progname : String) (fuel : Nat) (d : GetoptData)
    (s : Vars) (h : d.size < fuel) :
    optionLoop w progname fuel d s = runScan w progname (scan w.permute fuel d) s := by
  induction fuel generalizing d s with
  | zero => omega
  | succ fuel ih =>
    unfold optionLoop scan
    split
    · rename_i hg
      simp [hg, runScan]
    · rename_i c d1 hg
      have hlt := getopt_size w.permute d d1 c hg
      simp only [hg, runScan]
      cases hc : optionCase w progname c d1 s with
      | next s1 => exact ih d1 s1 (by omega)
      | stop events status => rfl

theorem parseOptions_eq (w : World) (progname : String) (args : List String) :
    parseOptions w progname args = runScan w progname (optionScan w args) {} :=
  optionLoop_eq_runScan w progname _ _ _ (Nat.lt_succ_self _)

theorem optionCase_accepted (w : World) (progname : String) (e : Found) (s : Vars)
    (hw : e.wellFormed) (ha : e.accepted) :
    optionCase w progname e.opt e.after s = .next (applyFound w s e) := by
  obtain ⟨d0, c, d1⟩ := e
  simp only [Found.wellFormed, Found.accepted, flagLetters, argLetters, List.mem_cons,
    List.mem_singleton, List.not_mem_nil, or_false, ne_eq] at hw ha
  rcases hw with h | h | ⟨h, a, harg⟩
  · exact absurd h ha.2
  · rcases h with h | h | h | h <;> subst h
    · rfl
    · rfl
    · exact absurd rfl ha.1
    · rfl
  · rcases h with h | h | h | h | h <;> subst h <;> simp [optionCase, applyFound, harg]

theorem optionCase_help (w : World) (progname : String) (d : GetoptData) (s : Vars) :
    optionCase w progname 'h' d s = .stop (PrintHelp w progname) (.exited 1) := rfl

theorem optionCase_unknown (w : World) (progname : String) (d : GetoptData) (s : Vars) :
    optionCase w progname '?' d s = .stop (diagnostic progname d.optopt) (.returned 1) := rfl

theorem runScan_append (w : World) (progname : String) (pre l : List Found) (s : Vars)
    (hw : ∀ e ∈ pre, e.wellFormed) (ha : ∀ e ∈ pre, e.accepted) :
    runScan w progname (pre ++ l) s = runScan w progname l (pre.foldl (applyFound w) s) := by
  induction pre generalizing s with
  | nil => rfl
  | cons e pre ih =>
    have h1 := optionCase_accepted w progname e s (hw e (List.mem_cons_self _ _))
      (ha e (List.mem_cons_self _ _))
    simp only [List.cons_append, runScan, h1, List.foldl_cons]
    exact ih _ (fun x hx => hw x (List.mem_cons_of_mem _ hx))
      (fun x hx => ha x (List.mem_cons_of_mem _ hx))

theorem optionScan_wellFormed (w : World) (args : List String) :
    ∀ e ∈ optionScan w args, e.wellFormed :=
  fun e he => (scan_sound w.permute _ _ e he).2

theorem parseOptions_accepted (w : World) (progname : String) (args : List String)
    (ha : ∀ e ∈ optionScan w args, e.accepted) :
    parseOptions w progname args = .parsed ((optionScan w args).foldl (applyFound w) {}) := by
  rw [parseOptions_eq]
  have := runScan_append w progname (optionScan w args) [] {} (optionScan_wellFormed w args) ha
  simpa [runScan] using this

theorem parseOptions_stop (w : World) (progname : String) (args : List String)
    (pre post : List Found) (e : Found) (hs : optionScan w args = pre ++ e :: post)
    (ha : ∀ x ∈ pre, x.accepted) (he : ¬ e.accepted) :
    parseOptions w progname args =
      if e.opt = 'h' then .stopped (PrintHelp w progname) (.exited 1)
      else .stopped (diagnostic progname e.after.optopt) (.returned 1) := by
  rw [parseOptions_eq, hs]
  have hw := optionScan_wellFormed w args
  rw [hs] at hw
  rw [runScan_append w progname pre (e :: post) {} (fun x hx => hw x (by simp [hx])) ha]
  obtain ⟨d0, c, d1⟩ := e
  simp only [Found.accepted, ne_eq, not_and_or, not_not] at he
  rcases he with he | he <;> subst he
  · simp [runScan, optionCase_help]
  · simp [runScan, optionCase_unknown]

/-- A scan either consists of accepted options only or has a first option that is not. -/
theorem scan_split (l : List Found) :
    (∀ e ∈ l, e.accepted) ∨
      ∃ pre e post, l = pre ++ e :: post ∧ (∀ x ∈ pre, x.accepted) ∧ ¬ e.accepted := by
  induction l with
  | nil => left; simp
  | cons a l ih =>
    by_cases h : a.accepted
    · rcases ih with ih | ⟨pre, e, post, h1, h2, h3⟩
      · left
        intro e he
        rcases List.mem_cons.1 he with rfl | he
        · exact h
        · exact ih e he
      · right
        refine ⟨a :: pre, e, post, by simp [h1], ?_, h3⟩
        intro x hx
        rcases List.mem_cons.1 hx with rfl | hx
        · exact h
        · exact h2 x hx
    · right
      exact ⟨[], a, l, rfl, by simp, h⟩

theorem applyFound_fields (w : World) (s : Vars) (e : Found) (hw : e.wellFormed)
    (ha : e.accepted) :
    (applyFound w s e).g.g_numDecimals =
        (if e.opt = 'd' then (e.after.optarg.map w.atoi).getD s.g.g_numDecimals
          else s.g.g_numDecimals) ∧
      (applyFound w s e).g.g_hStart =
        (if e.opt = 's' then (e.after.optarg.map w.atof).getD s.g.g_hStart else s.g.g_hStart) ∧
      (applyFound w s e).g.g_maxDecel =
        (if e.opt = 'a' then (e.after.optarg.map w.atof).getD s.g.g_maxDecel
          else s.g.g_maxDecel) ∧
      (applyFound w s e).maxLambda =
        (if e.opt = 'm' then (e.after.optarg.map w.atof).getD s.maxLambda else s.maxLambda) ∧
      (applyFound w s e).mleFile =
        (if e.opt = 'L' then (e.after.optarg.map id).getD s.mleFile else s.mleFile) ∧
      (applyFound w s e).quiet = (if e.opt = 'q' then true else s.quiet) ∧
      (applyFound w s e).g.g_fullGraph = (if e.opt = 'e' then false else s.g.g_fullGraph) ∧
      (applyFound w s e).useStrategic = (if e.opt = 'S' then true else s.useStrategic) ∧
      (applyFound w s e).g.g_maxLike = s.g.g_maxLike ∧
      (applyFound w s e).g.g_obsProbs = s.g.g_obsProbs := by
  obtain ⟨d0, c, d1⟩ := e
  simp only [Found.wellFormed, Found.accepted, flagLetters, argLetters, List.mem_cons,
    List.mem_singleton, List.not_mem_nil, or_false, ne_eq] at hw ha
  rcases hw with h | h | ⟨h, a, harg⟩
  · exact absurd h ha.2
  · rcases h with h | h | h | h <;> subst h
    · simp [applyFound, optionCase]
    · simp [applyFound, optionCase]
    · exact absurd rfl ha.1
    · simp [applyFound, optionCase]
  · rcases h with h | h | h | h | h <;> subst h <;> simp [applyFound, optionCase, harg]

theorem lastArg_append_singleton (c : Char) (l : List Found) (e : Found) :
    lastArg c (l ++ [e]) = if e.opt = c then e.after.optarg else lastArg c l := by
  unfold lastArg
  by_cases h : e.opt = c
  · simp [List.filter_append, h]
  · simp [List.filter_append, h]

theorem occurs_append_singleton (c : Char) (l : List Found) (e : Found) :
    occurs c (l ++ [e]) ↔ (e.opt = c ∨ occurs c l) := by
  unfold occurs
  constructor
  · rintro ⟨x, hx, hc⟩
    rcases List.mem_append.1 hx with hx | hx
    · exact Or.inr ⟨x, hx, hc⟩
    · simp at hx; subst hx; exact Or.inl hc
  · rintro (h | ⟨x, hx, hc⟩)
    · exact ⟨e, by simp, h⟩
    · exact ⟨x, by simp [hx], hc⟩

/-- A variable set from the argument of option `c` ends up holding the
conversion of the argument of the last `c`, or its initial value. -/
theorem foldl_argField {α : Type} (w : World) (proj : Vars → α) (c : Char) (conv : String → α)
    (hstep : ∀ s e, e.wellFormed → e.accepted →
      proj (applyFound w s e) = if e.opt = c then (e.after.optarg.map conv).getD (proj s)
        else proj s)
    (l : List Found) (s : Vars) (hw : ∀ e ∈ l, e.wellFormed) (ha : ∀ e ∈ l, e.accepted)
    (hc : c ∈ argLetters) :
    proj (l.foldl (applyFound w) s) = ((lastArg c l).map conv).getD (proj s) := by
  induction l using List.reverseRecOn with
  | nil => simp [lastArg]
  | append_singleton l e ih =>
    have hwe := hw e (by simp)
    have hae := ha e (by simp)
    have ih1 := ih (fun x hx => hw x (by simp [hx])) (fun x hx => ha x (by simp [hx]))
    rw [List.foldl_append, List.foldl_cons, List.foldl_nil, hstep _ _ hwe hae,
      lastArg_append_singleton, ih1]
    by_cases h : e.opt = c
    · simp only [h, if_true]
      rcases hwe with h1 | h1 | ⟨_, a, h1⟩
      · rw [h] at h1; subst h1; simp [argLetters] at hc
      · rw [h] at h1
        exfalso
        revert hc h1
        simp only [argLetters, flagLetters, List.mem_cons, List.mem_singleton, List.not_mem_nil,
          or_false]
        rintro (rfl | rfl | rfl | rfl | rfl) <;> decide
      · simp [h1]
    · simp [h]

/-- A variable set to `v` by option `c` ends up `v` exactly when `c` occurs. -/
theorem foldl_flagField (w : World) (proj : Vars → Bool) (c : Char) (v : Bool)
    (hstep : ∀ s e, e.wellFormed → e.accepted →
      proj (applyFound w s e) = if e.opt = c then v else proj s)
    (l : List Found) (s : Vars) (hw : ∀ e ∈ l, e.wellFormed) (ha : ∀ e ∈ l, e.accepted) :
    proj (l.foldl (applyFound w) s) = if occurs c l then v else proj s := by
  induction l using List.reverseRecOn with
  | nil => simp [occurs]
  | append_singleton l e ih =>
    have hwe := hw e (by simp)
    have hae := ha e (by simp)
    have ih1 := ih (fun x hx => hw x (by simp [hx])) (fun x hx => ha x (by simp [hx]))
    rw [List.foldl_append, List.foldl_cons, List.foldl_nil, hstep _ _ hwe hae, ih1]
    simp only [occurs_append_singleton]
    by_cases h : e.opt = c <;> simp [h]

/-- A variable no option sets keeps its value. -/
theorem foldl_keep {α : Type} (w : World) (proj : Vars → α)
    (hstep : ∀ s e, e.wellFormed → e.accepted → proj (applyFound w s e) = proj s)
    (l : List Found) (s : Vars) (hw : ∀ e ∈ l, e.wellFormed) (ha : ∀ e ∈ l, e.accepted) :
    proj (l.foldl (applyFound w) s) = proj s := by
  induction l using List.reverseRecOn with
  | nil => rfl
  | append_singleton l e ih =>
    rw [List.foldl_append, List.foldl_cons, List.foldl_nil, hstep _ _ (hw e (by simp))
      (ha e (by simp))]
    exact ih (fun x hx => hw x (by simp [hx])) (fun x hx => ha x (by simp [hx]))

theorem main_parsed (w : World) (progname : String) (args : List String) (s : Vars)
    (h : parseOptions w progname args = .parsed s) :
    main w progname args =
      { events := (if s.quiet then [] else PrintBanner w .cerr) ++ (tryBlock w s).1,
        status := (tryBlock w s).2 } := by
  simp [main, h]

theorem main_stopped (w : World) (progname : String) (args : List String)
    (events : List Event) (status : Exit)
    (h : parseOptions w progname args = .stopped events status) :
    main w progname args = { events := events, status := status } := by
  simp [main, h]

theorem parsed_accepted (w : World) (progname : String) (args : List String) (s : Vars)
    (h : parseOptions w progname args = .parsed s) :
    (∀ e ∈ optionScan w args, e.accepted) ∧
      s = (optionScan w args).foldl (applyFound w) {} := by
  rcases scan_split (optionScan w args) with ha | ⟨pre, e, post, hs, hpre, he⟩
  · refine ⟨ha, ?_⟩
    rw [parseOptions_accepted w progname args ha] at h
    exact (LoopResult.parsed.inj h).symm
  · rw [parseOptions_stop w progname args pre post e hs hpre he] at h
    split_ifs at h

theorem lastArg_eq_none (c : Char) (l : List Found) (hw : ∀ e ∈ l, e.wellFormed)
    (hc : c ∈ argLetters) : lastArg c l = none ↔ ¬ occurs c l := by
  induction l using List.reverseRecOn with
  | nil => simp [lastArg, occurs]
  | append_singleton l e ih =>
    have ih1 := ih (fun x hx => hw x (by simp [hx]))
    rw [lastArg_append_singleton, occurs_append_singleton]
    by_cases h : e.opt = c
    · simp only [h, if_true, true_or, not_true_eq_false, iff_false]
      rcases hw e (by simp) with h1 | h1 | ⟨_, a, h1⟩
      · rw [h] at h1; subst h1; simp [argLetters] at hc
      · rw [h] at h1
        exfalso
        revert hc h1
        simp only [argLetters, flagLetters, List.mem_cons, List.mem_singleton, List.not_mem_nil,
          or_false]
        rintro (rfl | rfl | rfl | rfl | rfl) <;> decide
      · simp [h1]
    · simp [h, ih1]

/-- The variables with which the option loop ends, field by field. -/
theorem parsed_fields (w : World) (progname : String) (args : List String) (s : Vars)
    (h : parseOptions w progname args = .parsed s) :
    s.g.g_numDecimals = ((lastArg 'd' (optionScan w args)).map w.atoi).getD 6 ∧
      s.g.g_hStart = ((lastArg 's' (optionScan w args)).map w.atof).getD 0.03 ∧
      s.g.g_maxDecel = ((lastArg 'a' (optionScan w args)).map w.atof).getD 1.1 ∧
      s.maxLambda = ((lastArg 'm' (optionScan w args)).map w.atof).getD 1000000.0 ∧
      s.mleFile = (lastArg 'L' (optionScan w args)).getD "" ∧
      s.quiet = decide (occurs 'q' (optionScan w args)) ∧
      s.g.g_fullGraph = !decide (occurs 'e' (optionScan w args)) ∧
      s.useStrategic = decide (occurs 'S' (optionScan w args)) ∧
      s.g.g_maxLike = false ∧
      s.g.g_obsProbs = [] := by
  obtain ⟨ha, hs⟩ := parsed_accepted w progname args s h
  have hw := optionScan_wellFormed w args
  subst hs
  refine ⟨?_, ?_, ?_, ?_, ?_, ?_, ?_, ?_, ?_, ?_⟩
  · exact foldl_argField w (fun s => s.g.g_numDecimals) 'd' w.atoi
      (fun s e h1 h2 => (applyFound_fields w s e h1 h2).1) _ _ hw ha (by decide)
  · exact foldl_argField w (fun s => s.g.g_hStart) 's' w.atof
      (fun s e h1 h2 => (applyFound_fields w s e h1 h2).2.1) _ _ hw ha (by decide)
  · exact foldl_argField w (fun s => s.g.g_maxDecel) 'a' w.atof
      (fun s e h1 h2 => (applyFound_fields w s e h1 h2).2.2.1) _ _ hw ha (by decide)
  · exact foldl_argField w (fun s => s.maxLambda) 'm' w.atof
      (fun s e h1 h2 => (applyFound_fields w s e h1 h2).2.2.2.1) _ _ hw ha (by decide)
  · have := foldl_argField w (fun s => s.mleFile) 'L' id
      (fun s e h1 h2 => (applyFound_fields w s e h1 h2).2.2.2.2.1) _ {} hw ha (by decide)
    simpa using this
  · have := foldl_flagField w (fun s => s.quiet) 'q' true
      (fun s e h1 h2 => (applyFound_fields w s e h1 h2).2.2.2.2.2.1) _ {} hw ha
    refine this.trans ?_
    by_cases hq : occurs 'q' (optionScan w args) <;> simp [hq]
  · have := foldl_flagField w (fun s => s.g.g_fullGraph) 'e' false
      (fun s e h1 h2 => (applyFound_fields w s e h1 h2).2.2.2.2.2.2.1) _ {} hw ha
    refine this.trans ?_
    by_cases hq : occurs 'e' (optionScan w args) <;> simp [hq]
  · have := foldl_flagField w (fun s => s.useStrategic) 'S' true
      (fun s e h1 h2 => (applyFound_fields w s e h1 h2).2.2.2.2.2.2.2.1) _ {} hw ha
    refine this.trans ?_
    by_cases hq : occurs 'S' (optionScan w args) <;> simp [hq]
  · exact foldl_keep w (fun s => s.g.g_maxLike)
      (fun s e h1 h2 => (applyFound_fields w s e h1 h2).2.2.2.2.2.2.2.2.1) _ {} hw ha
  · exact foldl_keep w (fun s => s.g.g_obsProbs)
      (fun s e h1 h2 => (applyFound_fields w s e h1 h2).2.2.2.2.2.2.2.2.2) _ {} hw ha

theorem mleBlock_frame (w : World) (game : Game) (s : Vars) :
    (mleBlock w game s).useStrategic = s.useStrategic ∧
      (mleBlock w game s).maxLambda = s.maxLambda ∧
      (mleBlock w game s).g.g_numDecimals = s.g.g_numDecimals ∧
      (mleBlock w game s).g.g_hStart = s.g.g_hStart ∧
      (mleBlock w game s).g.g_maxDecel = s.g.g_maxDecel ∧
      (mleBlock w game s).g.g_fullGraph = s.g.g_fullGraph := by
  unfold mleBlock
  split_ifs <;> simp

theorem mleBlock_off (w : World) (game : Game) (s : Vars) (h : s.mleFile = "") :
    mleBlock w game s = s := by
  simp [mleBlock, h]

theorem traceCall_isTrace (w : World) (game : Game) (s : Vars) :
    (traceCall w game s).1.isTrace = true := by
  unfold traceCall
  split_ifs <;> rfl

theorem catchClause_isTrace (e : Thrown) : ∀ ev ∈ (catchClause e).1, ev.isTrace = false := by
  cases e <;> simp [catchClause, Event.isTrace]

theorem catchClause_status (e : Thrown) : (catchClause e).2 = .returned 1 := by
  cases e <;> rfl

theorem PrintBanner_isTrace (w : World) (p_stream : Stream) :
    ∀ ev ∈ PrintBanner w p_stream, ev.isTrace = false := by
  simp [PrintBanner, Event.isTrace]

theorem filter_isTrace_eq_nil (l : List Event) (h : ∀ ev ∈ l, ev.isTrace = false) :
    l.filter Event.isTrace = [] := by
  rw [List.filter_eq_nil_iff]
  intro a ha
  simp [h a ha]

/-- The tracer calls of the `try` block: none unless the game is read and its computed
values are built, and then exactly the call `traceCall` describes. -/
theorem tryBlock_traces (w : World) (s : Vars) :
    (tryBlock w s).1.filter Event.isTrace =
      match w.ReadGame with
      | .error _ => []
      | .ok game =>
        match w.BuildComputedValues game with
        | some _ => []
        | none => [(traceCall w game (mleBlock w game s)).1] := by
  unfold tryBlock
  cases hr : w.ReadGame with
  | error e =>
    simp only
    rw [List.filter_cons]
    simp [Event.isTrace, filter_isTrace_eq_nil _ (catchClause_isTrace e)]
  | ok game =>
    simp only
    cases hb : w.BuildComputedValues game with
    | some e =>
      simp only
      simp [List.filter_cons, Event.isTrace, filter_isTrace_eq_nil _ (catchClause_isTrace e)]
    | none =>
      simp only
      have h1 : Event.isTrace .ReadGame = false := rfl
      have h2 : Event.isTrace (.BuildComputedValues game) = false := rfl
      cases ht : (traceCall w game (mleBlock w game s)).2 with
      | none =>
        simp [List.filter_cons, h1, h2, traceCall_isTrace]
      | some e =>
        simp [List.filter_cons, h1, h2, traceCall_isTrace,
          filter_isTrace_eq_nil _ (catchClause_isTrace e)]

/-- The tracer calls of a run that got through the option loop. -/
theorem main_traces (w : World) (progname : String) (args : List String) (s : Vars)
    (h : parseOptions w progname args = .parsed s) :
    (main w progname args).events.filter Event.isTrace =
      (tryBlock w s).1.filter Event.isTrace := by
  rw [main_parsed w progname args s h]
  simp only [List.filter_append]
  split_ifs
  · simp
  · simp [filter_isTrace_eq_nil _ (PrintBanner_isTrace w .cerr)]

theorem optionScan_nil (w : World) : optionScan w [] = [] := rfl

/-- C1. With no command-line options (the scan of `argv` finds none), the option loop ends
with every variable at its initial value: numDecimals = 6, hStart = 0.03, maxDecel = 1.1,
maxLambda = 1000000, full graph on, strategic forcing off, MLE mode off; and the one tracer
call `main` makes once the game is read and built is made with these globals and this
maxLambda, the tracer being selected by the form of the game alone. -/
theorem C1_default_configuration (w : World) (progname : String) (args : List String)
    (game : Game) (hscan : optionScan w args = []) (hread : w.ReadGame = .ok game)
    (hbuild : w.BuildComputedValues game = none) :
    ∃ s : Vars,
      parseOptions w progname args = .parsed s ∧
        s.g.g_numDecimals = 6 ∧ s.g.g_hStart = 0.03 ∧ s.g.g_maxDecel = 1.1 ∧
        s.maxLambda = 1000000 ∧ s.g.g_fullGraph = true ∧ s.useStrategic = false ∧
        s.g.g_maxLike = false ∧
        (main w progname args).events.filter Event.isTrace =
          [if game.IsTree then Event.TraceAgentPath s.g ⟨game⟩ 0.0 s.maxLambda 1.0
            else Event.TraceStrategicPath s.g ⟨game⟩ 0.0 s.maxLambda 1.0] := by
  have hp : parseOptions w progname args = .parsed {} := by
    rw [parseOptions_accepted w progname args (by simp [hscan]), hscan]
    rfl
  refine ⟨{}, hp, rfl, rfl, rfl, by norm_num, rfl, rfl, rfl, ?_⟩
  rw [main_traces w progname args {} hp, tryBlock_traces, hread]
  simp only [hbuild, mleBlock_off w game {} rfl]
  unfold traceCall
  cases game.IsTree <;> rfl

theorem C1_default_configuration_witness :
    optionScan sampleWorld [] = [] ∧
      ∃ s : Vars,
        parseOptions sampleWorld "logit" [] = .parsed s ∧
          s.g.g_numDecimals = 6 ∧ s.g.g_hStart = 0.03 ∧ s.g.g_maxDecel = 1.1 ∧
          s.maxLambda = 1000000 ∧ s.g.g_fullGraph = true ∧ s.useStrategic = false ∧
          s.g.g_maxLike = false ∧
          (main sampleWorld "logit" []).events.filter Event.isTrace =
            [Event.TraceStrategicPath s.g ⟨⟨0, false, 4⟩⟩ 0.0 s.maxLambda 1.0] :=
  ⟨rfl, C1_default_configuration sampleWorld "logit" [] ⟨0, false, 4⟩ rfl rfl rfl⟩

/-- The three ways the option loop can end. -/
theorem parseOptions_cases (w : World) (progname : String) (args : List String) :
    (∃ s, parseOptions w progname args = .parsed s) ∨
      parseOptions w progname args = .stopped (PrintHelp w progname) (.exited 1) ∨
      ∃ c, parseOptions w progname args = .stopped (diagnostic progname c) (.returned 1) := by
  rcases scan_split (optionScan w args) with ha | ⟨pre, e, post, hs, hpre, he⟩
  · exact Or.inl ⟨_, parseOptions_accepted w progname args ha⟩
  · have := parseOptions_stop w progname args pre post e hs hpre he
    by_cases h : e.opt = 'h'
    · rw [if_pos h] at this
      exact Or.inr (Or.inl this)
    · rw [if_neg h] at this
      exact Or.inr (Or.inr ⟨_, this⟩)

theorem PrintHelp_isTrace (w : World) (progname : String) :
    ∀ ev ∈ PrintHelp w progname, ev.isTrace = false := by
  simp [PrintHelp, PrintBanner, usageText, Event.isTrace]

theorem diagnostic_isTrace (progname : String) (c : Char) :
    ∀ ev ∈ diagnostic progname c, ev.isTrace = false := by
  unfold diagnostic
  split_ifs <;> simp [Event.isTrace]

/-- Every tracer call of a run is the call `traceCall` describes, for the game read and the
variables the option loop ended with. -/
theorem main_trace_event (w : World) (progname : String) (args : List String) (ev : Event)
    (hev : ev ∈ (main w progname args).events) (ht : ev.isTrace = true) :
    ∃ s game, parseOptions w progname args = .parsed s ∧ w.ReadGame = .ok game ∧
      w.BuildComputedValues game = none ∧ ev = (traceCall w game (mleBlock w game s)).1 := by
  rcases parseOptions_cases w progname args with ⟨s, hp⟩ | hp | ⟨c, hp⟩
  · have hmem : ev ∈ (main w progname args).events.filter Event.isTrace :=
      List.mem_filter.2 ⟨hev, ht⟩
    rw [main_traces w progname args s hp, tryBlock_traces] at hmem
    cases hr : w.ReadGame with
    | error e => simp [hr] at hmem
    | ok game =>
      simp only [hr] at hmem
      cases hb : w.BuildComputedValues game with
      | some e => simp [hb] at hmem
      | none =>
        simp only [hb, List.mem_singleton] at hmem
        exact ⟨s, game, hp, rfl, hb, hmem⟩
  · rw [main_stopped w progname args _ _ hp] at hev
    have := PrintHelp_isTrace w progname ev hev
    simp [ht] at this
  · rw [main_stopped w progname args _ _ hp] at hev
    have := diagnostic_isTrace progname c ev hev
    simp [ht] at this

theorem optionCase_frame (w : World) (progname : String) (c : Char) (d : GetoptData)
    (s0 s1 : Vars) (h : optionCase w progname c d s0 = .next s1) :
    (c ≠ 'd' → s1.g.g_numDecimals = s0.g.g_numDecimals) ∧
      (c ≠ 's' → s1.g.g_hStart = s0.g.g_hStart) ∧
      (c ≠ 'a' → s1.g.g_maxDecel = s0.g.g_maxDecel) ∧
      (c ≠ 'm' → s1.maxLambda = s0.maxLambda) ∧
      (c ≠ 'e' → s1.g.g_fullGraph = s0.g.g_fullGraph) ∧
      (c ≠ 'S' → s1.useStrategic = s0.useStrategic) ∧
      (c ≠ 'L' → s1.mleFile = s0.mleFile) ∧
      (c ≠ 'q' → s1.quiet = s0.quiet) ∧
      s1.g.g_maxLike = s0.g.g_maxLike ∧ s1.g.g_obsProbs = s0.g.g_obsProbs := by
  by_cases hq : c = 'q'
  · subst hq
    have h0 : optionCase w progname 'q' d s0 = .next { s0 with quiet := true } := rfl
    rw [h0] at h; cases h; simp
  by_cases hd : c = 'd'
  · subst hd
    cases ha : d.optarg with
    | none =>
      have h0 : optionCase w progname 'd' d s0 = .stop [] .undefined := by
        simp [optionCase, ha]
      rw [h0] at h; cases h
    | some a =>
      have h0 : optionCase w progname 'd' d s0 =
          .next { s0 with g := { s0.g with g_numDecimals := w.atoi a } } := by
        simp [optionCase, ha]
      rw [h0] at h; cases h; simp
  by_cases hs : c = 's'
  · subst hs
    cases ha : d.optarg with
    | none =>
      have h0 : optionCase w progname 's' d s0 = .stop [] .undefined := by
        simp [optionCase, ha]
      rw [h0] at h; cases h
    | some a =>
      have h0 : optionCase w progname 's' d s0 =
          .next { s0 with g := { s0.g with g_hStart := w.atof a } } := by
        simp [optionCase, ha]
      rw [h0] at h; cases h; simp
  by_cases ha1 : c = 'a'
  · subst ha1
    cases ha : d.optarg with
    | none =>
      have h0 : optionCase w progname 'a' d s0 = .stop [] .undefined := by
        simp [optionCase, ha]
      rw [h0] at h; cases h
    | some a =>
      have h0 : optionCase w progname 'a' d s0 =
          .next { s0 with g := { s0.g with g_maxDecel := w.atof a } } := by
        simp [optionCase, ha]
      rw [h0] at h; cases h; simp
  by_cases hm : c = 'm'
  · subst hm
    cases ha : d.optarg with
    | none =>
      have h0 : optionCase w progname 'm' d s0 = .stop [] .undefined := by
        simp [optionCase, ha]
      rw [h0] at h; cases h
    | some a =>
      have h0 : optionCase w progname 'm' d s0 = .next { s0 with maxLambda := w.atof a } := by
        simp [optionCase, ha]
      rw [h0] at h; cases h; simp
  by_cases he : c = 'e'
  · subst he
    have h0 : optionCase w progname 'e' d s0 =
        .next { s0 with g := { s0.g with g_fullGraph := false } } := rfl
    rw [h0] at h; cases h; simp
  by_cases hh : c = 'h'
  · subst hh
    rw [optionCase_help] at h; cases h
  by_cases hS : c = 'S'
  · subst hS
    have h0 : optionCase w progname 'S' d s0 = .next { s0 with useStrategic := true } := rfl
    rw [h0] at h; cases h; simp
  by_cases hL : c = 'L'
  · subst hL
    cases ha : d.optarg with
    | none =>
      have h0 : optionCase w progname 'L' d s0 = .stop [] .undefined := by
        simp [optionCase, ha]
      rw [h0] at h; cases h
    | some a =>
      have h0 : optionCase w progname 'L' d s0 = .next { s0 with mleFile := a } := by
        simp [optionCase, ha]
      rw [h0] at h; cases h; simp
  by_cases hu : c = '?'
  · subst hu
    rw [optionCase_unknown] at h; cases h
  have h0 : optionCase w progname c d s0 = .stop [] .aborted := by
    simp [optionCase, hq, hd, hs, ha1, hm, he, hh, hS, hL, hu]
  rw [h0] at h; cases h

/-- C2. When the option loop ends normally, numDecimals, hStart, maxDecel and maxLambda hold
the conversion (`atoi` for -d, `atof` for -s, -a, -m) of the argument of the last occurrence
of their option, or their default when the option does not occur (and the argument of the
last occurrence is missing only then); and a pass through the switch for option `c` changes
no variable other than the one `c` owns. -/
theorem C2_option_values (w : World) (progname : String) (args : List String) (s : Vars)
    (h : parseOptions w progname args = .parsed s) :
    s.g.g_numDecimals = ((lastArg 'd' (optionScan w args)).map w.atoi).getD 6 ∧
      s.g.g_hStart = ((lastArg 's' (optionScan w args)).map w.atof).getD 0.03 ∧
      s.g.g_maxDecel = ((lastArg 'a' (optionScan w args)).map w.atof).getD 1.1 ∧
      s.maxLambda = ((lastArg 'm' (optionScan w args)).map w.atof).getD 1000000 ∧
      (∀ c ∈ argLetters, lastArg c (optionScan w args) = none ↔ ¬ occurs c (optionScan w args)) ∧
      ∀ (c : Char) (d : GetoptData) (s0 s1 : Vars),
        optionCase w progname c d s0 = .next s1 →
          (c ≠ 'd' → s1.g.g_numDecimals = s0.g.g_numDecimals) ∧
            (c ≠ 's' → s1.g.g_hStart = s0.g.g_hStart) ∧
            (c ≠ 'a' → s1.g.g_maxDecel = s0.g.g_maxDecel) ∧
            (c ≠ 'm' → s1.maxLambda = s0.maxLambda) ∧
            (c ≠ 'e' → s1.g.g_fullGraph = s0.g.g_fullGraph) ∧
            (c ≠ 'S' → s1.useStrategic = s0.useStrategic) ∧
            (c ≠ 'L' → s1.mleFile = s0.mleFile) ∧
            (c ≠ 'q' → s1.quiet = s0.quiet) ∧
            s1.g.g_maxLike = s0.g.g_maxLike ∧ s1.g.g_obsProbs = s0.g.g_obsProbs := by
  obtain ⟨h1, h2, h3, h4, -⟩ := parsed_fields w progname args s h
  refine ⟨h1, h2, h3, ?_, ?_, optionCase_frame w progname⟩
  · rw [h4]; norm_num
  · intro c hc
    exact lastArg_eq_none c _ (optionScan_wellFormed w args) hc

theorem C2_option_values_witness :
    parseOptions sampleWorld "logit" ["-d", "4", "-s", "0.5", "-qd7"] =
        .parsed { g := { g_numDecimals := sampleWorld.atoi "7", g_hStart := sampleWorld.atof "0.5" },
                  quiet := true } ∧
      sampleWorld.atoi "7" =
        ((lastArg 'd' (optionScan sampleWorld ["-d", "4", "-s", "0.5", "-qd7"])).map
          sampleWorld.atoi).getD 6 :=
  ⟨rfl, (C2_option_values sampleWorld "logit" ["-d", "4", "-s", "0.5", "-qd7"] _ rfl).1⟩

/-- C3. After an option loop that ends normally, `g_fullGraph` is false exactly when -e
occurs among the options, it is true (full graph, the default) without -e, and this is the
value every tracer call of the run is made with. -/
theorem C3_full_graph (w : World) (progname : String) (args : List String) (s : Vars)
    (h : parseOptions w progname args = .parsed s) :
    (s.g.g_fullGraph = false ↔ occurs 'e' (optionScan w args)) ∧
      (¬ occurs 'e' (optionScan w args) → s.g.g_fullGraph = true) ∧
      ∀ ev ∈ (main w progname args).events, ∀ g, ev.globals? = some g →
        g.g_fullGraph = s.g.g_fullGraph := by
  have hf := (parsed_fields w progname args s h).2.2.2.2.2.2.1
  refine ⟨?_, ?_, ?_⟩
  · rw [hf]; simp
  · intro hn; rw [hf]; simp [hn]
  · intro ev hev g hg
    have ht : ev.isTrace = true := by
      cases ev <;> simp [Event.globals?] at hg <;> rfl
    obtain ⟨s', game, hp, -, -, hcall⟩ := main_trace_event w progname args ev hev ht
    rw [h] at hp
    cases hp
    subst hcall
    have hfr := (mleBlock_frame w game s).2.2.2.2.2
    unfold traceCall at hg
    split_ifs at hg <;> simp only [Event.globals?, Option.some.injEq] at hg <;> rw [← hg, hfr]

theorem C3_full_graph_witness :
    parseOptions sampleWorld "logit" ["-q", "-e"] =
        .parsed { g := { g_fullGraph := false }, quiet := true } ∧
      (false = false ↔ occurs 'e' (optionScan sampleWorld ["-q", "-e"])) :=
  ⟨rfl, (C3_full_graph sampleWorld "logit" ["-q", "-e"] _ rfl).1⟩

/-- C4 as stated fails: in a world where `BuildComputedValues` throws, the game is read
successfully and no tracer is invoked. -/
theorem C4_fails_when_build_throws :
    buildFailsWorld.ReadGame = .ok ⟨0, false, 4⟩ ∧
      Event.ReadGame ∈ (main buildFailsWorld "logit" ["-q"]).events ∧
      (main buildFailsWorld "logit" ["-q"]).events.filter Event.isTrace = [] := by
  refine ⟨rfl, ?_, rfl⟩
  show Event.ReadGame ∈ [Event.ReadGame, Event.BuildComputedValues ⟨0, false, 4⟩,
    Event.write .cerr (.str "Error: An internal error occurred.\n")]
  simp

/-- C4 (amended). For every successfully read game whose computed values are built without
an exception, `main` makes exactly one tracer call: `TraceStrategicPath` if the game is not
a tree or -S was given, `TraceAgentPath` otherwise. -/
theorem C4_one_tracer (w : World) (progname : String) (args : List String) (s : Vars)
    (game : Game) (h : parseOptions w progname args = .parsed s)
    (hread : w.ReadGame = .ok game) (hbuild : w.BuildComputedValues game = none) :
    ∃ g a b c,
      (main w progname args).events.filter Event.isTrace =
        [if game.IsTree = false ∨ occurs 'S' (optionScan w args)
          then Event.TraceStrategicPath g ⟨game⟩ a b c
          else Event.TraceAgentPath g ⟨game⟩ a b c] := by
  have hS := (parsed_fields w progname args s h).2.2.2.2.2.2.2.1
  rw [main_traces w progname args s h, tryBlock_traces, hread]
  simp only [hbuild]
  refine ⟨(mleBlock w game s).g, 0.0, (mleBlock w game s).maxLambda, 1.0, ?_⟩
  unfold traceCall
  rw [(mleBlock_frame w game s).1, hS]
  by_cases h1 : game.IsTree = false <;> by_cases h2 : occurs 'S' (optionScan w args) <;>
    simp [h1, h2]

theorem C4_one_tracer_witness :
    parseOptions sampleWorld "logit" ["-q", "-S"] = .parsed { quiet := true, useStrategic := true } ∧
      sampleWorld.ReadGame = .ok ⟨0, false, 4⟩ ∧
      sampleWorld.BuildComputedValues ⟨0, false, 4⟩ = none ∧
      ∃ g a b c,
        (main sampleWorld "logit" ["-q", "-S"]).events.filter Event.isTrace =
          [if (⟨0, false, 4⟩ : Game).IsTree = false ∨ occurs 'S' (optionScan sampleWorld ["-q", "-S"])
            then Event.TraceStrategicPath g ⟨⟨0, false, 4⟩⟩ a b c
            else Event.TraceAgentPath g ⟨⟨0, false, 4⟩⟩ a b c] :=
  ⟨rfl, rfl, rfl, C4_one_tracer sampleWorld "logit" ["-q", "-S"] _ ⟨0, false, 4⟩ rfl rfl rfl⟩

theorem traceCall_returns (w : World) (game : Game) (s : Vars) :
    (traceCall w game s).1.returns w ↔ (traceCall w game s).2 = none := by
  unfold traceCall
  split_ifs <;> simp [Event.returns]

theorem noThrow_cons (w : World) (ev : Event) (l : List Event) :
    noThrow w (ev :: l) ↔ ev.returns w ∧ noThrow w l := by
  simp [noThrow]

theorem noThrow_catchClause (w : World) (e : Thrown) : noThrow w (catchClause e).1 := by
  cases e <;> simp [noThrow, catchClause, Event.returns]

/-- The `try` block returns 0 when every call it made returned, and 1 otherwise. -/
theorem tryBlock_status (w : World) (s : Vars) :
    (noThrow w (tryBlock w s).1 → (tryBlock w s).2 = .returned 0) ∧
      (¬ noThrow w (tryBlock w s).1 → (tryBlock w s).2 = .returned 1) := by
  unfold tryBlock
  cases hr : w.ReadGame with
  | error e =>
    simp only [noThrow_cons, Event.returns, hr, catchClause_status]
    simp
  | ok game =>
    simp only
    cases hb : w.BuildComputedValues game with
    | some e =>
      simp only [noThrow_cons, Event.returns, hb, catchClause_status]
      simp
    | none =>
      simp only
      cases ht : (traceCall w game (mleBlock w game s)).2 with
      | none =>
        have hc := (traceCall_returns w game (mleBlock w game s)).2 ht
        refine ⟨fun _ => rfl, fun hn => absurd ?_ hn⟩
        intro ev hev
        simp only [List.mem_cons, List.mem_singleton, List.not_mem_nil, or_false] at hev
        rcases hev with rfl | rfl | rfl
        · exact ⟨game, hr⟩
        · exact hb
        · exact hc
      | some e =>
        refine ⟨fun hn => ?_, fun _ => catchClause_status e⟩
        have h1 := hn (traceCall w game (mleBlock w game s)).1 (by simp)
        rw [traceCall_returns, ht] at h1
        cases h1

/-- Every run ends by `return 0`, `return 1` or `exit(1)`: the option loop always comes to
an end, `abort()` is never reached and no conversion is handed a null `optarg`. -/
theorem main_status (w : World) (progname : String) (args : List String) :
    (main w progname args).status = .returned 0 ∨ (main w progname args).status = .returned 1 ∨
      (main w progname args).status = .exited 1 := by
  rcases parseOptions_cases w progname args with ⟨s, hp⟩ | hp | ⟨c, hp⟩
  · rw [main_parsed w progname args s hp]
    by_cases h : noThrow w (tryBlock w s).1
    · exact Or.inl ((tryBlock_status w s).1 h)
    · exact Or.inr (Or.inl ((tryBlock_status w s).2 h))
  · rw [main_stopped w progname args _ _ hp]
    exact Or.inr (Or.inr rfl)
  · rw [main_stopped w progname args _ _ hp]
    exact Or.inr (Or.inl rfl)

/-- C7. When the options are all accepted and the game reader throws `InvalidFileException`,
the run consists of the banner (unless -q was given), the call of the reader and the single
insertion of "Error: Game not in a recognized format." into standard error; no tracer is
invoked and `main` returns 1. -/
theorem C7_invalid_game (w : World) (progname : String) (args : List String)
    (hacc : ∀ e ∈ optionScan w args, e.accepted)
    (hread : w.ReadGame = .error .InvalidFileException) :
    main w progname args =
        { events := (if occurs 'q' (optionScan w args) then [] else PrintBanner w .cerr) ++
            [.ReadGame, .write .cerr (.str "Error: Game not in a recognized format.\n")],
          status := .returned 1 } ∧
      (main w progname args).events.filter Event.isTrace = [] := by
  have hp := parseOptions_accepted w progname args hacc
  have hq := (parsed_fields w progname args _ hp).2.2.2.2.2.1
  have hm : main w progname args =
      { events := (if occurs 'q' (optionScan w args) then [] else PrintBanner w .cerr) ++
          [.ReadGame, .write .cerr (.str "Error: Game not in a recognized format.\n")],
        status := .returned 1 } := by
    rw [main_parsed w progname args _ hp, hq]
    simp [tryBlock, hread, catchClause]
  refine ⟨hm, ?_⟩
  rw [main_traces w progname args _ hp, tryBlock_traces, hread]

theorem C7_invalid_game_witness :
    (∀ e ∈ optionScan rejectingWorld ["-e"], e.accepted) ∧
      rejectingWorld.ReadGame = .error .InvalidFileException ∧
      main rejectingWorld "logit" ["-e"] =
        { events := (if occurs 'q' (optionScan rejectingWorld ["-e"]) then []
              else PrintBanner rejectingWorld .cerr) ++
            [.ReadGame, .write .cerr (.str "Error: Game not in a recognized format.\n")],
          status := .returned 1 } :=
  ⟨by decide, rfl, (C7_invalid_game rejectingWorld "logit" ["-e"] (by decide) rfl).1⟩

theorem firstStop_eq_some (l : List Found) (e : Found) (h : firstStop l = some e) :
    ∃ pre post, l = pre ++ e :: post ∧ (∀ x ∈ pre, x.accepted) ∧ ¬ e.accepted := by
  induction l with
  | nil => simp [firstStop] at h
  | cons a l ih =>
    unfold firstStop at h
    rw [List.find?_cons] at h
    by_cases ha : a.accepted
    · simp only [ha, not_true_eq_false, decide_False] at h
      obtain ⟨pre, post, h1, h2, h3⟩ := ih h
      refine ⟨a :: pre, post, by simp [h1], ?_, h3⟩
      intro x hx
      rcases List.mem_cons.1 hx with rfl | hx
      · exact ha
      · exact h2 x hx
    · simp only [ha, not_false_eq_true, decide_True, Option.some.injEq] at h
      subst h
      exact ⟨[], l, rfl, by simp, ha⟩

/-- C8. Whenever the option scan reaches -h (the first option at which the loop stops is
-h), the run is exactly this: the three lines of the banner and then the usage text, line
by line as `PrintHelp` writes it, every piece inserted into standard error, and then
`exit(1)`.  The game is not read and no tracer is invoked. -/
theorem C8_help (w : World) (progname : String) (args : List String) (e : Found)
    (hstop : firstStop (optionScan w args) = some e) (hh : e.opt = 'h') :
    main w progname args =
        { events :=
          [ .write .cerr (.str "Compute a branch of the logit equilibrium correspondence\n"),
            .write .cerr
              (.str ("Gambit version " ++ w.VERSION ++
                ", Copyright (C) 2005, The Gambit Project\n")),
            .write .cerr (.str "This is free software, distributed under the GNU GPL\n\n"),
            .write .cerr (.str "Usage: "),
            .write .cerr (.str progname),
            .write .cerr (.str " [OPTIONS]\n"),
            .write .cerr (.str "Accepts game on standard input.\n"),
            .write .cerr (.str "Options:\n"),
            .write .cerr
              (.str "  -d DECIMALS      show equilibria as floating point with DECIMALS digits\n"),
            .write .cerr (.str "  -s STEP          initial stepsize (default is .03)\n"),
            .write .cerr (.str "  -a ACCEL         maximum acceleration (default is 1.1)\n"),
            .write .cerr
              (.str "  -m MAXLAMBDA     stop when reaching MAXLAMBDA (default is 1000000)\n"),
            .write .cerr (.str "  -h               print this help message\n"),
            .write .cerr (.str "  -q               quiet mode (suppresses banner)\n"),
            .write .cerr (.str "  -e               print only the terminal equilibrium\n"),
            .write .cerr
              (.str "                   (default is to print the entire branch)\n") ],
          status := .exited 1 } ∧
      (∀ ev ∈ (main w progname args).events, ∃ c, ev = .write .cerr c) ∧
      Event.ReadGame ∉ (main w progname args).events ∧
      (main w progname args).events.filter Event.isTrace = [] := by
  obtain ⟨pre, post, hs, hpre, he⟩ := firstStop_eq_some _ e hstop
  have hp := parseOptions_stop w progname args pre post e hs hpre he
  rw [if_pos hh] at hp
  have hm := main_stopped w progname args _ _ hp
  rw [hm]
  refine ⟨rfl, ?_, ?_, filter_isTrace_eq_nil _ (PrintHelp_isTrace w progname)⟩
  · simp [PrintHelp, PrintBanner, usageText]
  · simp [PrintHelp, PrintBanner, usageText]

theorem C8_help_witness :
    firstStop (optionScan sampleWorld ["-e", "-h", "-x"]) =
        some ⟨{ rest := ["-h", "-x"] }, 'h', { rest := ["-x"] }⟩ ∧
      main sampleWorld "logit" ["-e", "-h", "-x"] =
        { events :=
          [ .write .cerr (.str "Compute a branch of the logit equilibrium correspondence\n"),
            .write .cerr
              (.str ("Gambit version " ++ sampleWorld.VERSION ++
                ", Copyright (C) 2005, The Gambit Project\n")),
            .write .cerr (.str "This is free software, distributed under the GNU GPL\n\n"),
            .write .cerr (.str "Usage: "),
            .write .cerr (.str "logit"),
            .write .cerr (.str " [OPTIONS]\n"),
            .write .cerr (.str "Accepts game on standard input.\n"),
            .write .cerr (.str "Options:\n"),
            .write .cerr
              (.str "  -d DECIMALS      show equilibria as floating point with DECIMALS digits\n"),
            .write .cerr (.str "  -s STEP          initial stepsize (default is .03)\n"),
            .write .cerr (.str "  -a ACCEL         maximum acceleration (default is 1.1)\n"),
            .write .cerr
              (.str "  -m MAXLAMBDA     stop when reaching MAXLAMBDA (default is 1000000)\n"),
            .write .cerr (.str "  -h               print this help message\n"),
            .write .cerr (.str "  -q               quiet mode (suppresses banner)\n"),
            .write .cerr (.str "  -e               print only the terminal equilibrium\n"),
            .write .cerr
              (.str "                   (default is to print the entire branch)\n") ],
          status := .exited 1 } :=
  ⟨by decide, (C8_help sampleWorld "logit" ["-e", "-h", "-x"]
    ⟨{ rest := ["-h", "-x"] }, 'h', { rest := ["-x"] }⟩ (by decide) rfl).1⟩

theorem bannerWritten_third (w : World) (events : List Event) (h : bannerWritten w events) :
    ∃ p_stream,
      Event.write p_stream (.str "This is free software, distributed under the GNU GPL\n\n") ∈
        events.drop 2 := by
  obtain ⟨p_stream, pre, post, h⟩ := h
  refine ⟨p_stream, ?_⟩
  subst h
  rcases pre with _ | ⟨x, _ | ⟨y, pre⟩⟩ <;> simp [PrintBanner]

theorem not_bannerWritten_diagnostic (w : World) (progname : String) (c : Char) :
    ¬ bannerWritten w (diagnostic progname c) := by
  intro h
  obtain ⟨p_stream, hmem⟩ := bannerWritten_third w _ h
  unfold diagnostic at hmem
  split_ifs at hmem <;> simp at hmem

theorem argLetters_not_flag (c : Char) (h : c ∈ argLetters) : c ∉ flagLetters := by
  revert h
  simp only [argLetters, flagLetters, List.mem_cons, List.mem_singleton, List.not_mem_nil,
    or_false]
  rintro (rfl | rfl | rfl | rfl | rfl) <;> decide

/-- On an option letter that is not in the option string, or that requires an argument and
has none, `getopt` returns `?` and leaves the letter in `optopt`. -/
theorem getopt_unknown (permute : Bool) (d : GetoptData) (c : Char) (cs : List Char)
    (rest : List String) (hnext : nextOption permute d = some (c, cs, rest))
    (hbad : (c ∉ flagLetters ∧ c ∉ argLetters) ∨ (c ∈ argLetters ∧ cs = [] ∧ rest = [])) :
    (getopt permute optstring d).1 = some '?' ∧ (getopt permute optstring d).2.optopt = c := by
  rw [getopt_optstring, hnext]
  simp only
  unfold shortOptionSpec
  rcases hbad with ⟨h1, h2⟩ | ⟨h1, h2, h3⟩
  · rw [if_neg h1, if_neg h2]
    exact ⟨rfl, rfl⟩
  · subst h2 h3
    rw [if_neg (argLetters_not_flag c h1), if_pos h1]
    exact ⟨rfl, rfl⟩

/-- C10. If, after options that were all accepted, the option scan meets an option letter
`c` outside d, s, a, m, q, e, h, S, L, or one of d, s, a, m, L that ends the command line
without its argument, then the run is exactly one line inserted into standard error, and
`main` returns 1.  For a printable `c` the line is the program name, the text
": Unknown option", a backquote, a dash, `c` itself, a quote, a full stop and a newline;
for any other `c` it is the program name, the text ": Unknown option character", a
backquote, a backslash, an x, the number held by `optopt` in decimal, a backquote, a full
stop and a newline; that number is the code of `c` when `c` is ASCII, and otherwise the
first byte of the UTF-8 encoding of `c` taken as a signed `char`.  No banner is written,
the game is not read and no tracer is invoked. -/
theorem C10_unknown_option (w : World) (progname : String) (args : List String)
    (pre post : List Found) (e : Found) (c : Char) (cs : List Char) (rest : List String)
    (hs : optionScan w args = pre ++ e :: post) (hpre : ∀ x ∈ pre, x.accepted)
    (hnext : nextOption w.permute e.before = some (c, cs, rest))
    (hbad : (c ∉ flagLetters ∧ c ∉ argLetters) ∨ (c ∈ argLetters ∧ cs = [] ∧ rest = [])) :
    main w progname args =
        { events :=
            if 32 ≤ c.toNat ∧ c.toNat ≤ 126 then
              [ .write .cerr (.str progname),
                .write .cerr (.str ": Unknown option `-"),
                .write .cerr (.chr c),
                .write .cerr (.str "'.\n") ]
            else
              [ .write .cerr (.str progname),
                .write .cerr (.str ": Unknown option character `\\x"),
                .write .cerr (.int (optoptValue c)),
                .write .cerr (.str "`.\n") ],
          status := .returned 1 } ∧
      (optoptValue c =
        if c.toNat < 128 then (c.toNat : Int)
        else if c.toNat < 2048 then (192 + c.toNat / 64 : Nat) - 256
        else if c.toNat < 65536 then (224 + c.toNat / 4096 : Nat) - 256
        else (240 + c.toNat / 262144 : Nat) - 256) ∧
      (∀ ev ∈ (main w progname args).events, ∃ x, ev = .write .cerr x) ∧
      ¬ bannerWritten w (main w progname args).events ∧
      Event.ReadGame ∉ (main w progname args).events ∧
      (main w progname args).events.filter Event.isTrace = [] := by
  have hmem : e ∈ optionScan w args := by rw [hs]; simp
  have hg := (scan_sound w.permute _ _ e hmem).1
  obtain ⟨h1, h2⟩ := getopt_unknown w.permute e.before c cs rest hnext hbad
  rw [hg] at h1 h2
  simp only [Option.some.injEq] at h1 h2
  have he : ¬ e.accepted := fun h => h.2 h1
  have hp := parseOptions_stop w progname args pre post e hs hpre he
  rw [if_neg (by rw [h1]; decide), h2] at hp
  have hm := main_stopped w progname args _ _ hp
  rw [hm]
  refine ⟨?_, rfl, ?_, not_bannerWritten_diagnostic w progname c, ?_,
    filter_isTrace_eq_nil _ (diagnostic_isTrace progname c)⟩
  · by_cases hpr : 32 ≤ c.toNat ∧ c.toNat ≤ 126
    · have hi : isprint c = true := by simp [isprint, hpr.1, hpr.2]
      simp only [diagnostic, hi, if_true, hpr, and_self]
    · have hi : isprint c = false := by
        rcases not_and_or.1 hpr with h | h <;> simp [isprint, h]
      simp only [diagnostic, hi, Bool.false_eq_true, if_false, hpr]
  · unfold diagnostic
    split_ifs <;> simp
  · unfold diagnostic
    split_ifs <;> simp

theorem C10_unknown_option_witness :
    optionScan sampleWorld ["-q", "-x", "-e"] =
        [⟨{ rest := ["-q", "-x", "-e"] }, 'q', { rest := ["-x", "-e"] }⟩] ++
          ⟨{ rest := ["-x", "-e"] }, '?', { rest := ["-e"], optopt := 'x' }⟩ ::
            [⟨{ rest := ["-e"], optopt := 'x' }, 'e', { rest := [], optopt := 'x' }⟩] ∧
      main sampleWorld "logit" ["-q", "-x", "-e"] =
        { events :=
            [ .write .cerr (.str "logit"),
              .write .cerr (.str ": Unknown option `-"),
              .write .cerr (.chr 'x'),
              .write .cerr (.str "'.\n") ],
          status := .returned 1 } :=
  ⟨by decide,
    (C10_unknown_option sampleWorld "logit" ["-q", "-x", "-e"]
      [⟨{ rest := ["-q", "-x", "-e"] }, 'q', { rest := ["-x", "-e"] }⟩]
      [⟨{ rest := ["-e"], optopt := 'x' }, 'e', { rest := [], optopt := 'x' }⟩]
      ⟨{ rest := ["-x", "-e"] }, '?', { rest := ["-e"], optopt := 'x' }⟩ 'x' [] ["-e"]
      (by decide) (by decide) (by decide) (by decide)).1⟩

/-- The MLE block enables MLE mode exactly when a file was named and the trace is strategic. -/
theorem mleBlock_maxLike (w : World) (game : Game) (s : Vars) (h0 : s.g.g_maxLike = false) :
    (mleBlock w game s).g.g_maxLike = true ↔
      s.mleFile ≠ "" ∧ (game.IsTree = false ∨ s.useStrategic = true) := by
  unfold mleBlock
  by_cases h1 : s.mleFile = ""
  · simp [h1, h0]
  · cases hT : game.IsTree <;> cases hS : s.useStrategic <;> simp [h1, h0]

/-- The globals of a tracer call of a run are those the MLE block leaves. -/
theorem main_trace_globals (w : World) (progname : String) (args : List String) (s : Vars)
    (game : Game) (h : parseOptions w progname args = .parsed s) (hread : w.ReadGame = .ok game)
    (ev : Event) (hev : ev ∈ (main w progname args).events) (g : Globals)
    (hg : ev.globals? = some g) : g = (mleBlock w game s).g := by
  have ht : ev.isTrace = true := by
    cases ev <;> simp [Event.globals?] at hg <;> rfl
  obtain ⟨s', game', hp, hr, -, hcall⟩ := main_trace_event w progname args ev hev ht
  rw [h] at hp
  cases hp
  rw [hread] at hr
  cases hr
  subst hcall
  unfold traceCall at hg
  split_ifs at hg <;> simp only [Event.globals?, Option.some.injEq] at hg <;> exact hg.symm

/-- C12 as stated fails: for a game in extensive form traced without -S, `-L FILE` leaves MLE
mode off: the agent tracer is called with `g_maxLike` false. -/
theorem C12_fails_for_tree_game :
    treeWorld.ReadGame = .ok ⟨0, true, 4⟩ ∧
      lastArg 'L' (optionScan treeWorld ["-q", "-L", "obs.csv"]) = some "obs.csv" ∧
      (main treeWorld "logit" ["-q", "-L", "obs.csv"]).events.filter Event.isTrace =
        [Event.TraceAgentPath { g_maxLike := false } ⟨⟨0, true, 4⟩⟩ 0.0 1000000.0 1.0] :=
  ⟨rfl, by decide, rfl⟩

/-- C12 (amended). Whenever -L FILE is given with a non-empty FILE and the game is read
successfully, MLE mode is enabled (`g_maxLike` is true) before tracing starts if and only if
the game is not a tree or -S was given; every tracer call of the run sees that value. -/
theorem C12_mle_mode (w : World) (progname : String) (args : List String) (s : Vars)
    (game : Game) (file : String) (h : parseOptions w progname args = .parsed s)
    (hL : lastArg 'L' (optionScan w args) = some file) (hne : file ≠ "")
    (hread : w.ReadGame = .ok game) :
    ((mleBlock w game s).g.g_maxLike = true ↔
        (game.IsTree = false ∨ occurs 'S' (optionScan w args))) ∧
      ∀ ev ∈ (main w progname args).events, ∀ g, ev.globals? = some g →
        (g.g_maxLike = true ↔ (game.IsTree = false ∨ occurs 'S' (optionScan w args))) := by
  obtain ⟨-, -, -, -, hfile, -, -, hS, hm, -⟩ := parsed_fields w progname args s h
  have hfile' : s.mleFile = file := by rw [hfile, hL]; rfl
  have key : (mleBlock w game s).g.g_maxLike = true ↔
      (game.IsTree = false ∨ occurs 'S' (optionScan w args)) := by
    rw [mleBlock_maxLike w game s hm, hfile', hS]
    simp [hne]
  refine ⟨key, ?_⟩
  intro ev hev g hg
  rw [main_trace_globals w progname args s game h hread ev hev g hg]
  exact key

theorem C12_mle_mode_witness :
    parseOptions sampleWorld "logit" ["-q", "-L", "obs.csv"] =
        .parsed { quiet := true, mleFile := "obs.csv" } ∧
      lastArg 'L' (optionScan sampleWorld ["-q", "-L", "obs.csv"]) = some "obs.csv" ∧
      "obs.csv" ≠ "" ∧
      sampleWorld.ReadGame = .ok ⟨0, false, 4⟩ ∧
      ((mleBlock sampleWorld ⟨0, false, 4⟩ { quiet := true, mleFile := "obs.csv" }).g.g_maxLike
          = true ↔
        ((⟨0, false, 4⟩ : Game).IsTree = false ∨
          occurs 'S' (optionScan sampleWorld ["-q", "-L", "obs.csv"]))) :=
  ⟨rfl, by decide, by decide, rfl,
    (C12_mle_mode sampleWorld "logit" ["-q", "-L", "obs.csv"] _ ⟨0, false, 4⟩ "obs.csv" rfl
      (by decide) (by decide) rfl).1⟩

/-- C18 as stated fails: with `-s 0` the tracer is reached and the step size handed to it is
`atof "0"`, which is 0. -/
theorem C18_fails_for_zero_step :
    sampleWorld.atof "0" = 0 ∧
      (main sampleWorld "logit" ["-q", "-s", "0"]).events.filter Event.isTrace =
        [Event.TraceStrategicPath { g_hStart := sampleWorld.atof "0" } ⟨⟨0, false, 4⟩⟩
          0.0 1000000.0 1.0] ∧
      ¬ (0 < ({ g_hStart := sampleWorld.atof "0" } : Globals).g_hStart) := by
  have h0 : sampleWorld.atof "0" = 0 := by decide
  refine ⟨h0, rfl, ?_⟩
  show ¬ (0 < sampleWorld.atof "0")
  rw [h0]
  exact lt_irrefl 0

/-- C18 (amended). For every command line that `main` accepts (reaches the tracer call), the
value of hStart handed to the tracer is `atof` of the argument of the last -s, or 0.03 when
-s is not given; it is strictly greater than 0 when -s is not given, and otherwise exactly
when that conversion is. -/
theorem C18_initial_step (w : World) (progname : String) (args : List String) (ev : Event)
    (g : Globals) (hev : ev ∈ (main w progname args).events) (hg : ev.globals? = some g) :
    g.g_hStart = ((lastArg 's' (optionScan w args)).map w.atof).getD 0.03 ∧
      (¬ occurs 's' (optionScan w args) → 0 < g.g_hStart) ∧
      ∀ a, lastArg 's' (optionScan w args) = some a → (0 < g.g_hStart ↔ 0 < w.atof a) := by
  have ht : ev.isTrace = true := by
    cases ev <;> simp [Event.globals?] at hg <;> rfl
  obtain ⟨s, game, hp, hr, -, -⟩ := main_trace_event w progname args ev hev ht
  have hgl := main_trace_globals w progname args s game hp hr ev hev g hg
  have hs := (parsed_fields w progname args s hp).2.1
  have hval : g.g_hStart = ((lastArg 's' (optionScan w args)).map w.atof).getD 0.03 := by
    rw [hgl, (mleBlock_frame w game s).2.2.2.1, hs]
  refine ⟨hval, ?_, ?_⟩
  · intro hn
    have := (lastArg_eq_none 's' _ (optionScan_wellFormed w args) (by decide)).2 hn
    rw [hval, this]
    norm_num
  · intro a ha
    rw [hval, ha]
    rfl

theorem C18_initial_step_witness :
    Event.TraceStrategicPath {} ⟨⟨0, false, 4⟩⟩ 0.0 1000000.0 1.0 ∈
        (main sampleWorld "logit" ["-q"]).events ∧
      ({} : Globals).g_hStart =
        ((lastArg 's' (optionScan sampleWorld ["-q"])).map sampleWorld.atof).getD 0.03 :=
  have hmem : Event.TraceStrategicPath {} ⟨⟨0, false, 4⟩⟩ 0.0 1000000.0 1.0 ∈
      (main sampleWorld "logit" ["-q"]).events := by
    show _ ∈ [Event.ReadGame, Event.BuildComputedValues ⟨0, false, 4⟩,
      Event.TraceStrategicPath {} ⟨⟨0, false, 4⟩⟩ 0.0 1000000.0 1.0]
    simp
  ⟨hmem, (C18_initial_step sampleWorld "logit" ["-q"] _ {} hmem rfl).1⟩

/-- The loop of `ReadProfile` keeps the length of the array. -/
theorem ReadProfile_loop_length (w : World) (n i : Nat) (s : IStream) (p : List Double) :
    (ReadProfile.loop w n i s p).2.2.length = p.length := by
  induction n generalizing i s p with
  | zero => rfl
  | succ n ih =>
    unfold ReadProfile.loop
    split_ifs
    · rfl
    · dsimp only
      rw [ih, List.length_set]
    · dsimp only
      rw [ih, List.length_set]

/-- `ReadProfile` keeps the length of the array. -/
theorem ReadProfile_length (w : World) (s : IStream) (p : List Double) :
    (ReadProfile w s p).2.2.length = p.length := by
  unfold ReadProfile
  have := ReadProfile_loop_length w p.length 1 s p
  split <;> rename_i heq <;> rw [heq] at this <;> exact this

theorem mleBlock_obsProbs_length (w : World) (game : Game) (s : Vars)
    (h0 : s.g.g_maxLike = false) (hm : (mleBlock w game s).g.g_maxLike = true) :
    (mleBlock w game s).g.g_obsProbs.length = game.MixedProfileLength := by
  unfold mleBlock at hm ⊢
  split_ifs at hm ⊢ with h1
  · simp [ReadProfile_length]
  · rw [h0] at hm; cases hm

/-- C14. Whenever MLE mode is enabled at a tracer call of a run (`g_maxLike` is true in the
globals the tracer is called with), `g_obsProbs` has exactly `MixedProfileLength()` elements
for the game read; and `ReadProfile` never changes the length of the array it fills. -/
theorem C14_obsProbs_length (w : World) (progname : String) (args : List String) (ev : Event)
    (g : Globals) (hev : ev ∈ (main w progname args).events) (hg : ev.globals? = some g)
    (hm : g.g_maxLike = true) :
    (∃ game, w.ReadGame = .ok game ∧ g.g_obsProbs.length = game.MixedProfileLength) ∧
      ∀ (p_stream : IStream) (p_profile : List Double),
        (ReadProfile w p_stream p_profile).2.2.length = p_profile.length := by
  have ht : ev.isTrace = true := by
    cases ev <;> simp [Event.globals?] at hg <;> rfl
  obtain ⟨s, game, hp, hr, -, -⟩ := main_trace_event w progname args ev hev ht
  have hgl := main_trace_globals w progname args s game hp hr ev hev g hg
  have h0 := (parsed_fields w progname args s hp).2.2.2.2.2.2.2.2.1
  refine ⟨⟨game, hr, ?_⟩, ReadProfile_length w⟩
  rw [hgl] at hm ⊢
  exact mleBlock_obsProbs_length w game s h0 hm

theorem C14_obsProbs_length_witness :
    Event.TraceStrategicPath { g_maxLike := true, g_obsProbs := [0, 0, 0, 0] } ⟨⟨0, false, 4⟩⟩
          0.0 1000000.0 1.0 ∈
        (main sampleWorld "logit" ["-q", "-L", "obs.csv"]).events ∧
      ∃ game, sampleWorld.ReadGame = .ok game ∧
        ({ g_maxLike := true, g_obsProbs := [0, 0, 0, 0] } : Globals).g_obsProbs.length =
          game.MixedProfileLength :=
  have hmem : Event.TraceStrategicPath { g_maxLike := true, g_obsProbs := [0, 0, 0, 0] }
      ⟨⟨0, false, 4⟩⟩ 0.0 1000000.0 1.0 ∈
      (main sampleWorld "logit" ["-q", "-L", "obs.csv"]).events := by
    show _ ∈ [Event.ReadGame, Event.BuildComputedValues ⟨0, false, 4⟩,
      Event.TraceStrategicPath { g_maxLike := true, g_obsProbs := [0, 0, 0, 0] }
        ⟨⟨0, false, 4⟩⟩ 0.0 1000000.0 1.0]
    simp
  ⟨hmem, (C14_obsProbs_length sampleWorld "logit" ["-q", "-L", "obs.csv"] _ _ hmem rfl rfl).1⟩

/-- C13: the code at the failing input.  The file named by -L exists and is empty and the
game has four strategies: `ReadProfile` returns false, having read nothing, and the tracer is
still called with MLE mode on and the four unread elements of `g_obsProbs`. -/
theorem C13_mle_without_data :
    (ReadProfile emptyFileWorld (ifstream emptyFileWorld "obs.csv")
        ((List.range 4).map emptyFileWorld.uninitialised)).1 = false ∧
      (main emptyFileWorld "logit" ["-q", "-L", "obs.csv"]).events.filter Event.isTrace =
        [Event.TraceStrategicPath
          { g_maxLike := true, g_obsProbs := (List.range 4).map emptyFileWorld.uninitialised }
          ⟨⟨0, false, 4⟩⟩ 0.0 1000000.0 1.0] :=
  ⟨rfl, rfl⟩

/-- C16: the code at the failing inputs.  On an array of length 1 and the empty stream, and
on an array of length 2 and a stream that ends right after the separator, `ReadProfile`
returns true although fewer values than the array holds were read: the array keeps its old
last element. -/
theorem C16_true_with_fewer_values :
    ReadProfile sampleWorld { buf := [] } [7] =
        (true, { buf := [], eofbit := true, failbit := true }, [7]) ∧
      (ReadProfile sampleWorld { buf := "1,".data } [7, 7]).1 = true ∧
      ((ReadProfile sampleWorld { buf := "1,".data } [7, 7]).2.2).drop 1 = [7] :=
  ⟨rfl, rfl, rfl⟩

theorem isspace_comma : isspace ',' = false := by decide

theorem take_set_succ (p : List Double) (k : Nat) (x : Double) (hk : k < p.length) :
    (p.set k x).take (k + 1) = p.take k ++ [x] := by
  induction p generalizing k with
  | nil => simp at hk
  | cons a p ih =>
    cases k with
    | zero => simp
    | succ k =>
      simp only [List.length_cons, Nat.add_lt_add_iff_right] at hk
      simp [ih k hk]

theorem take_set_of_le (p : List Double) (k j : Nat) (x : Double) (h : j ≤ k) :
    (p.set k x).take j = p.take j := by
  induction p generalizing k j with
  | nil => simp
  | cons a p ih =>
    cases j with
    | zero => simp
    | succ j =>
      cases k with
      | zero => omega
      | succ k => simp [ih k j (by omega)]

/-- On a good stream that starts with a rendered number followed by `rest`, the extraction
of a `double` stores the number and leaves `rest`. -/
theorem extractDouble_rendered (w : World) (r rest : List Char) (x old : Double)
    (hns : ∃ b bs, r = b :: bs ∧ isspace b = false)
    (hparse : w.num_get (r ++ rest) = (some x, rest)) :
    IStream.extractDouble w { buf := r ++ rest } old =
      ({ buf := rest, eofbit := rest.isEmpty }, x) := by
  obtain ⟨b, bs, hr, hb⟩ := hns
  subst hr
  have hd : List.dropWhile isspace (b :: bs ++ rest) = b :: (bs ++ rest) := by
    simp [List.dropWhile, hb]
  have hparse' : w.num_get (b :: (bs ++ rest)) = (some x, rest) := by simpa using hparse
  unfold IStream.extractDouble
  simp only [IStream.good, Bool.not_false, Bool.and_self, if_true, hd, hparse']

theorem extractChar_comma (rest : List Char) :
    (IStream.extractChar { buf := ',' :: rest }).1 = { buf := rest } := by
  unfold IStream.extractChar
  simp [IStream.good, List.dropWhile, isspace_comma]

/-- The loop of `ReadProfile` on a stream that starts with the comma-separated renderings
of `vs`: it stores `vs` from index `k + 1` on and stops right after the last rendering. -/
theorem ReadProfile_loop_rendered (w : World) (render : Double → List Char) (tail : List Char)
    (vs : List Double) (hvs : vs ≠ [])
    (hns : ∀ x ∈ vs, ∃ b bs, render x = b :: bs ∧ isspace b = false)
    (hsep : ∀ x ∈ vs, ∀ rest, w.num_get (render x ++ ',' :: rest) = (some x, ',' :: rest))
    (hlast : ∀ x, vs.getLast? = some x → w.num_get (render x ++ tail) = (some x, tail))
    (k : Nat) (p : List Double) (hlen : p.length = k + vs.length) :
    ReadProfile.loop w vs.length (k + 1) { buf := commaSeparated render vs ++ tail } p =
      (true, { buf := tail, eofbit := tail.isEmpty }, p.take k ++ vs) := by
  induction vs generalizing k p with
  | nil => exact absurd rfl hvs
  | cons x l ih =>
    cases l with
    | nil =>
      have hx := extractDouble_rendered w (render x) tail x (p.getD k 0)
        (hns x (by simp)) (hlast x (by simp))
      simp only [List.length_singleton] at hlen
      have hset : p.set k x = p.take k ++ [x] := by
        rw [← take_set_succ p k x (by omega)]
        exact (List.take_of_length_le (by simp [hlen])).symm
      simp only [List.length_singleton, ReadProfile.loop, commaSeparated, Bool.or_self,
        Bool.false_eq_true, if_false, Nat.add_sub_cancel, hx, hlen, lt_irrefl, hset]
    | cons y l =>
      have hx := extractDouble_rendered w (render x)
        (',' :: (commaSeparated render (y :: l) ++ tail)) x (p.getD k 0)
        (hns x (by simp)) (hsep x (by simp) _)
      have hbuf : commaSeparated render (x :: y :: l) ++ tail =
          render x ++ ',' :: (commaSeparated render (y :: l) ++ tail) := by
        simp [commaSeparated]
      have hlt : k + 1 < p.length := by rw [hlen]; simp
      have ih' := ih (by simp) (fun a ha => hns a (by simp [ha]))
        (fun a ha => hsep a (by simp [ha])) (fun a ha => hlast a (by simpa using ha))
        (k + 1) (p.set k x) (by simp [hlen]; omega)
      rw [take_set_succ p k x (by omega)] at ih'
      have hloop : ReadProfile.loop w (y :: l).length.succ (k + 1)
          { buf := commaSeparated render (x :: y :: l) ++ tail } p =
          ReadProfile.loop w (y :: l).length (k + 1 + 1)
            { buf := commaSeparated render (y :: l) ++ tail } (p.set k x) := by
        rw [ReadProfile.loop]
        simp only [Bool.or_self, Bool.false_eq_true, if_false, Nat.add_sub_cancel, hbuf, hx,
          hlt, if_true, List.isEmpty_cons]
        rw [show ({ buf := ',' :: (commaSeparated render (y :: l) ++ tail), eofbit := false } :
          IStream) = { buf := ',' :: (commaSeparated render (y :: l) ++ tail) } from rfl,
          extractChar_comma]
      show ReadProfile.loop w (y :: l).length.succ (k + 1) _ p = _
      rw [hloop, ih']
      simp

theorem dropWhile_ne_newline (text next : List Char) (hnl : '\n' ∉ text) :
    List.dropWhile (fun c => c != '\n') (text ++ '\n' :: next) = '\n' :: next := by
  induction text with
  | nil => simp [List.dropWhile]
  | cons a text ih =>
    have ha : a ≠ '\n' := fun h => hnl (by simp [h])
    have ht : '\n' ∉ text := fun h => hnl (by simp [h])
    have hb : (a != '\n') = true := by simp [ha]
    rw [List.cons_append, List.dropWhile_cons, hb, if_pos rfl]
    exact ih ht

/-- C15. `ReadProfile` undoes comma-separated rendering.  Let the stream parser invert the
rendering `render` on the numbers of `v` (a rendering starts with no white space, and is
parsed back to its number when the text ends after it or goes on with a comma or a
newline).  Then for every non-empty list `v` of numbers, on a stream that holds the
renderings of `v` separated by commas on one line (ended by a newline or by the end of the
stream) and an array of the length of `v`, `ReadProfile` returns true and leaves the array
equal to `v`, element by element and in order. -/
theorem C15_reads_rendering (w : World) (render : Double → List Char) (v : List Double)
    (tail : List Char) (p_profile : List Double) (hn : 1 ≤ v.length)
    (hlen : p_profile.length = v.length)
    (htail : tail = [] ∨ ∃ more, tail = '\n' :: more)
    (hns : ∀ x ∈ v, ∃ b bs, render x = b :: bs ∧ isspace b = false)
    (hparse : ∀ x ∈ v, ∀ rest, endsNumber rest →
      w.num_get (render x ++ rest) = (some x, rest)) :
    (ReadProfile w { buf := commaSeparated render v ++ tail } p_profile).1 = true ∧
      (ReadProfile w { buf := commaSeparated render v ++ tail } p_profile).2.2 = v ∧
      ∀ i (hi : i < v.length),
        ((ReadProfile w { buf := commaSeparated render v ++ tail } p_profile).2.2)[i]? =
          some (v.get ⟨i, hi⟩) := by
  have hv : v ≠ [] := by
    intro h; rw [h] at hn; simp at hn
  have hend : endsNumber tail := by
    rcases htail with h | ⟨more, h⟩
    · exact Or.inl h
    · exact Or.inr (Or.inr (by rw [h]; rfl))
  have hloop := ReadProfile_loop_rendered w render tail v hv hns
    (fun x hx rest => hparse x hx _ (Or.inr (Or.inl rfl)))
    (fun x hx => hparse x (List.mem_of_mem_getLast? hx) tail hend) 0 p_profile (by simpa using hlen)
  simp only [Nat.zero_add, List.take_zero, List.nil_append] at hloop
  have hR : ReadProfile w { buf := commaSeparated render v ++ tail } p_profile =
      (true, (IStream.getline { buf := tail, eofbit := tail.isEmpty }).1, v) := by
    unfold ReadProfile
    rw [hlen, hloop]
  rw [hR]
  refine ⟨rfl, rfl, ?_⟩
  intro i hi
  simp [List.getElem?_eq_getElem hi]

theorem sampleRender_one : sampleRender 1 = ['1'] := by decide
theorem sampleRender_two : sampleRender 2 = ['2'] := by decide

theorem sample_num_get_one (rest : List Char) (h : endsNumber rest) :
    sampleWorld.num_get ('1' :: rest) = (some 1, rest) := by
  rcases h with h | h | h
  · subst h
    simp [sampleWorld, readDecimal, readUnsigned, digitsValue, List.takeWhile, List.dropWhile]
  · cases rest with
    | nil => simp at h
    | cons c r =>
      simp only [List.head?_cons, Option.some.injEq] at h
      subst h
      simp [sampleWorld, readDecimal, readUnsigned, digitsValue, List.takeWhile, List.dropWhile]
  · cases rest with
    | nil => simp at h
    | cons c r =>
      simp only [List.head?_cons, Option.some.injEq] at h
      subst h
      simp [sampleWorld, readDecimal, readUnsigned, digitsValue, List.takeWhile, List.dropWhile]

theorem sample_num_get_two (rest : List Char) (h : endsNumber rest ∨ rest.head? = some ' ') :
    sampleWorld.num_get ('2' :: rest) = (some 2, rest) := by
  have key : ∀ c r, (c = ',' ∨ c = '\n' ∨ c = ' ') →
      sampleWorld.num_get ('2' :: c :: r) = (some 2, c :: r) := by
    rintro c r (rfl | rfl | rfl) <;>
      simp [sampleWorld, readDecimal, readUnsigned, digitsValue, List.takeWhile, List.dropWhile]
  cases rest with
  | nil =>
    simp [sampleWorld, readDecimal, readUnsigned, digitsValue, List.takeWhile, List.dropWhile]
  | cons c r =>
    apply key
    rcases h with (h | h | h) | h
    · cases h
    · exact Or.inl (by simpa using h)
    · exact Or.inr (Or.inl (by simpa using h))
    · exact Or.inr (Or.inr (by simpa using h))

theorem sample_parse (x : Double) (hx : x ∈ [(1 : Double), 2]) (rest : List Char)
    (h : endsNumber rest) : sampleWorld.num_get (sampleRender x ++ rest) = (some x, rest) := by
  simp only [List.mem_cons, List.mem_singleton, List.not_mem_nil, or_false] at hx
  rcases hx with rfl | rfl
  · rw [sampleRender_one]; exact sample_num_get_one rest h
  · rw [sampleRender_two]; exact sample_num_get_two rest (Or.inl h)

theorem sample_noSpace (x : Double) (hx : x ∈ [(1 : Double), 2]) :
    ∃ b bs, sampleRender x = b :: bs ∧ isspace b = false := by
  simp only [List.mem_cons, List.mem_singleton, List.not_mem_nil, or_false] at hx
  rcases hx with rfl | rfl
  · exact ⟨'1', [], sampleRender_one, by decide⟩
  · exact ⟨'2', [], sampleRender_two, by decide⟩

theorem C15_reads_rendering_witness :
    (ReadProfile sampleWorld { buf := commaSeparated sampleRender [1, 2] ++ ['\n'] } [0, 0]).1
        = true ∧
      (ReadProfile sampleWorld { buf := commaSeparated sampleRender [1, 2] ++ ['\n'] }
        [0, 0]).2.2 = [1, 2] :=
  have h := C15_reads_rendering sampleWorld sampleRender [1, 2] ['\n'] [0, 0] (by decide) rfl
    (Or.inr ⟨[], rfl⟩) sample_noSpace sample_parse
  ⟨h.1, h.2.1⟩

/-- C17. After the n-th value `ReadProfile` drops the rest of the line.  On a stream that
holds the comma-separated renderings of a non-empty list `v`, then any text without a
newline, then a newline and what follows it, and an array of the length of `v` (the parser
reading each rendering back when a comma follows and the last one when `text` follows),
`ReadProfile` returns true with the array equal to `v`, whatever `text` is, and leaves the
stream good and positioned on the first character after the newline. -/
theorem C17_rest_of_line (w : World) (render : Double → List Char) (v : List Double)
    (text next : List Char) (p_profile : List Double) (hn : 1 ≤ v.length)
    (hlen : p_profile.length = v.length) (hnl : '\n' ∉ text)
    (hns : ∀ x ∈ v, ∃ b bs, render x = b :: bs ∧ isspace b = false)
    (hsep : ∀ x ∈ v, ∀ rest, w.num_get (render x ++ ',' :: rest) = (some x, ',' :: rest))
    (hlast : ∀ x, v.getLast? = some x →
      w.num_get (render x ++ (text ++ '\n' :: next)) = (some x, text ++ '\n' :: next)) :
    ReadProfile w { buf := commaSeparated render v ++ (text ++ '\n' :: next) } p_profile =
      (true, { buf := next }, v) := by
  have hv : v ≠ [] := by
    intro h; rw [h] at hn; simp at hn
  have hloop := ReadProfile_loop_rendered w render (text ++ '\n' :: next) v hv hns hsep hlast
    0 p_profile (by simpa using hlen)
  simp only [Nat.zero_add, List.take_zero, List.nil_append] at hloop
  have hempty : (text ++ '\n' :: next).isEmpty = false := by
    cases text <;> rfl
  have hget : (IStream.getline { buf := text ++ '\n' :: next }).1 = { buf := next } := by
    unfold IStream.getline
    simp [IStream.good, dropWhile_ne_newline text next hnl]
  unfold ReadProfile
  rw [hlen, hloop, hempty]
  simp only
  rw [hget]

theorem C17_rest_of_line_witness :
    ReadProfile sampleWorld
        { buf := commaSeparated sampleRender [1, 2] ++ (" # May".data ++ '\n' :: "3,4".data) }
        [0, 0] =
      (true, { buf := "3,4".data }, [1, 2]) :=
  C17_rest_of_line sampleWorld sampleRender [1, 2] " # May".data "3,4".data [0, 0]
    (by decide) rfl (by decide) sample_noSpace
    (fun x hx rest => sample_parse x hx _ (Or.inr (Or.inl rfl)))
    (fun x hx => by
      have h2 : x = 2 := by simpa using hx.symm
      subst h2
      rw [sampleRender_two]
      exact sample_num_get_two _ (Or.inr rfl))

/-- The extraction of a `char` from a good stream that starts with a character that is not
white space reads that character and discards nothing else. -/
theorem extractChar_noSpace (c : Char) (rest : List Char) (hc : isspace c = false) :
    IStream.extractChar { buf := c :: rest } = ({ buf := rest }, some c) := by
  unfold IStream.extractChar
  simp [IStream.good, List.dropWhile, hc]

theorem separatedBy_comma (render : Double → List Char) (vs : List Double) :
    separatedBy ',' render vs = commaSeparated render vs := by
  induction vs with
  | nil => rfl
  | cons x l ih =>
    cases l with
    | nil => rfl
    | cons y l => simp only [separatedBy, commaSeparated, ih]

/-- The loop of `ReadProfile` on a stream that starts with the renderings of `vs` separated
by the character `sep`: it stores `vs` from index `k + 1` on and stops right after the last
rendering. -/
theorem ReadProfile_loop_separated (w : World) (sep : Char) (hsp : isspace sep = false)
    (render : Double → List Char) (tail : List Char)
    (vs : List Double) (hvs : vs ≠ [])
    (hns : ∀ x ∈ vs, ∃ b bs, render x = b :: bs ∧ isspace b = false)
    (hsep : ∀ x ∈ vs, ∀ rest, w.num_get (render x ++ sep :: rest) = (some x, sep :: rest))
    (hlast : ∀ x, vs.getLast? = some x → w.num_get (render x ++ tail) = (some x, tail))
    (k : Nat) (p : List Double) (hlen : p.length = k + vs.length) :
    ReadProfile.loop w vs.length (k + 1) { buf := separatedBy sep render vs ++ tail } p =
      (true, { buf := tail, eofbit := tail.isEmpty }, p.take k ++ vs) := by
  induction vs generalizing k p with
  | nil => exact absurd rfl hvs
  | cons x l ih =>
    cases l with
    | nil =>
      have hx := extractDouble_rendered w (render x) tail x (p.getD k 0)
        (hns x (by simp)) (hlast x (by simp))
      simp only [List.length_singleton] at hlen
      have hset : p.set k x = p.take k ++ [x] := by
        rw [← take_set_succ p k x (by omega)]
        exact (List.take_of_length_le (by simp [hlen])).symm
      simp only [List.length_singleton, ReadProfile.loop, separatedBy, Bool.or_self,
        Bool.false_eq_true, if_false, Nat.add_sub_cancel, hx, hlen, lt_irrefl, hset]
    | cons y l =>
      have hx := extractDouble_rendered w (render x)
        (sep :: (separatedBy sep render (y :: l) ++ tail)) x (p.getD k 0)
        (hns x (by simp)) (hsep x (by simp) _)
      have hbuf : separatedBy sep render (x :: y :: l) ++ tail =
          render x ++ sep :: (separatedBy sep render (y :: l) ++ tail) := by
        simp [separatedBy]
      have hlt : k + 1 < p.length := by rw [hlen]; simp
      have ih' := ih (by simp) (fun a ha => hns a (by simp [ha]))
        (fun a ha => hsep a (by simp [ha])) (fun a ha => hlast a (by simpa using ha))
        (k + 1) (p.set k x) (by simp [hlen]; omega)
      rw [take_set_succ p k x (by omega)] at ih'
      have hloop : ReadProfile.loop w (y :: l).length.succ (k + 1)
          { buf := separatedBy sep render (x :: y :: l) ++ tail } p =
          ReadProfile.loop w (y :: l).length (k + 1 + 1)
            { buf := separatedBy sep render (y :: l) ++ tail } (p.set k x) := by
        rw [ReadProfile.loop]
        simp only [Bool.or_self, Bool.false_eq_true, if_false, Nat.add_sub_cancel, hbuf, hx,
          hlt, if_true, List.isEmpty_cons]
        rw [show ({ buf := sep :: (separatedBy sep render (y :: l) ++ tail), eofbit := false } :
          IStream) = { buf := sep :: (separatedBy sep render (y :: l) ++ tail) } from rfl,
          extractChar_noSpace _ _ hsp]
      show ReadProfile.loop w (y :: l).length.succ (k + 1) _ p = _
      rw [hloop, ih']
      simp

/-- C21. `ReadProfile` does not validate the separator.  The extraction between two values
reads and discards one character, whatever it is, provided it is not white space.  So let
`sep` be a character that is not white space and at which the parser stops just as it does
at a comma (it is not part of a number).  Then on the renderings of a non-empty list `v`
separated by `sep` instead of commas, `ReadProfile` returns the same result as on the
comma-separated text: true, with the array equal to `v`. -/
theorem C21_separator_not_validated (w : World) (render : Double → List Char)
    (v : List Double) (sep : Char) (tail : List Char) (p_profile : List Double)
    (hn : 1 ≤ v.length) (hlen : p_profile.length = v.length) (hsp : isspace sep = false)
    (hns : ∀ x ∈ v, ∃ b bs, render x = b :: bs ∧ isspace b = false)
    (hcomma : ∀ x ∈ v, ∀ rest, w.num_get (render x ++ ',' :: rest) = (some x, ',' :: rest))
    (hsep : ∀ x ∈ v, ∀ rest, w.num_get (render x ++ sep :: rest) = (some x, sep :: rest))
    (hlast : ∀ x, v.getLast? = some x → w.num_get (render x ++ tail) = (some x, tail)) :
    (∀ c rest, isspace c = false →
        IStream.extractChar { buf := c :: rest } = ({ buf := rest }, some c)) ∧
      ReadProfile w { buf := separatedBy sep render v ++ tail } p_profile =
        ReadProfile w { buf := commaSeparated render v ++ tail } p_profile ∧
      (ReadProfile w { buf := separatedBy sep render v ++ tail } p_profile).1 = true ∧
      (ReadProfile w { buf := separatedBy sep render v ++ tail } p_profile).2.2 = v := by
  have hv : v ≠ [] := by
    intro h; rw [h] at hn; simp at hn
  have h1 := ReadProfile_loop_separated w sep hsp render tail v hv hns hsep hlast
    0 p_profile (by simpa using hlen)
  have h2 := ReadProfile_loop_separated w ',' isspace_comma render tail v hv hns hcomma hlast
    0 p_profile (by simpa using hlen)
  rw [separatedBy_comma] at h2
  simp only [Nat.zero_add, List.take_zero, List.nil_append] at h1 h2
  have hR1 : ReadProfile w { buf := separatedBy sep render v ++ tail } p_profile =
      (true, (IStream.getline { buf := tail, eofbit := tail.isEmpty }).1, v) := by
    unfold ReadProfile
    rw [hlen, h1]
  have hR2 : ReadProfile w { buf := commaSeparated render v ++ tail } p_profile =
      (true, (IStream.getline { buf := tail, eofbit := tail.isEmpty }).1, v) := by
    unfold ReadProfile
    rw [hlen, h2]
  refine ⟨fun c rest hc => extractChar_noSpace c rest hc, ?_, ?_, ?_⟩
  · rw [hR1, hR2]
  · rw [hR1]
  · rw [hR1]

theorem sample_parse_stop (c : Char) (hc : c = ',' ∨ c = ';') (x : Double)
    (hx : x ∈ [(1 : Double), 2]) (rest : List Char) :
    sampleWorld.num_get (sampleRender x ++ c :: rest) = (some x, c :: rest) := by
  simp only [List.mem_cons, List.mem_singleton, List.not_mem_nil, or_false] at hx
  rcases hx with rfl | rfl
  · rw [sampleRender_one]
    rcases hc with rfl | rfl <;>
      simp [sampleWorld, readDecimal, readUnsigned, digitsValue, List.takeWhile, List.dropWhile]
  · rw [sampleRender_two]
    rcases hc with rfl | rfl <;>
      simp [sampleWorld, readDecimal, readUnsigned, digitsValue, List.takeWhile, List.dropWhile]

theorem C21_separator_not_validated_witness :
    ReadProfile sampleWorld { buf := separatedBy ';' sampleRender [1, 2] ++ ['\n'] } [0, 0] =
        ReadProfile sampleWorld { buf := commaSeparated sampleRender [1, 2] ++ ['\n'] } [0, 0] ∧
      (ReadProfile sampleWorld { buf := separatedBy ';' sampleRender [1, 2] ++ ['\n'] }
        [0, 0]).1 = true ∧
      (ReadProfile sampleWorld { buf := separatedBy ';' sampleRender [1, 2] ++ ['\n'] }
        [0, 0]).2.2 = [1, 2] :=
  (C21_separator_not_validated sampleWorld sampleRender [1, 2] ';' ['\n'] [0, 0]
    (by decide) rfl (by decide) sample_noSpace
    (sample_parse_stop ',' (Or.inl rfl)) (sample_parse_stop ';' (Or.inr rfl))
    (fun x hx => by
      have h2 : x = 2 := by simpa using hx.symm
      subst h2
      rw [sampleRender_two]
      exact sample_num_get_two _ (Or.inl (Or.inr (Or.inr rfl))))).2

end Logit

/-! # Theorems about the standard-solution dialog -/

namespace EfgSolve

/-- C29: for type and number selections in 0, 1, 2 the algorithm `OnChanged`
displays is the one the table names for (type, number, perfect recall, player
count, constant sum), and the types Nash (0) and Subgame Perfect (1) always
select the same algorithm. -/
theorem C29_selected_algorithm (m_efg : Efg) (d : Dialog)
    (ht : d.standardType = 0 ∨ d.standardType = 1 ∨ d.standardType = 2)
    (hn : d.standardNum = 0 ∨ d.standardNum = 1 ∨ d.standardNum = 2) :
    (OnChanged m_efg d).description =
        specifiedAlgorithm d.standardType d.standardNum m_efg.IsPerfectRecall
          m_efg.NumPlayers m_efg.IsConstSum ∧
      (OnChanged m_efg { d with standardType := 0 }).description =
        (OnChanged m_efg { d with standardType := 1 }).description := by
  obtain ⟨t, n, desc, en⟩ := d
  obtain ⟨pr, np, cs⟩ := m_efg
  simp only at ht hn
  constructor
  · rcases ht with rfl | rfl | rfl <;> rcases hn with rfl | rfl | rfl <;>
      cases pr <;> cases cs <;> by_cases h2 : np = 2 <;>
      simp [OnChanged, specifiedAlgorithm, h2]
  · rcases hn with rfl | rfl | rfl <;>
      cases pr <;> cases cs <;> by_cases h2 : np = 2 <;>
      simp [OnChanged, h2]

theorem C29_selected_algorithm_witness :
    (OnChanged ⟨true, 2, true⟩ ⟨0, 0, "", false⟩).description =
        specifiedAlgorithm 0 0 true 2 true ∧
      (OnChanged ⟨true, 2, true⟩ { (⟨0, 0, "", false⟩ : Dialog) with standardType := 0 }).description =
        (OnChanged ⟨true, 2, true⟩ { (⟨0, 0, "", false⟩ : Dialog) with standardType := 1 }).description :=
  C29_selected_algorithm ⟨true, 2, true⟩ ⟨0, 0, "", false⟩ (Or.inl rfl) (Or.inl rfl)

/-- C28: for type and number selections in 0, 1, 2, after `OnChanged` the
precision control is enabled exactly when the displayed algorithm is one of
LpSolve[EFG], LcpSolve[EFG], SimpdivSolve[NFG], EnumMixedSolve[NFG], and it is
disabled whenever the algorithm is QreSolve[EFG] or LiapSolve[EFG]. -/
theorem C28_precision_enabled (m_efg : Efg) (d : Dialog)
    (ht : d.standardType = 0 ∨ d.standardType = 1 ∨ d.standardType = 2)
    (hn : d.standardNum = 0 ∨ d.standardNum = 1 ∨ d.standardNum = 2) :
    ((OnChanged m_efg d).precisionEnabled = true ↔
        (OnChanged m_efg d).description ∈
          ["LpSolve[EFG]", "LcpSolve[EFG]", "SimpdivSolve[NFG]", "EnumMixedSolve[NFG]"]) ∧
      ((OnChanged m_efg d).description = "QreSolve[EFG]" ∨
          (OnChanged m_efg d).description = "LiapSolve[EFG]" →
        (OnChanged m_efg d).precisionEnabled = false) := by
  obtain ⟨t, n, desc, en⟩ := d
  obtain ⟨pr, np, cs⟩ := m_efg
  simp only at ht hn
  rcases ht with rfl | rfl | rfl <;> rcases hn with rfl | rfl | rfl <;>
    cases pr <;> cases cs <;> by_cases h2 : np = 2 <;>
    simp [OnChanged, h2]

theorem C28_precision_enabled_witness :
    ((OnChanged ⟨false, 3, false⟩ ⟨1, 1, "", true⟩).precisionEnabled = true ↔
        (OnChanged ⟨false, 3, false⟩ ⟨1, 1, "", true⟩).description ∈
          ["LpSolve[EFG]", "LcpSolve[EFG]", "SimpdivSolve[NFG]", "EnumMixedSolve[NFG]"]) ∧
      ((OnChanged ⟨false, 3, false⟩ ⟨1, 1, "", true⟩).description = "QreSolve[EFG]" ∨
          (OnChanged ⟨false, 3, false⟩ ⟨1, 1, "", true⟩).description = "LiapSolve[EFG]" →
        (OnChanged ⟨false, 3, false⟩ ⟨1, 1, "", true⟩).precisionEnabled = false) :=
  C28_precision_enabled ⟨false, 3, false⟩ ⟨1, 1, "", true⟩ (Or.inr (Or.inl rfl)) (Or.inr (Or.inl rfl))

end EfgSolve

/-! # Theorems about the GSM portions -/

namespace Gsm

theorem charAt_append (pre : List Char) (c : Char) (rest : List Char) :
    charAt (pre ++ c :: rest) pre.length = c := by
  induction pre with
  | nil => rfl
  | cons a pre ih => simpa [charAt] using ih

theorem charAt_append_succ (pre : List Char) (c : Char) (rest : List Char) :
    charAt (pre ++ c :: rest) (pre.length + 1) = charAt rest 0 := by
  have : pre ++ c :: rest = (pre ++ [c]) ++ rest := by simp
  rw [this]
  have h2 : pre.length + 1 = (pre ++ [c]).length + 0 := by simp
  unfold charAt
  rw [List.getD_eq_getElem?_getD, List.getD_eq_getElem?_getD, h2, List.getElem?_append_right (by simp)]
  simp

theorem eraseIdx_set_append (pre : List Char) (c d : Char) (rest : List Char) :
    ((pre ++ c :: d :: rest).eraseIdx pre.length).set pre.length '\n' =
      (pre ++ ['\n']) ++ rest := by
  induction pre with
  | nil => simp
  | cons a pre ih => simpa using ih

/-- The text the loop of `OutputString` leaves: the part before the index
untouched, the part from the index on unescaped. -/
theorem OutputString_loop_text (fuel : Nat) : ∀ (pre suf : List Char) (r : List Nat),
    suf.length ≤ fuel →
    (OutputString.loop fuel pre.length { text := pre ++ suf, reads := r }).text =
      pre ++ unescape suf := by
  induction fuel with
  | zero =>
    intro pre suf r h
    have : suf = [] := List.length_eq_zero.mp (Nat.le_zero.mp h)
    subst this
    simp [OutputString.loop, unescape]
  | succ fuel ih =>
    intro pre suf r h
    cases suf with
    | nil => simp [OutputString.loop, unescape]
    | cons c rest =>
      have hlt : pre.length < (pre ++ c :: rest).length := by simp
      have hl : rest.length ≤ fuel := by simpa using h
      have hnext : ∀ r2, (OutputString.loop fuel (pre.length + 1)
          { text := pre ++ c :: rest, reads := r2 }).text = pre ++ c :: unescape rest := by
        intro r2
        have := ih (pre ++ [c]) rest r2 hl
        simpa using this
      unfold OutputString.loop
      simp only [hlt, if_true, charAt_append, charAt_append_succ]
      by_cases hc : c = '\\'
      · simp only [hc, if_true]
        cases rest with
        | nil =>
          have h0 : charAt [] 0 ≠ 'n' := by decide
          simp only [h0, if_false]
          have := hnext (r ++ [pre.length, pre.length + 1])
          rw [hc] at this
          simpa [unescape] using this
        | cons d rest2 =>
          have hd : charAt (d :: rest2) 0 = d := rfl
          rw [hd]
          by_cases hn : d = 'n'
          · simp only [hn, if_true]
            rw [eraseIdx_set_append]
            have hl2 : rest2.length ≤ fuel := by
              simp at hl; omega
            have := ih (pre ++ ['\n']) rest2 (r ++ [pre.length, pre.length + 1]) hl2
            simp only [List.length_append, List.length_singleton] at this
            rw [this]
            simp [unescape]
          · simp only [hn, if_false]
            have := hnext (r ++ [pre.length, pre.length + 1])
            rw [hc] at this
            rw [this]
            simp [unescape, hn]
      · simp only [hc, if_false]
        rw [hnext]
        cases rest with
        | nil => simp [unescape]
        | cons d rest2 => simp [unescape, hc]

/-- The string `OutputString` returns: the unescaped text, between double
quotes exactly when `_WriteQuoted` is set. -/
theorem OutputString_text (q : Bool) (value : List Char) :
    (OutputString q value).1 =
      if q then '"' :: (unescape value ++ ['"']) else unescape value := by
  have := OutputString_loop_text value.length [] value [] le_rfl
  simp only [List.nil_append, List.length_nil] at this
  simp only [OutputString, this]

/-- C27: on the text consisting of one backslash, of length 1, the scan of
`OutputString` reads position 1, which is past the last character; the
string returned is the text between double quotes. -/
theorem C27_reads_past_end :
    (['\\'] : List Char).length = 1 ∧
      (OutputString true ['\\']).2 = [0, 1] ∧
      (∃ i ∈ (OutputString true ['\\']).2, (['\\'] : List Char).length ≤ i) ∧
      (OutputString true ['\\']).1 = ['"', '\\', '"'] := by
  refine ⟨rfl, by decide, ⟨1, by decide, by decide⟩, by decide⟩

/-! ## Theorems about `ListPortion` -/

theorem maxDepth_nil {P : Type} (L : Library P) : maxDepth L [] = 0 := rfl

theorem maxDepth_cons {P : Type} (L : Library P) (x : P) (xs : List P) :
    maxDepth L (x :: xs) = max (L.Spec x).ListDepth (maxDepth L xs) := rfl

theorem maxDepth_append {P : Type} (L : Library P) (xs ys : List P) :
    maxDepth L (xs ++ ys) = max (maxDepth L xs) (maxDepth L ys) := by
  induction xs with
  | nil => simp [maxDepth_nil]
  | cons a xs ih => simp only [List.cons_append, maxDepth_cons, ih, max_assoc]

theorem maxDepth_insert {P : Type} (L : Library P) (l : List P) (x : P) (k : Nat) :
    maxDepth L (l.take k ++ x :: l.drop k) = max (L.Spec x).ListDepth (maxDepth L l) := by
  have h : maxDepth L l = max (maxDepth L (l.take k)) (maxDepth L (l.drop k)) := by
    rw [← maxDepth_append, List.take_append_drop]
  rw [maxDepth_append, maxDepth_cons, h]
  omega

/-- The loop of `Remove` computes the depth from the elements alone. -/
theorem Remove_fold {P : Type} (L : Library P) (xs : List P) : ∀ (b : Bool) (d : Nat), 1 ≤ d →
    xs.foldl (Remove.step L) (b, d) =
      (b && xs.all (fun x => decide ((L.Spec x).ListDepth ≠ 0)), max d (1 + maxDepth L xs)) := by
  induction xs with
  | nil =>
    intro b d hd
    simp [maxDepth_nil, hd]
  | cons a xs ih =>
    intro b d hd
    have hstep : Remove.step L (b, d) a =
        (if (L.Spec a).ListDepth = 0 then false else b,
         if (L.Spec a).ListDepth ≥ d then (L.Spec a).ListDepth + 1 else d) := rfl
    rw [List.foldl_cons, hstep, ih _ _ (by split_ifs <;> omega), maxDepth_cons]
    refine Prod.ext ?_ ?_
    · by_cases h0 : (L.Spec a).ListDepth = 0 <;> simp [h0]
    · simp only
      split_ifs <;> omega

/-- The invariant of the list depth. -/
theorem Insert_depth {P : Type} (L : Library P) (hL : L.Lawful) (l : ListPortion P) (item : P)
    (index : Int) (r : Inserted P) (h : ListPortion.Insert L l item index = some r)
    (hinv : l._ListDepth = 1 + maxDepth L l._Value) :
    r.list._ListDepth = 1 + maxDepth L r.list._Value := by
  have key : ∀ (l1 : ListPortion P) (x : P) (dt : Nat),
      l1._ListDepth = 1 + maxDepth L l1._Value →
      (Insert.finish L { l1 with _DataType := dt, _Value := (L.gListInsert l1._Value x index).2 }
          (L.gListInsert l1._Value x index).1 x)._ListDepth =
        1 + maxDepth L (Insert.finish L
          { l1 with _DataType := dt, _Value := (L.gListInsert l1._Value x index).2 }
          (L.gListInsert l1._Value x index).1 x)._Value := by
    intro l1 x dt h1
    obtain ⟨k, _, hk⟩ := hL.insert_spec l1._Value x index
    rw [hk]
    unfold Insert.finish
    have hpos : ((k : Int) + 1 > 0) := by omega
    simp only [hpos, if_true]
    split_ifs with hlt
    · simp only [maxDepth_insert]
      omega
    · simp only [maxDepth_insert]
      omega
  have hl1 : (if (L.Spec item).ListDepth = 0 then { l with _ContainsListsOnly := false } else l)._ListDepth
      = 1 + maxDepth L (if (L.Spec item).ListDepth = 0 then
          { l with _ContainsListsOnly := false } else l)._Value := by
    split_ifs <;> exact hinv
  unfold ListPortion.Insert at h
  simp only at h
  split_ifs at h
  all_goals first
    | (cases h; exact key _ _ _ (by assumption))
    | (cases h; exact hinv)

theorem Remove_depth {P : Type} (L : Library P) (l : ListPortion P) (index : Int) :
    (ListPortion.Remove L l index).2._ListDepth =
      1 + maxDepth L (ListPortion.Remove L l index).2._Value := by
  unfold ListPortion.Remove
  simp only
  rw [Remove_fold L _ true 1 le_rfl]
  simp

theorem Flush_loop_depth {P : Type} (L : Library P) (n : Nat) : ∀ (l : ListPortion P) (deleted : List P),
    l._ListDepth = 1 + maxDepth L l._Value →
    (Flush.loop L n l deleted).1._ListDepth = 1 + maxDepth L (Flush.loop L n l deleted).1._Value := by
  induction n with
  | zero => intro l deleted h; exact h
  | succ n ih =>
    intro l deleted _
    exact ih _ _ (Remove_depth L l 1)

theorem apply_depth {P : Type} (L : Library P) (hL : L.Lawful) (l l2 : ListPortion P) (op : ListOp P)
    (h : ListPortion.apply L l op = some l2)
    (hinv : l._ListDepth = 1 + maxDepth L l._Value) :
    l2._ListDepth = 1 + maxDepth L l2._Value := by
  cases op with
  | Insert item index =>
    simp only [ListPortion.apply, Option.map_eq_some'] at h
    obtain ⟨r, hr, rfl⟩ := h
    exact Insert_depth L hL l item index r hr hinv
  | Append item =>
    simp only [ListPortion.apply, Option.map_eq_some'] at h
    obtain ⟨r, hr, rfl⟩ := h
    exact Insert_depth L hL l item _ r hr hinv
  | Remove index =>
    simp only [ListPortion.apply, Option.some.injEq] at h
    subst h
    exact Remove_depth L l index
  | Flush =>
    simp only [ListPortion.apply, Option.map_eq_some'] at h
    obtain ⟨r, hr, rfl⟩ := h
    unfold ListPortion.Flush at hr
    simp only at hr
    split_ifs at hr
    cases hr
    exact Flush_loop_depth L _ l [] hinv

theorem runFrom_depth {P : Type} (L : Library P) (hL : L.Lawful) (ops : List (ListOp P)) :
    ∀ (l l2 : ListPortion P), ListPortion.runFrom L l ops = some l2 →
      l._ListDepth = 1 + maxDepth L l._Value → l2._ListDepth = 1 + maxDepth L l2._Value := by
  induction ops with
  | nil =>
    intro l l2 h hinv
    simp only [ListPortion.runFrom, Option.some.injEq] at h
    subst h
    exact hinv
  | cons op ops ih =>
    intro l l2 h hinv
    unfold ListPortion.runFrom at h
    cases ha : ListPortion.apply L l op with
    | none => rw [ha] at h; cases h
    | some l1 =>
      rw [ha] at h
      exact ih l1 l2 h (apply_depth L hL l l1 op ha hinv)

/-- C22: the list-depth invariant.  For every list built from the empty list by
a sequence of `Insert`, `Append`, `Remove` and `Flush` calls, `_ListDepth` is 1
plus the greatest `Spec().ListDepth` of the current elements, and 1 when the
list is empty. -/
theorem C22_list_depth {P : Type} (L : Library P) (hL : L.Lawful) (ops : List (ListOp P))
    (l : ListPortion P) (h : ListPortion.run L ops = some l) :
    l._ListDepth = 1 + maxDepth L l._Value ∧ (l._Value = [] → l._ListDepth = 1) := by
  have h1 := runFrom_depth L hL ops (ListPortion.new L) l h rfl
  refine ⟨h1, fun he => ?_⟩
  rw [h1, he]
  rfl

theorem sampleLibrary_lawful : sampleLibrary.Lawful where
  depth_setDataType := fun _ _ => rfl
  insert_spec := by
    intro l x i
    refine ⟨if i < 1 then 0 else if i > (l.length : Int) + 1 then l.length else (i - 1).toNat,
      ?_, rfl⟩
    split_ifs <;> omega
  remove_spec := fun _ _ _ _ => rfl

theorem C22_list_depth_witness :
    ListPortion.run sampleLibrary
        [.Append sampleInteger, .Insert sampleList 1, .Remove 2, .Append sampleList] =
      some { _Value := [sampleList, sampleList], _ContainsListsOnly := true, _DataType := 4,
             _IsNull := false, _ListDepth := 2 } ∧
    (2 : Nat) = 1 + maxDepth sampleLibrary [sampleList, sampleList] :=
  have h : ListPortion.run sampleLibrary
      [.Append sampleInteger, .Insert sampleList 1, .Remove 2, .Append sampleList] =
      some { _Value := [sampleList, sampleList], _ContainsListsOnly := true, _DataType := 4,
             _IsNull := false, _ListDepth := 2 } := by decide
  ⟨h, (C22_list_depth sampleLibrary sampleLibrary_lawful _ _ h).1⟩

/-- C24: `Insert` on an item that passes the assertions of the code.  On a list
whose data type is defined the item is rejected (result 0, item deleted,
elements unchanged) exactly when its type does not match the data type of the
list, is not undefined and is not the error type.  In every other case, and
always when the data type of the list is undefined, the item is stored: the
result is positive, nothing is deleted, the length grows by one and the item
(with the data type of the list assigned, for an item of undefined type) sits
at some position among the old elements. -/
theorem C24_insert_rejects_iff {P : Type} (L : Library P) (hL : L.Lawful) (l : ListPortion P) (item : P)
    (index : Int) (href : (L.Spec item).type ≠ L.porREFERENCE)
    (hlist : Insert.item_type L item = L.porUNDEFINED → 0 < (L.Spec item).ListDepth) :
    ∃ r, ListPortion.Insert L l item index = some r ∧
      (l._DataType ≠ L.porUNDEFINED →
        ((r.result = 0 ∧ r.deleted = some item ∧ r.list._Value = l._Value) ↔
          (L.PortionSpecMatch (Insert.item_type L item) l._DataType = false ∧
            Insert.item_type L item ≠ L.porUNDEFINED ∧
            Insert.item_type L item ≠ L.porERROR))) ∧
      ((l._DataType = L.porUNDEFINED ∨
          L.PortionSpecMatch (Insert.item_type L item) l._DataType = true ∨
          Insert.item_type L item = L.porUNDEFINED ∨ Insert.item_type L item = L.porERROR) →
        0 < r.result ∧ r.deleted = none ∧ r.list._Value.length = l._Value.length + 1 ∧
          ∃ k stored, k ≤ l._Value.length ∧
            (stored = item ∨ stored = L.setDataType item l._DataType) ∧
            r.list._Value = l._Value.take k ++ stored :: l._Value.drop k) := by
  have hval : (if (L.Spec item).ListDepth = 0 then { l with _ContainsListsOnly := false }
      else l)._Value = l._Value := by split_ifs <;> rfl
  have hdt : (if (L.Spec item).ListDepth = 0 then { l with _ContainsListsOnly := false }
      else l)._DataType = l._DataType := by split_ifs <;> rfl
  have hfin : ∀ (l1 : ListPortion P) (res : Int) (x : P),
      (Insert.finish L l1 res x)._Value = l1._Value := by
    intro l1 res x
    unfold Insert.finish
    split_ifs <;> rfl
  have stored : ∀ (x : P) (dt : Nat) (l1 : ListPortion P), l1._Value = l._Value →
      (x = item ∨ x = L.setDataType item l._DataType) →
      0 < (L.gListInsert l1._Value x index).1 ∧
      (Insert.finish L { l1 with _DataType := dt, _Value := (L.gListInsert l1._Value x index).2 }
        (L.gListInsert l1._Value x index).1 x)._Value.length = l._Value.length + 1 ∧
      ∃ k stored, k ≤ l._Value.length ∧
        (stored = item ∨ stored = L.setDataType item l._DataType) ∧
        (Insert.finish L { l1 with _DataType := dt, _Value := (L.gListInsert l1._Value x index).2 }
          (L.gListInsert l1._Value x index).1 x)._Value =
            l._Value.take k ++ stored :: l._Value.drop k := by
    intro x dt l1 h1 hx
    obtain ⟨k, hk, hins⟩ := hL.insert_spec l1._Value x index
    rw [hfin, hins]
    rw [h1] at hk
    simp only [h1]
    refine ⟨by omega, ?_, k, x, hk, hx, rfl⟩
    simp only [List.length_append, List.length_cons, List.length_take, List.length_drop]
    omega
  unfold ListPortion.Insert
  simp only [href, if_false]
  generalize (if (L.Spec item).ListDepth = 0 then { l with _ContainsListsOnly := false }
      else l) = l1 at hval hdt ⊢
  rw [hdt]
  by_cases h1 : l._DataType = L.porUNDEFINED
  · rw [if_pos h1]
    have hs := stored item (Insert.item_type L item) l1 hval (Or.inl rfl)
    exact ⟨_, rfl, fun h => absurd h1 h, fun _ => ⟨hs.1, rfl, hs.2.1, hs.2.2⟩⟩
  · rw [if_neg h1]
    by_cases h2 : L.PortionSpecMatch (Insert.item_type L item) l._DataType = true
    · rw [if_pos h2]
      have hs := stored item l._DataType l1 hval (Or.inl rfl)
      refine ⟨_, rfl, fun _ => ⟨fun h => ?_, fun h => ?_⟩, fun _ => ⟨hs.1, rfl, hs.2.1, hs.2.2⟩⟩
      · exact absurd h.1 (ne_of_gt hs.1)
      · rw [h2] at h; exact absurd h.1 (by simp)
    · have h2f : L.PortionSpecMatch (Insert.item_type L item) l._DataType = false := by
        simpa using h2
      rw [if_neg h2]
      by_cases h3 : Insert.item_type L item = L.porUNDEFINED
      · rw [if_pos h3, if_pos (hlist h3)]
        have hs := stored (L.setDataType item l._DataType) l._DataType l1 hval (Or.inr rfl)
        refine ⟨_, rfl, fun _ => ⟨fun h => ?_, fun h => ?_⟩, fun _ => ⟨hs.1, rfl, hs.2.1, hs.2.2⟩⟩
        · exact absurd h.1 (ne_of_gt hs.1)
        · exact absurd h3 h.2.1
      · rw [if_neg h3]
        by_cases h4 : Insert.item_type L item = L.porERROR
        · rw [if_pos h4]
          have hs := stored item l._DataType l1 hval (Or.inl rfl)
          refine ⟨_, rfl, fun _ => ⟨fun h => ?_, fun h => ?_⟩,
            fun _ => ⟨hs.1, rfl, hs.2.1, hs.2.2⟩⟩
          · exact absurd h.1 (ne_of_gt hs.1)
          · exact absurd h4 h.2.2
        · rw [if_neg h4]
          refine ⟨_, rfl, fun _ => ⟨fun _ => ⟨h2f, h3, h4⟩, fun _ => ⟨rfl, rfl, hval⟩⟩, ?_⟩
          rintro (h | h | h | h)
          · exact absurd h h1
          · exact absurd h h2
          · exact absurd h h3
          · exact absurd h h4

theorem C24_insert_rejects_iff_witness :
    ∃ r, ListPortion.Insert sampleLibrary
        { _Value := [sampleInteger], _ContainsListsOnly := false, _DataType := 4,
          _IsNull := false, _ListDepth := 1 } sampleText 1 = some r ∧
      r.result = 0 ∧ r.deleted = some sampleText ∧ r.list._Value = [sampleInteger] :=
  match C24_insert_rejects_iff sampleLibrary sampleLibrary_lawful
      { _Value := [sampleInteger], _ContainsListsOnly := false, _DataType := 4,
        _IsNull := false, _ListDepth := 1 } sampleText 1 (by decide) (by decide) with
  | ⟨r, h, hrej, _⟩ => ⟨r, h, (hrej (by decide)).mpr ⟨by decide, by decide, by decide⟩⟩

/-- An item of depth 0 that `Insert` rejects still clears `_ContainsListsOnly`:
the elements stay as they were and `ContainsListsOnly()` answers false. -/
theorem Insert_rejected_clears_flag {P : Type} (L : Library P) (l : ListPortion P) (item : P)
    (index : Int) (href : (L.Spec item).type ≠ L.porREFERENCE)
    (hdepth : (L.Spec item).ListDepth = 0) (hdef : l._DataType ≠ L.porUNDEFINED)
    (hmatch : L.PortionSpecMatch (Insert.item_type L item) l._DataType = false)
    (hundef : Insert.item_type L item ≠ L.porUNDEFINED)
    (herr : Insert.item_type L item ≠ L.porERROR) :
    ∃ r, ListPortion.Insert L l item index = some r ∧ r.result = 0 ∧
      r.list._Value = l._Value ∧ r.list.ContainsListsOnly = false := by
  unfold ListPortion.Insert
  simp only [href, hdepth, hdef, hmatch, hundef, herr, if_false, if_true, Bool.false_eq_true]
  refine ⟨_, rfl, rfl, rfl, ?_⟩
  unfold ListPortion.ContainsListsOnly
  simp

/-- C23: the code at the failing input.  From the empty list, appending a list
and then a text that is rejected leaves one element, which is a list, but
`ContainsListsOnly()` answers false. -/
theorem C23_flag_cleared_by_rejected_item :
    ∃ l, ListPortion.run sampleLibrary [.Append sampleList, .Append sampleText] = some l ∧
      l._Value = [sampleList] ∧
      (l._Value ≠ [] ∧ ∀ x ∈ l._Value, 0 < (sampleLibrary.Spec x).ListDepth) ∧
      l.ContainsListsOnly = false :=
  ⟨{ _Value := [sampleList], _ContainsListsOnly := false, _DataType := 4, _IsNull := false,
     _ListDepth := 2 }, by decide, rfl, by decide, by decide⟩

/-! ## Theorems about the copy functions and `Original` -/

theorem snoc_lookup (h : Heap) (x o : Object) (a : Nat) (ha : (h ++ [x])[a]? = some o) :
    (a < h.length ∧ h[a]? = some o) ∨ (a = h.length ∧ o = x) := by
  by_cases hlt : a < h.length
  · rw [List.getElem?_append_left hlt] at ha
    exact Or.inl ⟨hlt, ha⟩
  · have hle : h.length ≤ a := by omega
    rw [List.getElem?_append_right hle] at ha
    have h0 : a - h.length = 0 := by
      by_contra hne
      have : (a - h.length) = (a - h.length - 1) + 1 := by omega
      rw [this] at ha
      simp at ha
    rw [h0] at ha
    simp at ha
    exact Or.inr ⟨by omega, ha.symm⟩

theorem lookup_snoc (h : Heap) (x o : Object) (a : Nat) (ha : h[a]? = some o) :
    (h ++ [x])[a]? = some o := by
  have hlt : a < h.length := by
    by_contra hn
    rw [List.getElem?_eq_none (by omega)] at ha
    cases ha
  rw [List.getElem?_append_left hlt]
  exact ha

/-- On a rooted heap `Original()` passes its assertion and returns the address
of a root: the portion itself when it is not a reference. -/
theorem Original_rooted (h : Heap) (hr : h.rooted) (a : Nat) (o : Object)
    (ha : h[a]? = some o) :
    ∃ r ro, Original o a = some (some r) ∧ h[r]? = some ro ∧ IsReference ro = false ∧
      ro._Original = none ∧ (IsReference o = false → r = a) := by
  rcases hr a o ha with ⟨h1, h2⟩ | ⟨h1, r, ro, h2, h3, h4, h5⟩
  · exact ⟨a, o, by simp [Original, h1, h2], ha, h1, h2, fun _ => rfl⟩
  · exact ⟨r, ro, by simp [Original, h1, h2], h3, h4, h5, fun hf => by rw [h1] at hf; cases hf⟩

/-- Adding a root, or a reference to a root, keeps the heap rooted. -/
theorem rooted_snoc (h : Heap) (hr : h.rooted) (x : Object)
    (hx : (IsReference x = false ∧ x._Original = none) ∨
      (IsReference x = true ∧ ∃ r ro, x._Original = some r ∧ h[r]? = some ro ∧
        IsReference ro = false ∧ ro._Original = none)) :
    Heap.rooted (h ++ [x]) := by
  intro a o ha
  have lift : ∀ y : Object,
      ((IsReference y = false ∧ y._Original = none) ∨
        (IsReference y = true ∧ ∃ r ro, y._Original = some r ∧ h[r]? = some ro ∧
          IsReference ro = false ∧ ro._Original = none)) →
      ((IsReference y = false ∧ y._Original = none) ∨
        (IsReference y = true ∧ ∃ r ro, y._Original = some r ∧ (h ++ [x])[r]? = some ro ∧
          IsReference ro = false ∧ ro._Original = none)) := by
    rintro y (hy | ⟨hy, r, ro, h2, h3, h4, h5⟩)
    · exact Or.inl hy
    · exact Or.inr ⟨hy, r, ro, h2, lookup_snoc h x ro r h3, h4, h5⟩
  rcases snoc_lookup h x o a ha with ⟨_, h1⟩ | ⟨_, h1⟩
  · exact lift o (hr a o h1)
  · rw [h1]; exact lift x hx

theorem IsReference_construct (c : PortionClass) : IsReference (construct c) = false := by
  cases c <;> rfl

/-- One copy call on a portion of a rooted heap: it returns, the new portion is
at the next address, the heap stays rooted, and a new portion that is a
reference has the `Original()` of the portion the call was made on. -/
theorem copy_rooted (h : Heap) (hr : h.rooted) (op : CopyOp) (o : Object)
    (ho : h[op.this]? = some o) :
    ∃ x, Heap.copy h op = some (h ++ [x], h.length) ∧ Heap.rooted (h ++ [x]) ∧
      (IsReference x = true → Original x h.length = Original o op.this) := by
  obtain ⟨r, ro, h1, h2, h3, h4, _⟩ := Original_rooted h hr op.this o ho
  rw [h1]
  have fresh : ∀ c, Heap.rooted (h ++ [construct c]) ∧
      (IsReference (construct c) = true →
        Original (construct c) h.length = some (some r)) := by
    intro c
    refine ⟨rooted_snoc h hr _ (Or.inl ⟨IsReference_construct c, rfl⟩), fun hf => ?_⟩
    rw [IsReference_construct] at hf
    cases hf
  have ref : ∀ c, IsReference { cls := c, _ref := true, _Original := some r } = true →
      Heap.rooted (h ++ [{ cls := c, _ref := true, _Original := some r }]) ∧
      (IsReference { cls := c, _ref := true, _Original := some r } = true →
        Original { cls := c, _ref := true, _Original := some r } h.length =
          some (some r)) := by
    intro c hc
    refine ⟨rooted_snoc h hr _ (Or.inr ⟨hc, r, ro, rfl, h2, h3, h4⟩), fun _ => ?_⟩
    simp [Original, hc]
  have hRef : ∃ x, RefCopy h op.this = some (h ++ [x], h.length) ∧ Heap.rooted (h ++ [x]) ∧
      (IsReference x = true → Original x h.length = some (some r)) := by
    unfold RefCopy
    rw [ho]
    obtain ⟨c, rf, orig⟩ := o
    cases c <;> simp only [h1] <;> refine ⟨_, rfl, ?_⟩ <;>
      first
      | exact fresh _
      | (apply ref; rfl)
  have hVal : ∃ x, ValCopy h op.this = some (h ++ [x], h.length) ∧ Heap.rooted (h ++ [x]) ∧
      (IsReference x = true → Original x h.length = some (some r)) := by
    have hdef : ValCopy h op.this =
        (match o.cls with
          | .Output | .Input => RefCopy h op.this
          | _ => some (h ++ [construct o.cls], h.length)) := by
      unfold ValCopy
      rw [ho]
    rw [hdef]
    obtain ⟨c, rf, orig⟩ := o
    cases c <;>
      first
      | exact ⟨_, rfl, fresh _⟩
      | exact hRef
  cases op with
  | RefCopy this => exact hRef
  | ValCopy this => exact hVal

theorem runFrom_rooted (ops : List CopyOp) : ∀ (h : Heap), h.rooted →
    CopyOp.valid h.length ops →
    ∃ h2, Heap.runFrom h ops = some h2 ∧ h2.rooted ∧ h2.length = h.length + ops.length := by
  induction ops with
  | nil => intro h hr _; exact ⟨h, rfl, hr, rfl⟩
  | cons op ops ih =>
    intro h hr hv
    obtain ⟨hlt, hv2⟩ := hv
    have ho : h[op.this]? = some (h[op.this]) := List.getElem?_eq_getElem hlt
    obtain ⟨x, hc, hr2, _⟩ := copy_rooted h hr op _ ho
    have hv3 : CopyOp.valid (h ++ [x]).length ops := by simpa using hv2
    obtain ⟨h2, e, hr3, hlen⟩ := ih (h ++ [x]) hr2 hv3
    refine ⟨h2, ?_, hr3, ?_⟩
    · unfold Heap.runFrom
      rw [hc]
      exact e
    · rw [hlen]
      simp
      omega

theorem rooted_construct (c : PortionClass) : Heap.rooted [construct c] := by
  intro a o ha
  cases a with
  | zero =>
    simp at ha
    subst ha
    exact Or.inl ⟨IsReference_construct c, rfl⟩
  | succ a => simp at ha

/-- C26: copies of a portion that is not a reference.  Start from one such
portion and make any sequence of `RefCopy` and `ValCopy` calls, each on a
portion that exists.  Then every call returns, and on every portion of the
heap `Original()` passes its assertion and returns the address of a portion
that is not a reference: the portion itself when it is not a reference.  A
further copy call on any portion returns a portion whose `Original()`, when it
is a reference, is the `Original()` of the portion it was copied from. -/
theorem C26_original_is_root (c : PortionClass) (ops : List CopyOp)
    (hv : CopyOp.valid 1 ops) :
    ∃ h, Heap.run c ops = some h ∧ h.length = 1 + ops.length ∧
      (∀ a o, h[a]? = some o →
        ∃ r ro, Original o a = some (some r) ∧ h[r]? = some ro ∧ IsReference ro = false ∧
          (IsReference o = false → r = a)) ∧
      (∀ op o, h[op.this]? = some o →
        ∃ x, Heap.copy h op = some (h ++ [x], h.length) ∧
          (IsReference x = true → Original x h.length = Original o op.this)) := by
  obtain ⟨h, e, hr, hlen⟩ := runFrom_rooted ops [construct c] (rooted_construct c) hv
  refine ⟨h, e, by simpa using hlen, ?_, ?_⟩
  · intro a o ha
    obtain ⟨r, ro, h1, h2, h3, _, h5⟩ := Original_rooted h hr a o ha
    exact ⟨r, ro, h1, h2, h3, h5⟩
  · intro op o ho
    obtain ⟨x, h1, _, h3⟩ := copy_rooted h hr op o ho
    exact ⟨x, h1, h3⟩

theorem C26_original_is_root_witness :
    ∃ h, Heap.run .Int [.RefCopy 0, .RefCopy 1, .ValCopy 2] = some h ∧ h.length = 4 :=
  match C26_original_is_root .Int [.RefCopy 0, .RefCopy 1, .ValCopy 2]
      ⟨by decide, by decide, by decide, trivial⟩ with
  | ⟨h, e, hlen, _⟩ => ⟨h, e, hlen⟩

/-! ## Theorems about `SetGame` and the count of references -/

theorem countP_set_add (q : Portion → Bool) (l : List Portion) : ∀ (i : Nat) (p p2 : Portion),
    l[i]? = some p →
    (l.set i p2).countP q + (if q p then 1 else 0) = l.countP q + (if q p2 then 1 else 0) := by
  induction l with
  | nil => intro i p p2 h; simp at h
  | cons a l ih =>
    intro i p p2 h
    cases i with
    | zero =>
      simp only [List.getElem?_cons_zero, Option.some.injEq] at h
      subst h
      simp only [List.set_cons_zero, List.countP_cons]
      omega
    | succ i =>
      simp only [List.getElem?_cons_succ] at h
      have := ih i p p2 h
      simp only [List.set_cons_succ, List.countP_cons]
      omega

theorem countP_eraseIdx_add (q : Portion → Bool) (l : List Portion) : ∀ (i : Nat) (p : Portion),
    l[i]? = some p →
    (l.eraseIdx i).countP q + (if q p then 1 else 0) = l.countP q := by
  induction l with
  | nil => intro i p h; simp at h
  | cons a l ih =>
    intro i p h
    cases i with
    | zero =>
      simp only [List.getElem?_cons_zero, Option.some.injEq] at h
      subst h
      simp only [List.eraseIdx_cons_zero, List.countP_cons]
    | succ i =>
      simp only [List.getElem?_cons_succ] at h
      have := ih i p h
      simp only [List.eraseIdx_cons_succ, List.countP_cons]
      omega

/-- The two overloads of `SetGame` differ in `_GameIsEfg` alone. -/
theorem SetGameEfg_eq (p : Portion) (g : Games) (game : Nat) :
    (Portion.SetGameEfg p g game).2 = (Portion.SetGameNfg p g game).2 ∧
      (Portion.SetGameEfg p g game).1._Game = (Portion.SetGameNfg p g game).1._Game := by
  unfold Portion.SetGameEfg Portion.SetGameNfg
  split_ifs <;> exact ⟨rfl, rfl⟩

/-- `SetGame` with the current game of the portion changes nothing. -/
theorem SetGame_same (p : Portion) (g : Games) :
    Portion.SetGameNfg p g p._Game = (p, g) ∧ Portion.SetGameEfg p g p._Game = (p, g) := by
  unfold Portion.SetGameEfg Portion.SetGameNfg
  simp

theorem SetGameNfg_game (p : Portion) (g : Games) (game : Nat) :
    (Portion.SetGameNfg p g game).1._Game = game := by
  by_cases h : game = p._Game
  · simp [Portion.SetGameNfg, h]
  · simp [Portion.SetGameNfg, h]

/-- The table after `SetGame`: one less for the old game, one more for the new. -/
theorem SetGameNfg_count (p : Portion) (g : Games) (game x : Nat) (hx : x ≠ 0) :
    (Portion.SetGameNfg p g game).2.GameRefCount x =
      g.GameRefCount x - (if p._Game = x then 1 else 0) + (if game = x then 1 else 0) := by
  unfold Portion.SetGameNfg
  split_ifs <;> simp only [Function.update_apply] <;> (try split_ifs) <;>
    first
    | omega
    | (exfalso; omega)
    | (subst_vars; omega)

/-- The log of deleted games after `SetGame`: the old game is added exactly
when the call changes the game, the old game is not null, and its count goes
to zero. -/
theorem SetGameNfg_deleted (p : Portion) (g : Games) (game : Nat) :
    (Portion.SetGameNfg p g game).2.deleted =
      if game ≠ p._Game ∧ p._Game ≠ 0 ∧ g.GameRefCount p._Game - 1 = 0
      then g.deleted ++ [p._Game] else g.deleted := by
  unfold Portion.SetGameNfg
  by_cases h1 : game = p._Game
  · simp [h1]
  · by_cases h2 : p._Game = 0
    · simp [h1, h2]
      split_ifs <;> rfl
    · by_cases h3 : g.GameRefCount p._Game - 1 = 0
      · simp only [ne_eq, h1, not_false_eq_true, h2, h3, if_true, and_self]
        split_ifs <;> rfl
      · simp only [ne_eq, h1, not_false_eq_true, h2, h3, if_true, if_false, and_false]
        split_ifs <;> rfl

theorem destroy_eq (p : Portion) (g : Games) :
    Portion.destroy p g = (Portion.SetGameNfg p g 0).2 := by
  unfold Portion.destroy
  split_ifs with h1 h2
  · exact (SetGameEfg_eq p g 0).1
  · rfl
  · have h0 : p._Game = 0 := by simpa using h2
    have hs := (SetGame_same p g).1
    rw [h0] at hs
    rw [hs]

theorem holders_nonneg (st : Store) (h : st.counted) (x : Nat) (hx : x ≠ 0) :
    0 ≤ st.games.GameRefCount x := by
  rw [h x hx]
  exact Int.natCast_nonneg _

/-- The games a `SetGame` call deletes are those whose count it brings to zero. -/
theorem SetGameNfg_deleted_iff (st : Store) (h : st.counted) (p : Portion) (game : Nat) :
    ∃ d, (Portion.SetGameNfg p st.games game).2.deleted = st.games.deleted ++ d ∧
      ∀ x, x ∈ d ↔ (x ≠ 0 ∧ st.games.GameRefCount x ≠ 0 ∧
        (Portion.SetGameNfg p st.games game).2.GameRefCount x = 0) := by
  have key : ∀ x, x ≠ 0 → st.games.GameRefCount x ≠ 0 →
      (Portion.SetGameNfg p st.games game).2.GameRefCount x = 0 →
      p._Game = x ∧ game ≠ p._Game ∧ st.games.GameRefCount p._Game - 1 = 0 := by
    intro x hx h1 h2
    rw [SetGameNfg_count p st.games game x hx] at h2
    have h0 := holders_nonneg st h x hx
    by_cases ha : p._Game = x
    · by_cases hg : game = x
      · rw [if_pos ha, if_pos hg] at h2
        omega
      · rw [if_pos ha, if_neg hg] at h2
        refine ⟨ha, fun h3 => hg (h3.trans ha), ?_⟩
        rw [ha]
        omega
    · by_cases hg : game = x
      · rw [if_neg ha, if_pos hg] at h2
        omega
      · rw [if_neg ha, if_neg hg] at h2
        omega
  rw [SetGameNfg_deleted]
  by_cases hc : game ≠ p._Game ∧ p._Game ≠ 0 ∧ st.games.GameRefCount p._Game - 1 = 0
  · rw [if_pos hc]
    refine ⟨[p._Game], rfl, fun x => ⟨fun hx => ?_, fun hx => ?_⟩⟩
    · have hxa : x = p._Game := by simpa using hx
      subst hxa
      refine ⟨hc.2.1, by omega, ?_⟩
      rw [SetGameNfg_count p st.games game _ hc.2.1, if_pos rfl, if_neg hc.1]
      omega
    · have := (key x hx.1 hx.2.1 hx.2.2).1
      simp [this]
  · rw [if_neg hc]
    refine ⟨[], by simp, fun x => ⟨fun hx => by simp at hx, fun hx => ?_⟩⟩
    obtain ⟨h1, h2, h3⟩ := key x hx.1 hx.2.1 hx.2.2
    exact absurd ⟨h2, by rw [h1]; exact hx.1, h3⟩ hc

/-- The count stays right when `SetGame` is called on a live portion. -/
theorem set_counted (st : Store) (h : st.counted) (i : Nat) (p : Portion)
    (hp : st.portions[i]? = some p) (game : Nat) (p2 : Portion) (hp2 : p2._Game = game) :
    Store.counted { portions := st.portions.set i p2,
                    games := (Portion.SetGameNfg p st.games game).2 } := by
  intro x hx
  have h1 := countP_set_add (fun q => q._Game == x) st.portions i p p2 hp
  have h2 := h x hx
  show (Portion.SetGameNfg p st.games game).2.GameRefCount x =
    ((st.portions.set i p2).countP (fun q => q._Game == x) : Int)
  rw [SetGameNfg_count p st.games game x hx, h2]
  unfold Store.holders
  simp only [hp2, beq_iff_eq] at h1
  split_ifs at h1 ⊢ <;> omega

theorem step_SetGameNfg_none (st : Store) (i game : Nat) (hp : st.portions[i]? = none) :
    st.step (.SetGameNfg i game) = st := by
  simp only [Store.step, hp]

theorem step_SetGameNfg_some (st : Store) (i game : Nat) (p : Portion)
    (hp : st.portions[i]? = some p) :
    st.step (.SetGameNfg i game) =
      { portions := st.portions.set i (Portion.SetGameNfg p st.games game).1,
        games := (Portion.SetGameNfg p st.games game).2 } := by
  simp only [Store.step, hp]

theorem step_SetGameEfg_none (st : Store) (i game : Nat) (hp : st.portions[i]? = none) :
    st.step (.SetGameEfg i game) = st := by
  simp only [Store.step, hp]

theorem step_SetGameEfg_some (st : Store) (i game : Nat) (p : Portion)
    (hp : st.portions[i]? = some p) :
    st.step (.SetGameEfg i game) =
      { portions := st.portions.set i (Portion.SetGameEfg p st.games game).1,
        games := (Portion.SetGameNfg p st.games game).2 } := by
  simp only [Store.step, hp, (SetGameEfg_eq p st.games game).1]

theorem step_destroy_none (st : Store) (i : Nat) (hp : st.portions[i]? = none) :
    st.step (.destroy i) = st := by
  simp only [Store.step, hp]

theorem step_destroy_some (st : Store) (i : Nat) (p : Portion)
    (hp : st.portions[i]? = some p) :
    st.step (.destroy i) =
      { portions := st.portions.eraseIdx i, games := (Portion.SetGameNfg p st.games 0).2 } := by
  simp only [Store.step, hp, destroy_eq]

theorem step_counted (st : Store) (op : StoreOp) (h : st.counted) : (st.step op).counted := by
  cases op with
  | construct =>
    intro x hx
    have h2 := h x hx
    show st.games.GameRefCount x =
      (((st.portions ++ [Portion.new]).countP (fun q => q._Game == x) : Nat) : Int)
    have hnew : (Portion.new._Game == x) = false := by
      simp only [Portion.new, beq_eq_false_iff_ne, ne_eq]
      exact fun h0 => hx h0.symm
    rw [h2, List.countP_append]
    simp [Store.holders, List.countP_cons, hnew]
  | SetGameNfg i game =>
    cases hp : st.portions[i]? with
    | none => rw [step_SetGameNfg_none st i game hp]; exact h
    | some p =>
      rw [step_SetGameNfg_some st i game p hp]
      exact set_counted st h i p hp game _ (SetGameNfg_game p st.games game)
  | SetGameEfg i game =>
    cases hp : st.portions[i]? with
    | none => rw [step_SetGameEfg_none st i game hp]; exact h
    | some p =>
      rw [step_SetGameEfg_some st i game p hp]
      exact set_counted st h i p hp game _
        ((SetGameEfg_eq p st.games game).2.trans (SetGameNfg_game p st.games game))
  | destroy i =>
    cases hp : st.portions[i]? with
    | none => rw [step_destroy_none st i hp]; exact h
    | some p =>
      rw [step_destroy_some st i p hp]
      intro x hx
      have h1 := countP_eraseIdx_add (fun q => q._Game == x) st.portions i p hp
      have h2 := h x hx
      show (Portion.SetGameNfg p st.games 0).2.GameRefCount x =
        ((st.portions.eraseIdx i).countP (fun q => q._Game == x) : Int)
      have h00 : ¬ (0 = x) := fun h0 => hx h0.symm
      rw [SetGameNfg_count p st.games 0 x hx, h2]
      simp only [h00, if_false]
      unfold Store.holders
      simp only [beq_iff_eq] at h1
      split_ifs at h1 ⊢ <;> omega

theorem step_deleted (st : Store) (op : StoreOp) (h : st.counted) :
    ∃ d, (st.step op).games.deleted = st.games.deleted ++ d ∧
      ∀ x, x ∈ d ↔ (x ≠ 0 ∧ st.games.GameRefCount x ≠ 0 ∧
        (st.step op).games.GameRefCount x = 0) := by
  have same : ∃ d, st.games.deleted = st.games.deleted ++ d ∧
      ∀ x, x ∈ d ↔ (x ≠ 0 ∧ st.games.GameRefCount x ≠ 0 ∧ st.games.GameRefCount x = 0) :=
    ⟨[], by simp, fun x => ⟨fun hx => by simp at hx, fun hx => absurd hx.2.2 hx.2.1⟩⟩
  cases op with
  | construct => exact same
  | SetGameNfg i game =>
    cases hp : st.portions[i]? with
    | none => rw [step_SetGameNfg_none st i game hp]; exact same
    | some p =>
      rw [step_SetGameNfg_some st i game p hp]
      exact SetGameNfg_deleted_iff st h p game
  | SetGameEfg i game =>
    cases hp : st.portions[i]? with
    | none => rw [step_SetGameEfg_none st i game hp]; exact same
    | some p =>
      rw [step_SetGameEfg_some st i game p hp]
      exact SetGameNfg_deleted_iff st h p game
  | destroy i =>
    cases hp : st.portions[i]? with
    | none => rw [step_destroy_none st i hp]; exact same
    | some p =>
      rw [step_destroy_some st i p hp]
      exact SetGameNfg_deleted_iff st h p 0

/-- C25: the reference count of games.  In a store where, for every game, the
count in the table is the number of live portions whose `_Game` it is, this
still holds after a portion is constructed, after either `SetGame` is called
on a live portion, and after a live portion is destroyed.  `SetGame` with the
current game of the portion changes nothing.  The games deleted in the step
are exactly those whose count the step brings to zero. -/
theorem C25_game_reference_count (st : Store) (op : StoreOp) (h : st.counted) :
    (st.step op).counted ∧
      (∀ p g, Portion.SetGameNfg p g p._Game = (p, g) ∧
        Portion.SetGameEfg p g p._Game = (p, g)) ∧
      ∃ d, (st.step op).games.deleted = st.games.deleted ++ d ∧
        ∀ x, x ∈ d ↔ (x ≠ 0 ∧ st.games.GameRefCount x ≠ 0 ∧
          (st.step op).games.GameRefCount x = 0) :=
  ⟨step_counted st op h, SetGame_same, step_deleted st op h⟩

theorem sampleStore_counted : sampleStore.counted := by
  intro x _
  by_cases h7 : x = 7
  · subst h7; rfl
  · have h8 : ¬ 7 = x := fun h => h7 h.symm
    simp [sampleStore, Store.holders, h7, h8]

theorem C25_game_reference_count_witness :
    (sampleStore.step (.SetGameEfg 0 0)).counted ∧
      (sampleStore.step (.SetGameEfg 0 0)).games.GameRefCount 7 = 1 :=
  ⟨(C25_game_reference_count sampleStore (.SetGameEfg 0 0) sampleStore_counted).1, by decide⟩

end Gsm
